import Mathlib

/-!
# Fibonacci buddy allocator (`fiboheap.c`)

A shallow embedding of the allocator engine of `fiboheap.c`, with the arena in
two forms.

* **Headers as records.**  Addresses are byte offsets from `heap_start`, `NULL`
  is `none`, and the arena is a partial map from offsets to `BlockHeader`
  records.  This form leaves the byte layout out: a header never overlaps the
  storage that follows a block shorter than `sizeof(BlockHeader)`, and reading
  a header at an offset where none was stored is a fault.  It is the program's
  behaviour on the runs in which every block can hold its header and every
  header is stored before it is read; it is used for the table functions
  (`init_fib_table`, `init_heap`, `align_size`), which touch no header but the
  first, and for a number of concrete runs.
* **The arena as bytes** (namespace `Bytes`).  Addresses are machine addresses,
  `NULL` is 0, the arena is the array of bytes `malloc(HEAP_SIZE)` returned,
  zero-filled, and every field access is a load or a store of the field's
  bytes at its offset in `struct BlockHeader` (LP64, little-endian).  It is
  used for the runs in which the header of a short block reaches into the next
  block, and every run evaluated on records is evaluated on bytes as well
  (`bytes_ev_one` and the theorems `bytes_agree_...`).

In both forms the globals `fib_numbers`, `fib_count`, `simulated_heap_size`,
`free_list_head` and `allocated_memory` are fields of `Heap`, `size_t` is 64
bits wide (arithmetic on `size_t` is taken modulo `2 ^ 64`), and every `while`
loop is driven by a loop bound (fuel); running out of fuel is reported as
`Fault.diverged`.
-/

namespace FiboHeap

/-! ## Constants -/

/-- The macro `HEAP_SIZE`. -/
def HEAP_SIZE : Nat := 1836311903

/-- The macro `MAX_FIB_COUNT`. -/
def MAX_FIB_COUNT : Nat := 50

/-- The modulus of `size_t` arithmetic (64-bit `size_t`). -/
def SIZE_T_MOD : Nat := 2 ^ 64

/-- The value of `sizeof(BlockHeader)`: two `size_t`, two `int`, two pointers
on an LP64 target. -/
def sizeof_BlockHeader : Nat := 40

/-! ## Data model -/

/-- The ways an operation can fail to return normally. -/
inductive Fault where
  /-- an `assert` failed and the process aborted -/
  | assertion
  /-- an access with no defined result: a read of a header that was never
  stored (headers as records), an access outside the arena (arena as bytes),
  a read of `fib_numbers` outside the table -/
  | undefined
  /-- a loop exhausted its bound -/
  | diverged
  /-- the process called `exit(EXIT_FAILURE)` -/
  | exited
deriving DecidableEq

/-- The struct `BlockHeader`.  Pointers are arena offsets. -/
structure BlockHeader where
  size : Nat
  req_size : Nat
  fib_index : Int
  is_free : Bool
  next_free : Option Nat
  prev_free : Option Nat
deriving DecidableEq

/-- Stand-in for the content of a header none of whose fields has been written
yet.  Every field the program reads is written before it is read, `req_size`
apart, which the program never reads. -/
def blank : BlockHeader := ⟨0, 0, 0, false, none, none⟩

/-- The global state of the program. -/
structure Heap where
  /-- the initialised prefix `fib_numbers[0 .. fib_count)` -/
  fib_numbers : List Nat
  simulated_heap_size : Nat
  /-- the headers stored in the arena, by offset from `heap_start` -/
  mem : Nat → Option BlockHeader
  free_list_head : Option Nat
  allocated_memory : Nat

/-- Reads the header at offset `a`. -/
def Heap.rd (s : Heap) (a : Nat) : Except Fault BlockHeader :=
  match s.mem a with
  | some h => .ok h
  | none => .error .undefined

/-- Stores into fields of the header at offset `a`. -/
def Heap.modify (s : Heap) (a : Nat) (f : BlockHeader → BlockHeader) : Heap :=
  { s with mem := Function.update s.mem a (some (f ((s.mem a).getD blank))) }

/-- The read `fib_numbers[i]` for an `int` index `i`. -/
def fib_at (t : List Nat) (i : Int) : Except Fault Nat :=
  if i < 0 then .error .undefined
  else match t.get? i.toNat with
    | some v => .ok v
    | none => .error .undefined

/-- Bound used for the loops that walk the free list: a list of distinct
offsets below `simulated_heap_size` has at most that many entries. -/
def Heap.fuel (s : Heap) : Nat := s.simulated_heap_size + 1

/-! ## `init_fib_table` -/

/-- The `while` loop of `init_fib_table`; `t` is `fib_numbers[0 .. fib_count)`. -/
def fib_loop (cap : Nat) : Nat → List Nat → List Nat
  | 0, t => t
  | fuel + 1, t =>
    if t.length < MAX_FIB_COUNT then
      let next := (t.getD (t.length - 1) 0 + t.getD (t.length - 2) 0) % SIZE_T_MOD
      if next > cap then t else fib_loop cap fuel (t ++ [next])
    else t

/-- The table `init_fib_table` builds when `HEAP_SIZE` is `cap`. -/
def init_fib_table (cap : Nat) : List Nat :=
  fib_loop cap MAX_FIB_COUNT [1, 2]

/-! ## `init_heap` -/

/-- The loop of `init_heap` that searches the largest index whose term is
`<= HEAP_SIZE`, counting down from `largest_index`. -/
def largest_loop (cap : Nat) (t : List Nat) : Nat → Int → Int
  | 0, i => i
  | fuel + 1, i =>
    if i ≥ 0 ∧ t.getD i.toNat 0 > cap then largest_loop cap t fuel (i - 1) else i

/-- The function `init_heap`, for a table `t` and `HEAP_SIZE = cap`; the
`malloc` of the arena is taken to succeed. -/
def init_heap (cap : Nat) (t : List Nat) : Except Fault Heap :=
  let largest_index := largest_loop cap t (t.length + 1) ((t.length : Int) - 1)
  if largest_index < 0 then .error .exited
  else
    let simulated_heap_size := t.getD largest_index.toNat 0
    .ok { fib_numbers := t
          simulated_heap_size := simulated_heap_size
          mem := Function.update (fun _ => none) 0
            (some ⟨simulated_heap_size, 0, largest_index, true, none, none⟩)
          free_list_head := some 0
          allocated_memory := 0 }

/-- The state after `init_fib_table(); init_heap();` as `main` runs them. -/
def init : Except Fault Heap := init_heap HEAP_SIZE (init_fib_table HEAP_SIZE)

/-! ## Free list: `insert_free_block`, `remove_free_block` -/

/-- The scan of `insert_free_block`: returns `(current, prev)` at loop exit. -/
def insert_scan (s : Heap) (block : Nat) :
    Nat → Option Nat → Option Nat → Except Fault (Option Nat × Option Nat)
  | 0, _, _ => .error .diverged
  | _ + 1, none, prev => .ok (none, prev)
  | fuel + 1, some c, prev =>
    if c < block then
      match s.mem c with
      | none => .error .undefined
      | some h => insert_scan s block fuel h.next_free (some c)
    else .ok (some c, prev)

/-- The function `insert_free_block`. -/
def insert_free_block (s : Heap) (block : Nat) : Except Fault Heap :=
  let s1 := s.modify block (fun h => { h with is_free := true })
  match s1.free_list_head with
  | none =>
    .ok ({ s1 with free_list_head := some block }.modify block
      (fun h => { h with next_free := none, prev_free := none }))
  | some hd =>
    match insert_scan s1 block s1.fuel (some hd) none with
    | .error e => .error e
    | .ok (current, prev) =>
      let s2 := s1.modify block (fun h => { h with next_free := current, prev_free := prev })
      let s3 := match prev with
        | some p => s2.modify p (fun h => { h with next_free := some block })
        | none => { s2 with free_list_head := some block }
      let s4 := match current with
        | some c => s3.modify c (fun h => { h with prev_free := some block })
        | none => s3
      .ok s4

/-- The function `remove_free_block`.  The store through `block->prev_free`
cannot change a field of `block` itself (it could land in `block` only when
`block->prev_free == block`, and then it stores `block->next_free` over
itself), so the later reads of `block->next_free` and `block->prev_free` see
the values read at entry. -/
def remove_free_block (s : Heap) (block : Nat) : Except Fault Heap :=
  match s.mem block with
  | none => .error .undefined
  | some b =>
    let s1 := match b.prev_free with
      | some p => s.modify p (fun h => { h with next_free := b.next_free })
      | none => { s with free_list_head := b.next_free }
    let s2 := match b.next_free with
      | some n => s1.modify n (fun h => { h with prev_free := b.prev_free })
      | none => s1
    .ok (s2.modify block
      (fun h => { h with next_free := none, prev_free := none, is_free := false }))

/-! ## `align_size` and `simulate_malloc` -/

/-- The function `align_size`. -/
def align_size (s : Heap) (size : Nat) : Nat :=
  let total_size := (size + sizeof_BlockHeader) % SIZE_T_MOD
  match s.fib_numbers.find? (fun v => decide (v ≥ total_size)) with
  | some v => v
  | none => 0

/-- The loop of `simulate_malloc` that computes `target_index`, scanning
`fib_numbers[i ..]` given as `t`. -/
def target_loop (aligned_size : Nat) : List Nat → Int → Int
  | [], _ => -1
  | v :: t, i => if v = aligned_size then i else target_loop aligned_size t (i + 1)

/-- The exact-fit search of `simulate_malloc`. -/
def find_exact (s : Heap) (target_index : Int) : Nat → Option Nat → Except Fault (Option Nat)
  | 0, _ => .error .diverged
  | _ + 1, none => .ok none
  | fuel + 1, some c =>
    match s.mem c with
    | none => .error .undefined
    | some h =>
      if h.fib_index = target_index then .ok (some c)
      else find_exact s target_index fuel h.next_free

/-- The smallest-larger search of `simulate_malloc`; `block` is the best
candidate so far. -/
def find_larger (s : Heap) (target_index : Int) :
    Nat → Option Nat → Option Nat → Except Fault (Option Nat)
  | 0, _, _ => .error .diverged
  | _ + 1, none, block => .ok block
  | fuel + 1, some c, block =>
    match s.mem c with
    | none => .error .undefined
    | some h =>
      if h.fib_index > target_index then
        match block with
        | none => find_larger s target_index fuel h.next_free (some c)
        | some b =>
          match s.mem b with
          | none => .error .undefined
          | some hb =>
            if h.fib_index < hb.fib_index then
              find_larger s target_index fuel h.next_free (some c)
            else find_larger s target_index fuel h.next_free (some b)
      else find_larger s target_index fuel h.next_free block

/-- The splitting loop of `simulate_malloc`. -/
def split_loop (target_index : Int) (block : Nat) : Nat → Heap → Except Fault Heap
  | 0, _ => .error .diverged
  | fuel + 1, s => do
    let h ← s.rd block
    if h.fib_index > target_index then
      let s1 ← remove_free_block s block
      let h1 ← s1.rd block
      let left_index := h1.fib_index - 1
      let right_index := h1.fib_index - 2
      let left_size ← fib_at s.fib_numbers left_index
      let right := block + left_size
      let right_size ← fib_at s.fib_numbers right_index
      let s2 := s1.modify block
        (fun h => { h with size := left_size, fib_index := left_index, is_free := true })
      let s3 := s2.modify right
        (fun h => { h with size := right_size, fib_index := right_index, is_free := true })
      let s4 ← insert_free_block s3 block
      let s5 ← insert_free_block s4 right
      split_loop target_index block fuel s5
    else pure s

/-- The body of `simulate_malloc` from the exact-fit search on, once
`target_index` has been computed. -/
def malloc_from (s : Heap) (target_index : Int) (size : Nat) :
    Except Fault (Option Nat × Heap) := do
  let exact ← find_exact s target_index s.fuel s.free_list_head
  let found ← match exact with
    | some b => pure (some b)
    | none => find_larger s target_index s.fuel s.free_list_head none
  match found with
  | none => pure (none, s)
  | some block =>
    let s1 ← split_loop target_index block s.fuel s
    let s2 ← remove_free_block s1 block
    let s3 := s2.modify block (fun h => { h with req_size := size })
    let hb ← s3.rd block
    pure (some (block + sizeof_BlockHeader),
      { s3 with allocated_memory := (s3.allocated_memory + hb.size) % SIZE_T_MOD })

/-- The function `simulate_malloc`: the returned pair is the handle (`none`
for `NULL`) and the state after the call. -/
def simulate_malloc (s : Heap) (size : Nat) : Except Fault (Option Nat × Heap) :=
  if size = 0 then .ok (none, s)
  else
    let aligned_size := align_size s size
    if aligned_size = 0 then .ok (none, s)
    else malloc_from s (target_loop aligned_size s.fib_numbers 0) size

/-! ## `try_merge` and `simulate_free` -/

/-- The left-neighbour scan of `try_merge`. -/
def find_left (s : Heap) (block : Nat) : Nat → Option Nat → Except Fault (Option Nat)
  | 0, _ => .error .diverged
  | _ + 1, none => .ok none
  | fuel + 1, some c =>
    match s.mem c with
    | none => .error .undefined
    | some h =>
      if c + h.size = block then .ok (some c)
      else find_left s block fuel h.next_free

/-- The condition of the right-buddy `if` of `try_merge`, its three conjuncts
evaluated left to right: `right` lies inside the arena, `right->is_free`, and
`right->fib_index == block->fib_index - 1`. -/
def right_buddy_check (s : Heap) (hb : BlockHeader) (right : Nat) : Except Fault Bool :=
  if right < s.simulated_heap_size then do
    let hr ← s.rd right
    pure (hr.is_free && decide (hr.fib_index = hb.fib_index - 1))
  else pure false

/-- The function `try_merge`; one unit of fuel per iteration of the
`do ... while (merged)` loop. -/
def try_merge : Nat → Heap → Nat → Except Fault Heap
  | 0, _, _ => .error .diverged
  | fuel + 1, s, block => do
    let hb ← s.rd block
    let right := block + hb.size
    let right_ok ← right_buddy_check s hb right
    if right_ok then
      let s1 ← remove_free_block s block
      let s2 ← remove_free_block s1 right
      let hr ← s2.rd right
      let s3 := s2.modify block (fun h =>
        { h with size := (h.size + hr.size) % SIZE_T_MOD, fib_index := h.fib_index + 1,
                 req_size := 0 })
      let s4 ← insert_free_block s3 block
      try_merge fuel s4 block
    else if block ≠ 0 then
      let left ← find_left s block s.fuel s.free_list_head
      match left with
      | none => pure s
      | some l =>
        let hl ← s.rd l
        if hl.is_free && decide (hl.fib_index = hb.fib_index - 1) then
          let s1 ← remove_free_block s l
          let s2 ← remove_free_block s1 block
          let hb2 ← s2.rd block
          let s3 := s2.modify l (fun h =>
            { h with size := (h.size + hb2.size) % SIZE_T_MOD, fib_index := h.fib_index + 1,
                     req_size := 0 })
          let s4 ← insert_free_block s3 l
          try_merge fuel s4 l
        else pure s
    else pure s

/-- The function `simulate_free`; `ptr` is the handle (`none` for `NULL`).  A
handle below `sizeof(BlockHeader)` would place the header before the arena. -/
def simulate_free (s : Heap) (ptr : Option Nat) : Except Fault Heap :=
  match ptr with
  | none => .ok s
  | some p =>
    if p < sizeof_BlockHeader then .error .undefined
    else do
      let block := p - sizeof_BlockHeader
      let h ← s.rd block
      if h.is_free then .error .assertion
      else
        let s1 := { s with allocated_memory :=
          (s.allocated_memory + (SIZE_T_MOD - h.size % SIZE_T_MOD)) % SIZE_T_MOD }
        let s2 ← insert_free_block s1 block
        try_merge s2.fuel s2 block

/-! ## Runs of the allocator and observers -/

/-- One call of the public interface. -/
inductive Op where
  | malloc (size : Nat)
  | free (handle : Nat)

/-- Runs a script of calls from state `s` with `hs` the outstanding handles
(returned by `simulate_malloc` and not freed since).  The run is `none` when a
call faults or when a `free` names a handle that is not outstanding. -/
def run_ops : List Op → Heap → List Nat → Option (Heap × List Nat)
  | [], s, hs => some (s, hs)
  | .malloc n :: ops, s, hs =>
    match simulate_malloc s n with
    | .ok (some p, s1) => run_ops ops s1 (p :: hs)
    | .ok (none, s1) => run_ops ops s1 hs
    | .error _ => none
  | .free p :: ops, s, hs =>
    if p ∈ hs then
      match simulate_free s (some p) with
      | .ok s1 => run_ops ops s1 (hs.erase p)
      | .error _ => none
    else none

/-- The run of a script from the initial state of `main`. -/
def run (ops : List Op) : Option (Heap × List Nat) :=
  match init with
  | .ok s => run_ops ops s []
  | .error _ => none

/-- A state is reachable, with outstanding handles `hs`, when a legal script
leads to it from the initial state. -/
def Reachable (s : Heap) (hs : List Nat) : Prop :=
  ∃ ops, run ops = some (s, hs)

/-- The offsets on the free list, walking `next_free` from `current` as
`print_free_list` does; the walk stops at an unwritten header. -/
def free_walk (s : Heap) : Nat → Option Nat → List Nat
  | 0, _ => []
  | _ + 1, none => []
  | fuel + 1, some c =>
    match s.mem c with
    | none => [c]
    | some h => c :: free_walk s fuel h.next_free

/-- The offsets of the free-list entries, head first. -/
def Heap.free_list (s : Heap) : List Nat := free_walk s s.fuel s.free_list_head

/-- The field `size` of the header at `a` (`0` when none is stored). -/
def Heap.size_at (s : Heap) (a : Nat) : Nat := ((s.mem a).getD blank).size

/-- The offsets of all blocks: the free-list entries and the blocks of the
outstanding handles `hs`, in address order. -/
def Heap.block_offsets (s : Heap) (hs : List Nat) : List Nat :=
  (s.free_list ++ hs.map (fun p => p - sizeof_BlockHeader)).insertionSort (fun a b => a ≤ b)

/-- Blocks `l`, in address order, tile `[pos, stop)`: each starts where the
previous one ends and the last one ends at `stop`. -/
def tiles_from (s : Heap) : Nat → List Nat → Nat → Bool
  | pos, [], stop => pos == stop
  | pos, a :: l, stop => a == pos && tiles_from s (pos + s.size_at a) l stop

/-- The tiling invariant: the blocks partition `[0, simulated_heap_size)`. -/
def Heap.tiled (s : Heap) (hs : List Nat) : Bool :=
  tiles_from s 0 (s.block_offsets hs) s.simulated_heap_size

/-- Every block has `size == fib_numbers[fib_index]`. -/
def Heap.sizes_consistent (s : Heap) (hs : List Nat) : Bool :=
  (s.block_offsets hs).all (fun a =>
    match s.mem a with
    | none => false
    | some h => decide (0 ≤ h.fib_index) && (s.fib_numbers.get? h.fib_index.toNat == some h.size))

/-- The free-list entries as `print_free_list` reports them, with the offset
in place of the address: offset, `size` and `fib_index`. -/
def Heap.free_blocks (s : Heap) : List (Nat × Nat × Int) :=
  s.free_list.map (fun a => (a, s.size_at a, ((s.mem a).getD blank).fib_index))

/-! ## Predicates used to state the invariants -/

/-- The `i`-th term (from 0) of the sequence 1, 2, 3, 5, 8, ... -/
def fibT (i : Nat) : Nat := Nat.fib (i + 2)

/-- The table `fib_numbers` of the program as configured (`HEAP_SIZE = 1836311903`). -/
def FIB : List Nat := init_fib_table HEAP_SIZE

/-- The term `fib_numbers[i]` of the configured table (`0` outside it). -/
def T (i : Int) : Nat := FIB.getD i.toNat 0

/-- The state `init_heap` leaves behind. -/
def init_state : Heap :=
  { fib_numbers := init_fib_table HEAP_SIZE
    simulated_heap_size := 1836311903
    mem := Function.update (fun _ => none) 0 (some ⟨1836311903, 0, 44, true, none, none⟩)
    free_list_head := some 0
    allocated_memory := 0 }

/-- The free-list links from `cur` spell out the offsets `l`, the first entry
pointing back at `prev`. -/
def Chain (mem : Nat → Option BlockHeader) : Option Nat → Option Nat → List Nat → Prop
  | _, cur, [] => cur = none
  | prev, cur, a :: l =>
    cur = some a ∧ ∃ h, mem a = some h ∧ h.prev_free = prev ∧ Chain mem (some a) h.next_free l

/-- The fields of a header other than the list links. -/
structure Core where
  size : Nat
  req_size : Nat
  fib_index : Int
  is_free : Bool
deriving DecidableEq

/-- The non-link fields of a header. -/
def core (h : BlockHeader) : Core := ⟨h.size, h.req_size, h.fib_index, h.is_free⟩

/-- The non-link fields of the headers stored in the arena. -/
def Heap.cores (s : Heap) : Nat → Option Core := fun a => (s.mem a).map core

/-- What the scan of `insert_free_block` returns on a chain spelling `l`:
the pair `(current, prev)`. -/
def scan_result (b : Nat) : Option Nat → List Nat → Option Nat × Option Nat
  | p0, [] => (none, p0)
  | p0, a :: l => if a < b then scan_result b (some a) l else (some a, p0)

/-- Offset `a` is the start of a block: a free-list entry or the block of an
outstanding handle. -/
def Live (l hs : List Nat) (a : Nat) : Prop := a ∈ l ∨ a + sizeof_BlockHeader ∈ hs

/-- The invariant on the non-link fields: `l` is the free list in address
order, `hs` the outstanding handles. -/
structure CoreInv (c : Nat → Option Core) (l hs : List Nat) : Prop where
  sorted : l.Sorted (· < ·)
  flag : ∀ a k, c a = some k → (k.is_free = true ↔ a ∈ l)
  handles : ∀ p ∈ hs, sizeof_BlockHeader ≤ p
  nodup : hs.Nodup
  alloc : ∀ a, a + sizeof_BlockHeader ∈ hs → a ∉ l
  blk : ∀ a, Live l hs a → ∃ k, c a = some k ∧ 0 ≤ k.fib_index ∧ k.fib_index ≤ 44 ∧
    T k.fib_index ≤ k.size ∧ a + k.size ≤ HEAP_SIZE
  disj : ∀ a b k, Live l hs a → Live l hs b → a < b → c a = some k → a + k.size ≤ b

/-- The invariant of the allocator: the free list is the well-linked chain `l`
and the blocks satisfy `CoreInv`. -/
structure WF (s : Heap) (l hs : List Nat) : Prop where
  table : s.fib_numbers = FIB
  cap : s.simulated_heap_size = HEAP_SIZE
  chain : Chain s.mem none s.free_list_head l
  inv : CoreInv s.cores l hs

/-! ## The arena as bytes

The definitions above keep every header as a record of its own.  The program
keeps them in the bytes of the arena, where the header of a block shorter than
`sizeof(BlockHeader)` runs into the block that follows it.  In this section the
arena is an array of bytes and every field access is a load or store of the
field's bytes:

* a pointer is an address (a `Nat` below `2 ^ 64`), `NULL` is 0, and the arena
  that `malloc(HEAP_SIZE)` returned occupies the addresses from `heap_start` to
  `heap_start + HEAP_SIZE`; an access outside it is a fault;
* the arena reads as 0 until it is written (storage of this size comes fresh
  from the operating system);
* `struct BlockHeader` is laid out as on an LP64 little-endian target: `size`
  at offset 0, `req_size` at 8, `fib_index` at 16, `is_free` at 20, `next_free`
  at 24, `prev_free` at 32, and an access need not be aligned;
* the functions are those of the source, statement by statement, and every
  `p->field` of the source is a load or a store of its own. -/

namespace Bytes

/-- Number of bytes of a page of the arena. -/
def PAGE : Nat := 4096

/-- The bytes of the arena, page by page: the entry `(i, w)` says that the
bytes at offsets `PAGE * i` to `PAGE * i + PAGE` are the base-256 digits of
`w`, lowest first; a page without an entry holds zeros.  (`byte_store` and
`load_bytes` below say what `Mem.store` and `Mem.load` do byte by byte.) -/
abbrev Mem := List (Nat × Nat)

/-- The content of page `i`. -/
def Mem.page : Mem → Nat → Nat
  | [], _ => 0
  | (j, w) :: m, i => if j = i then w else Mem.page m i

/-- Replaces the content of page `i`. -/
def Mem.set_page : Mem → Nat → Nat → Mem
  | [], i, v => [(i, v)]
  | (j, w) :: m, i, v => if j = i then (i, v) :: m else (j, w) :: Mem.set_page m i v

/-- The byte at offset `a`. -/
def Mem.byte (m : Mem) (a : Nat) : Nat := Mem.page m (a / PAGE) / 256 ^ (a % PAGE) % 256

/-- The number `w` with its `n` base-256 digits from position `k` on replaced
by the low `n` digits of `v`. -/
def put_bytes (w k n v : Nat) : Nat :=
  w - (w / 256 ^ k % 256 ^ n) * 256 ^ k + (v % 256 ^ n) * 256 ^ k

/-- The `n`-byte little-endian value stored from offset `a` on, `n ≤ PAGE`:
the bytes lie in one page or in two. -/
def Mem.load (m : Mem) (a n : Nat) : Nat :=
  let k := a % PAGE
  if k + n ≤ PAGE then Mem.page m (a / PAGE) / 256 ^ k % 256 ^ n
  else
    Mem.page m (a / PAGE) / 256 ^ k % 256 ^ (PAGE - k)
      + 256 ^ (PAGE - k) * (Mem.page m (a / PAGE + 1) % 256 ^ (k + n - PAGE))

/-- Stores the low `n` bytes of `v`, little-endian, from offset `a` on,
`n ≤ PAGE`. -/
def Mem.store (m : Mem) (a n v : Nat) : Mem :=
  let k := a % PAGE
  let i := a / PAGE
  if k + n ≤ PAGE then Mem.set_page m i (put_bytes (Mem.page m i) k n v)
  else
    let m1 := Mem.set_page m i (put_bytes (Mem.page m i) k (PAGE - k) v)
    Mem.set_page m1 (i + 1)
      (put_bytes (Mem.page m1 (i + 1)) 0 (k + n - PAGE) (v / 256 ^ (PAGE - k)))

/-- The global state of the program, the arena as bytes. -/
structure Heap where
  /-- the initialised prefix `fib_numbers[0 .. fib_count)` -/
  fib_numbers : List Nat
  /-- the address `malloc(HEAP_SIZE)` returned -/
  heap_start : Nat
  simulated_heap_size : Nat
  /-- the bytes of the arena, by offset from `heap_start` -/
  mem : Mem
  free_list_head : Nat
  allocated_memory : Nat

/-- Loads `n` bytes at address `p`. -/
def Heap.ld (s : Heap) (p n : Nat) : Except Fault Nat :=
  if s.heap_start ≤ p ∧ p + n ≤ s.heap_start + HEAP_SIZE then
    .ok (Mem.load s.mem (p - s.heap_start) n)
  else .error .undefined

/-- Stores the low `n` bytes of `v` at address `p`. -/
def Heap.st (s : Heap) (p n v : Nat) : Except Fault Heap :=
  if s.heap_start ≤ p ∧ p + n ≤ s.heap_start + HEAP_SIZE then
    .ok { s with mem := Mem.store s.mem (p - s.heap_start) n v }
  else .error .undefined

/-- The load `b->size`. -/
def Heap.size (s : Heap) (b : Nat) : Except Fault Nat := s.ld b 8

/-- The load `b->fib_index`, an `int`. -/
def Heap.fib_index (s : Heap) (b : Nat) : Except Fault Int := do
  let v ← s.ld (b + 16) 4
  pure (if v < 2 ^ 31 then (v : Int) else (v : Int) - 2 ^ 32)

/-- The load `b->is_free`, as a truth value. -/
def Heap.is_free (s : Heap) (b : Nat) : Except Fault Bool := do
  let v ← s.ld (b + 20) 4
  pure (v != 0)

/-- The load `b->next_free`. -/
def Heap.next_free (s : Heap) (b : Nat) : Except Fault Nat := s.ld (b + 24) 8

/-- The load `b->prev_free`. -/
def Heap.prev_free (s : Heap) (b : Nat) : Except Fault Nat := s.ld (b + 32) 8

/-- The store `b->size = v`. -/
def Heap.set_size (s : Heap) (b v : Nat) : Except Fault Heap := s.st b 8 (v % SIZE_T_MOD)

/-- The store `b->req_size = v`. -/
def Heap.set_req_size (s : Heap) (b v : Nat) : Except Fault Heap :=
  s.st (b + 8) 8 (v % SIZE_T_MOD)

/-- The store `b->fib_index = i`. -/
def Heap.set_fib_index (s : Heap) (b : Nat) (i : Int) : Except Fault Heap :=
  s.st (b + 16) 4 (i % 2 ^ 32).toNat

/-- The store `b->is_free = v`. -/
def Heap.set_is_free (s : Heap) (b v : Nat) : Except Fault Heap := s.st (b + 20) 4 v

/-- The store `b->next_free = p`. -/
def Heap.set_next_free (s : Heap) (b p : Nat) : Except Fault Heap := s.st (b + 24) 8 p

/-- The store `b->prev_free = p`. -/
def Heap.set_prev_free (s : Heap) (b p : Nat) : Except Fault Heap := s.st (b + 32) 8 p

/-- The read `fib_numbers[i]` of the global array of `MAX_FIB_COUNT` terms,
which is 0 past `fib_count`; an index outside the array is a fault. -/
def fib_read (t : List Nat) (i : Int) : Except Fault Nat :=
  if i < 0 ∨ (MAX_FIB_COUNT : Int) ≤ i then .error .undefined else .ok (t.getD i.toNat 0)

/-- Bound used for the loops: a loop that goes round more often than the arena
has bytes is taken not to end. -/
def fuel : Nat := HEAP_SIZE + 1

/-- The function `init_heap` for the configured `HEAP_SIZE`, with `base` the
address `malloc` returns. -/
def init_heap (t : List Nat) (base : Nat) : Except Fault Heap := do
  let largest_index := largest_loop HEAP_SIZE t (t.length + 1) ((t.length : Int) - 1)
  if largest_index < 0 then .error .exited
  else
    let s0 : Heap :=
      { fib_numbers := t, heap_start := base, simulated_heap_size := t.getD largest_index.toNat 0,
        mem := [], free_list_head := 0, allocated_memory := 0 }
    let s1 ← s0.set_size base s0.simulated_heap_size
    let s2 ← s1.set_req_size base 0
    let s3 ← s2.set_fib_index base largest_index
    let s4 ← s3.set_is_free base 1
    let s5 ← s4.set_prev_free base 0
    let s6 ← s5.set_next_free base 0
    pure { s6 with free_list_head := base }

/-- The state after `init_fib_table(); init_heap();` when the arena is at
address `base`. -/
def init (base : Nat) : Except Fault Heap := init_heap (init_fib_table HEAP_SIZE) base

/-- The scan of `insert_free_block`: returns `(current, prev)` at loop exit. -/
def insert_scan (s : Heap) (block : Nat) : Nat → Nat → Nat → Except Fault (Nat × Nat)
  | 0, _, _ => .error .diverged
  | fuel + 1, current, prev =>
    if current ≠ 0 ∧ current < block then do
      let next ← s.next_free current
      insert_scan s block fuel next current
    else .ok (current, prev)

/-- The function `insert_free_block`. -/
def insert_free_block (s : Heap) (block : Nat) : Except Fault Heap := do
  let s1 ← s.set_is_free block 1
  if s1.free_list_head = 0 then
    let s2 ← s1.set_prev_free block 0
    let s3 ← s2.set_next_free block 0
    pure { s3 with free_list_head := block }
  else
    let (current, prev) ← insert_scan s1 block fuel s1.free_list_head 0
    let s2 ← s1.set_next_free block current
    let s3 ← s2.set_prev_free block prev
    let s4 ← if prev ≠ 0 then s3.set_next_free prev block
      else pure { s3 with free_list_head := block }
    if current ≠ 0 then s4.set_prev_free current block else pure s4

/-- The function `remove_free_block`; every `block->...` is a load of its own. -/
def remove_free_block (s : Heap) (block : Nat) : Except Fault Heap := do
  let p ← s.prev_free block
  let s1 ← if p ≠ 0 then do
      let n ← s.next_free block
      s.set_next_free p n
    else do
      let n ← s.next_free block
      pure { s with free_list_head := n }
  let n ← s1.next_free block
  let s2 ← if n ≠ 0 then do
      let p ← s1.prev_free block
      s1.set_prev_free n p
    else pure s1
  let s3 ← s2.set_prev_free block 0
  let s4 ← s3.set_next_free block 0
  s4.set_is_free block 0

/-- The function `align_size`. -/
def align_size (s : Heap) (size : Nat) : Nat :=
  let total_size := (size + sizeof_BlockHeader) % SIZE_T_MOD
  match s.fib_numbers.find? (fun v => decide (v ≥ total_size)) with
  | some v => v
  | none => 0

/-- The exact-fit search of `simulate_malloc`. -/
def find_exact (s : Heap) (target_index : Int) : Nat → Nat → Except Fault Nat
  | 0, _ => .error .diverged
  | fuel + 1, current =>
    if current ≠ 0 then do
      let i ← s.fib_index current
      if i = target_index then pure current
      else do
        let next ← s.next_free current
        find_exact s target_index fuel next
    else pure 0

/-- The smallest-larger search of `simulate_malloc`; `block` is the candidate
so far. -/
def find_larger (s : Heap) (target_index : Int) : Nat → Nat → Nat → Except Fault Nat
  | 0, _, _ => .error .diverged
  | fuel + 1, current, block =>
    if current ≠ 0 then do
      let i ← s.fib_index current
      let block1 ← if i > target_index then
          if block = 0 then pure current
          else do
            let ib ← s.fib_index block
            pure (if i < ib then current else block)
        else pure block
      let next ← s.next_free current
      find_larger s target_index fuel next block1
    else pure block

/-- The splitting loop of `simulate_malloc`. -/
def split_loop (target_index : Int) (block : Nat) : Nat → Heap → Except Fault Heap
  | 0, _ => .error .diverged
  | fuel + 1, s => do
    let i ← s.fib_index block
    if i > target_index then
      let s1 ← remove_free_block s block
      let i1 ← s1.fib_index block
      let left_index := i1 - 1
      let i2 ← s1.fib_index block
      let right_index := i2 - 2
      let left_size ← fib_read s.fib_numbers left_index
      let s2 ← s1.set_size block left_size
      let s3 ← s2.set_fib_index block left_index
      let s4 ← s3.set_is_free block 1
      let right := (block + left_size) % SIZE_T_MOD
      let right_size ← fib_read s.fib_numbers right_index
      let s5 ← s4.set_size right right_size
      let s6 ← s5.set_fib_index right right_index
      let s7 ← s6.set_is_free right 1
      let s8 ← insert_free_block s7 block
      let s9 ← insert_free_block s8 right
      split_loop target_index block fuel s9
    else pure s

/-- The function `simulate_malloc`: the returned pair is the pointer handed
out (0 for `NULL`) and the state after the call. -/
def simulate_malloc (s : Heap) (size : Nat) : Except Fault (Nat × Heap) :=
  if size = 0 then .ok (0, s)
  else
    let aligned_size := align_size s size
    if aligned_size = 0 then .ok (0, s)
    else do
      let target_index := target_loop aligned_size s.fib_numbers 0
      let exact ← find_exact s target_index fuel s.free_list_head
      let block ← if exact ≠ 0 then pure exact
        else find_larger s target_index fuel s.free_list_head 0
      if block ≠ 0 then
        let s1 ← split_loop target_index block fuel s
        let s2 ← remove_free_block s1 block
        let s3 ← s2.set_req_size block size
        let sz ← s3.size block
        pure (block + sizeof_BlockHeader,
          { s3 with allocated_memory := (s3.allocated_memory + sz) % SIZE_T_MOD })
      else pure (0, s)

/-- The left-neighbour scan of `try_merge`. -/
def find_left (s : Heap) (block : Nat) : Nat → Nat → Except Fault Nat
  | 0, _ => .error .diverged
  | fuel + 1, current =>
    if current ≠ 0 then do
      let sz ← s.size current
      if (current + sz) % SIZE_T_MOD = block then pure current
      else do
        let next ← s.next_free current
        find_left s block fuel next
    else pure 0

/-- The body of a merge in `try_merge`: unlink `a`, unlink `b`, add the size of
`gone` to the size of `keep`, raise its index, clear its `req_size`, link it
again. -/
def merge_blocks (s : Heap) (a b keep gone : Nat) : Except Fault Heap := do
  let s1 ← remove_free_block s a
  let s2 ← remove_free_block s1 b
  let sk ← s2.size keep
  let sg ← s2.size gone
  let s3 ← s2.set_size keep (sk + sg)
  let ik ← s3.fib_index keep
  let s4 ← s3.set_fib_index keep (ik + 1)
  let s5 ← s4.set_req_size keep 0
  insert_free_block s5 keep

/-- One iteration of the `do ... while (merged)` loop of `try_merge`: `none`
when the iteration ends with `merged == 0`, otherwise the state and the value
of the local `block` with which the loop goes round again. -/
def merge_step (s : Heap) (block : Nat) : Except Fault (Option (Heap × Nat)) := do
  let sz ← s.size block
  let right := (block + sz) % SIZE_T_MOD
  let right_ok ← if right < s.heap_start + s.simulated_heap_size then do
      let f ← s.is_free right
      if f then do
        let ir ← s.fib_index right
        let ib ← s.fib_index block
        pure (decide (ir = ib - 1))
      else pure false
    else pure false
  if right_ok then
    let s1 ← merge_blocks s block right block right
    pure (some (s1, block))
  else if block ≠ s.heap_start then
    let left ← find_left s block fuel s.free_list_head
    let left_ok ← if left ≠ 0 then do
        let f ← s.is_free left
        if f then do
          let il ← s.fib_index left
          let ib ← s.fib_index block
          pure (decide (il = ib - 1))
        else pure false
      else pure false
    if left_ok then
      let s1 ← merge_blocks s left block left block
      pure (some (s1, left))
    else pure none
  else pure none

/-- The function `try_merge`, returning with the final state the value of the
local `block` at loop exit. -/
def try_merge : Nat → Heap → Nat → Except Fault (Heap × Nat)
  | 0, _, _ => .error .diverged
  | fuel + 1, s, block => do
    let r ← merge_step s block
    match r with
    | none => pure (s, block)
    | some (s1, b) => try_merge fuel s1 b

/-- The function `simulate_free`. -/
def simulate_free (s : Heap) (ptr : Nat) : Except Fault Heap :=
  if ptr = 0 then .ok s
  else do
    let block := ptr - sizeof_BlockHeader
    let f ← s.is_free block
    if f then .error .assertion
    else
      let sz ← s.size block
      let s1 := { s with allocated_memory :=
        (s.allocated_memory + (SIZE_T_MOD - sz % SIZE_T_MOD)) % SIZE_T_MOD }
      let s2 ← insert_free_block s1 block
      let r ← try_merge fuel s2 block
      pure r.1

/-- The loop of `validate_free_list`, the assertions in the order of the
source; returns the number of blocks visited. -/
def validate_loop (s : Heap) : Nat → Nat → Nat → Nat → Except Fault Nat
  | 0, _, _, _ => .error .diverged
  | fuel + 1, current, prev, count =>
    if current ≠ 0 then do
      let f ← s.is_free current
      if !f then .error .assertion
      else
        if prev ≠ 0 then
          if ¬ prev < current then .error .assertion
          else do
            let pn ← s.next_free prev
            if pn ≠ current then .error .assertion
            else do
              let cp ← s.prev_free current
              if cp ≠ prev then .error .assertion
              else do
                let next ← s.next_free current
                validate_loop s fuel next current (count + 1)
        else
          if current ≠ s.free_list_head then .error .assertion
          else do
            let cp ← s.prev_free current
            if cp ≠ 0 then .error .assertion
            else do
              let next ← s.next_free current
              validate_loop s fuel next current (count + 1)
    else .ok count

/-- The function `validate_free_list`. -/
def validate_free_list (s : Heap) : Except Fault Nat :=
  validate_loop s fuel s.free_list_head 0 0

/-- Runs a script of calls from state `s`; the handles in the script and in
`hs` are offsets from `heap_start`.  The run is `none` when a call faults or
when a `free` names a handle that is not outstanding. -/
def run_ops : List Op → Heap → List Nat → Option (Heap × List Nat)
  | [], s, hs => some (s, hs)
  | .malloc n :: ops, s, hs =>
    match simulate_malloc s n with
    | .ok (p, s1) =>
      if p = 0 then run_ops ops s1 hs else run_ops ops s1 ((p - s1.heap_start) :: hs)
    | .error _ => none
  | .free h :: ops, s, hs =>
    if h ∈ hs then
      match simulate_free s (s.heap_start + h) with
      | .ok s1 => run_ops ops s1 (hs.erase h)
      | .error _ => none
    else none

/-- The run of a script from the initial state, the arena at address `base`. -/
def run (base : Nat) (ops : List Op) : Option (Heap × List Nat) :=
  match init base with
  | .ok s => run_ops ops s []
  | .error _ => none

/-- The fault with which a call ended, `none` when it returned. -/
def fault_of {α : Type} : Except Fault α → Option Fault
  | .ok _ => none
  | .error e => some e

/-- An address at which `malloc(HEAP_SIZE)` places the arena on an LP64 Linux
target: a request of this size is served by a fresh page-aligned mapping, and
the pointer returned lies 16 bytes into it. -/
def ARENA : Nat := 0x7f0000000010

/-- The fields `size`, `fib_index`, `is_free` of the header read at offset `a`
of the arena (zeros when the header does not lie within the arena). -/
def Heap.header (s : Heap) (a : Nat) : Nat × Int × Bool :=
  (((s.size (s.heap_start + a)).toOption.getD 0),
    ((s.fib_index (s.heap_start + a)).toOption.getD 0),
    ((s.is_free (s.heap_start + a)).toOption.getD false))

/-- The fields `next_free`, `prev_free` of the header read at offset `a` of the
arena, as stored: addresses, 0 for `NULL`. -/
def Heap.links (s : Heap) (a : Nat) : Nat × Nat :=
  (((s.next_free (s.heap_start + a)).toOption.getD 0),
    ((s.prev_free (s.heap_start + a)).toOption.getD 0))

/-- The offsets of the free-list entries, walking `next_free` from `current`;
the walk stops at `NULL` and at a pointer outside the arena. -/
def free_walk (s : Heap) : Nat → Nat → List Nat
  | 0, _ => []
  | fuel + 1, current =>
    if current = 0 then []
    else match s.next_free current with
      | .ok next => (current - s.heap_start) :: free_walk s fuel next
      | .error _ => []

/-- The offsets of the free-list entries, head first. -/
def Heap.free_list (s : Heap) : List Nat := free_walk s fuel s.free_list_head

end Bytes

/-! # Theorems -/

/-! ## The Fibonacci table -/

theorem fibT_lt_mod (i : Nat) (h : i ≤ 50) : fibT i < SIZE_T_MOD := by
  have h1 : Nat.fib (i + 2) ≤ Nat.fib 52 := Nat.fib_mono (by omega)
  have h2 : Nat.fib 52 < SIZE_T_MOD := by
    rw [show Nat.fib 52 = 32951280099 by norm_num [Nat.fib_add_two]]
    decide
  exact lt_of_le_of_lt h1 h2

theorem fib_loop_shape (cap : Nat) : ∀ (fuel k : Nat), 2 ≤ k → k ≤ 50 →
    ∃ k', 2 ≤ k' ∧ k' ≤ 50 ∧ k ≤ k' ∧
      fib_loop cap fuel ((List.range k).map fibT) = (List.range k').map fibT := by
  intro fuel
  induction fuel with
  | zero => intro k h2 h50; exact ⟨k, h2, h50, le_refl _, rfl⟩
  | succ fuel ih =>
    intro k h2 h50
    unfold fib_loop
    by_cases hlen : k < 50
    · have hl : ((List.range k).map fibT).length = k := by simp
      have ha : ((List.range k).map fibT).getD (k - 1) 0 = fibT (k - 1) := by
        rw [List.getD_eq_getElem _ _ (by simp; omega)]; simp
      have hb : ((List.range k).map fibT).getD (k - 2) 0 = fibT (k - 2) := by
        rw [List.getD_eq_getElem _ _ (by simp; omega)]; simp
      have hsum : fibT (k - 1) + fibT (k - 2) = fibT k := by
        unfold fibT
        obtain ⟨j, rfl⟩ : ∃ j, k = j + 2 := ⟨k - 2, by omega⟩
        simp only [Nat.add_sub_cancel]
        rw [show j + 2 - 1 + 2 = j + 2 + 1 by omega, @Nat.fib_add_two (j + 2)]
        ring
      have hmod : (fibT (k - 1) + fibT (k - 2)) % SIZE_T_MOD = fibT k := by
        rw [hsum]; exact Nat.mod_eq_of_lt (fibT_lt_mod k (by omega))
      simp only [hl, MAX_FIB_COUNT, hlen, if_true, ha, hb, hmod]
      by_cases hc : fibT k > cap
      · simp only [hc, if_true]; exact ⟨k, h2, h50, le_refl _, rfl⟩
      · simp only [hc, if_false]
        have : (List.range k).map fibT ++ [fibT k] = (List.range (k + 1)).map fibT := by
          simp [List.range_succ]
        rw [this]
        obtain ⟨k', h1, h2', h3, h4⟩ := ih (k + 1) (by omega) (by omega)
        exact ⟨k', h1, h2', by omega, h4⟩
    · have hl : ((List.range k).map fibT).length = k := by simp
      simp only [hl, MAX_FIB_COUNT, hlen, if_false]
      exact ⟨k, h2, h50, le_refl _, rfl⟩

theorem init_fib_table_shape (cap : Nat) :
    ∃ k, 2 ≤ k ∧ k ≤ 50 ∧ init_fib_table cap = (List.range k).map fibT := by
  obtain ⟨k, h1, h2, _, h4⟩ := fib_loop_shape cap MAX_FIB_COUNT 2 (le_refl _) (by omega)
  refine ⟨k, h1, h2, ?_⟩
  unfold init_fib_table
  have : ([1, 2] : List Nat) = (List.range 2).map fibT := by decide
  rw [this]; exact h4

/-- C10 (table recurrence).  For the table built by `init_fib_table`, whatever
the value of `HEAP_SIZE`: `fib_numbers[0] = 1`, `fib_numbers[1] = 2`, every
term from index 2 on is the sum of the two before it, that sum stays below
`2 ^ 64` (no `size_t` wrap-around), and the terms strictly increase. -/
theorem init_fib_table_recurrence (cap : Nat) :
    (init_fib_table cap).get? 0 = some 1 ∧ (init_fib_table cap).get? 1 = some 2 ∧
    (∀ i, 2 ≤ i → i < (init_fib_table cap).length →
      (init_fib_table cap).getD i 0
          = (init_fib_table cap).getD (i - 1) 0 + (init_fib_table cap).getD (i - 2) 0 ∧
        (init_fib_table cap).getD (i - 1) 0 + (init_fib_table cap).getD (i - 2) 0 < SIZE_T_MOD) ∧
    (∀ i j, i < j → j < (init_fib_table cap).length →
      (init_fib_table cap).getD i 0 < (init_fib_table cap).getD j 0) := by
  obtain ⟨k, h2, h50, hk⟩ := init_fib_table_shape cap
  rw [hk]
  have hget : ∀ i, i < k → ((List.range k).map fibT).getD i 0 = fibT i := by
    intro i hi
    rw [List.getD_eq_getElem _ _ (by simp; omega)]; simp
  refine ⟨?_, ?_, ?_, ?_⟩
  · rw [List.get?_eq_getElem?]; simp [List.getElem?_map, List.getElem?_range (by omega : 0 < k)]; rfl
  · rw [List.get?_eq_getElem?]; simp [List.getElem?_map, List.getElem?_range (by omega : 1 < k)]; rfl
  · intro i hi hlt
    simp only [List.length_map, List.length_range] at hlt
    rw [hget i hlt, hget (i - 1) (by omega), hget (i - 2) (by omega)]
    have hsum : fibT (i - 1) + fibT (i - 2) = fibT i := by
      unfold fibT
      obtain ⟨j, rfl⟩ : ∃ j, i = j + 2 := ⟨i - 2, by omega⟩
      simp only [Nat.add_sub_cancel]
      rw [show j + 2 - 1 + 2 = j + 2 + 1 by omega, @Nat.fib_add_two (j + 2)]
      ring
    refine ⟨hsum.symm, ?_⟩
    rw [hsum]; exact fibT_lt_mod i (by omega)
  · intro i j hij hlt
    simp only [List.length_map, List.length_range] at hlt
    rw [hget i (by omega), hget j hlt]
    unfold fibT
    exact Nat.fib_add_two_strictMono hij

/-! ## Chains of free-list links -/

theorem modify_mem (s : Heap) (a : Nat) (f : BlockHeader → BlockHeader) (x : Nat) :
    (s.modify a f).mem x = if x = a then some (f ((s.mem a).getD blank)) else s.mem x := by
  unfold Heap.modify
  simp only [Function.update, eq_rec_constant, dite_eq_ite]

theorem Chain.frame {m m' : Nat → Option BlockHeader} :
    ∀ (l : List Nat) (p c : Option Nat), (∀ a ∈ l, m' a = m a) → Chain m p c l → Chain m' p c l := by
  intro l
  induction l with
  | nil => intro p c _ h; exact h
  | cons a l ih =>
    intro p c hfr h
    obtain ⟨hc, h0, hm, hp, hrest⟩ := h
    refine ⟨hc, h0, ?_, hp, ih _ _ (fun x hx => hfr x (List.mem_cons_of_mem _ hx)) hrest⟩
    rw [hfr a (List.mem_cons_self _ _)]; exact hm

theorem Chain.mem_some {m : Nat → Option BlockHeader} :
    ∀ (l : List Nat) (p c : Option Nat), Chain m p c l → ∀ a ∈ l, ∃ h, m a = some h := by
  intro l
  induction l with
  | nil => intro p c _ a ha; cases ha
  | cons x l ih =>
    intro p c h a ha
    obtain ⟨_, h0, hm, _, hrest⟩ := h
    rcases List.mem_cons.mp ha with rfl | ha'
    · exact ⟨h0, hm⟩
    · exact ih _ _ hrest a ha'

/-- In a chain, the `prev_free` of an entry is the entry pointer's `prev` when it
is the first entry, and an earlier entry of the chain otherwise. -/
theorem Chain.prev_of_mem {m : Nat → Option BlockHeader} :
    ∀ (l : List Nat) (p c : Option Nat), Chain m p c l → ∀ b hb, b ∈ l → m b = some hb →
      (hb.prev_free = p ∧ l.head? = some b) ∨ (∃ q ∈ l, hb.prev_free = some q ∧ l.head? ≠ some b) := by
  intro l
  induction l with
  | nil => intro p c _ b hb hmem; cases hmem
  | cons x l ih =>
    intro p c h b hb hmem hmb
    obtain ⟨_, h0, hm, hp, hrest⟩ := h
    by_cases hxb : x = b
    · subst hxb
      rw [hm] at hmb; cases hmb
      exact Or.inl ⟨hp, rfl⟩
    · right
      have hb' : b ∈ l := by
        rcases List.mem_cons.mp hmem with h | h
        · exact absurd h.symm hxb
        · exact h
      rcases ih _ _ hrest b hb hb' hmb with ⟨h1, _⟩ | ⟨q, hq, h1, _⟩
      · exact ⟨x, List.mem_cons_self _ _, h1, by simpa using hxb⟩
      · exact ⟨q, List.mem_cons_of_mem _ hq, h1, by simpa using hxb⟩

/-- In a chain, the `next_free` of an entry is `NULL` or a later entry. -/
theorem Chain.next_of_mem {m : Nat → Option BlockHeader} :
    ∀ (l : List Nat) (p c : Option Nat), Chain m p c l → ∀ b hb, b ∈ l → m b = some hb →
      hb.next_free = none ∨ ∃ n ∈ l, hb.next_free = some n := by
  intro l
  induction l with
  | nil => intro p c _ b hb hmem; cases hmem
  | cons x l ih =>
    intro p c h b hb hmem hmb
    obtain ⟨_, h0, hm, hp, hrest⟩ := h
    by_cases hxb : x = b
    · subst hxb
      rw [hm] at hmb; cases hmb
      cases l with
      | nil => left; exact hrest
      | cons y l' => right; exact ⟨y, by simp, hrest.1⟩
    · have hb' : b ∈ l := by
        rcases List.mem_cons.mp hmem with h | h
        · exact absurd h.symm hxb
        · exact h
      rcases ih _ _ hrest b hb hb' hmb with h1 | ⟨n, hn, h1⟩
      · exact Or.inl h1
      · exact Or.inr ⟨n, List.mem_cons_of_mem _ hn, h1⟩

theorem Chain.head_eq {m : Nat → Option BlockHeader} {p c : Option Nat} {l : List Nat}
    (h : Chain m p c l) : c = l.head? := by
  cases l with
  | nil => exact h
  | cons a l => exact h.1

/-- Unlinking `b` from a chain, given how the stores of `remove_free_block`
changed the memory. -/
theorem remove_chain_aux (m m' : Nat → Option BlockHeader) (b : Nat) (hb : BlockHeader)
    (hmb : m b = some hb)
    (F2 : ∀ x hx, x ≠ b → hb.next_free = some x → hb.prev_free ≠ some x → m x = some hx →
      m' x = some { hx with prev_free := hb.prev_free })
    (F3 : ∀ x hx, x ≠ b → hb.prev_free = some x → hb.next_free ≠ some x → m x = some hx →
      m' x = some { hx with next_free := hb.next_free })
    (F4 : ∀ x, x ≠ b → hb.prev_free ≠ some x → hb.next_free ≠ some x → m' x = m x) :
    ∀ (l : List Nat) (p0 cur : Option Nat), Chain m p0 cur l → l.Nodup →
      (∀ q, p0 = some q → q ∉ l) → b ∈ l →
      Chain m' p0 (if cur = some b then hb.next_free else cur) (l.erase b) := by
  intro l
  induction l with
  | nil => intro p0 cur _ _ _ hmem; cases hmem
  | cons a l ih =>
    intro p0 cur hch hnd hp0 hmem
    obtain ⟨hcur, ha, hma, hprev, hrest⟩ := hch
    have hnd' : l.Nodup := (List.nodup_cons.mp hnd).2
    have hal : a ∉ l := (List.nodup_cons.mp hnd).1
    by_cases hab : a = b
    · subst hab
      rw [hma] at hmb; cases hmb
      simp only [hcur, if_true, List.erase_cons_head]
      cases l with
      | nil => exact hrest
      | cons c l' =>
        obtain ⟨hn, hc, hmc, hcp, hrest'⟩ := hrest
        have hca : c ≠ a := fun h => hal (h ▸ List.mem_cons_self _ _)
        have hcl' : c ∉ l' := (List.nodup_cons.mp hnd').1
        have hpc : hb.prev_free ≠ some c := by
          intro h; rw [hprev] at h
          exact hp0 c h (List.mem_cons_of_mem _ (List.mem_cons_self _ _))
        refine ⟨hn, _, F2 c hc hca hn hpc hmc, hprev, ?_⟩
        refine Chain.frame l' _ _ ?_ hrest'
        intro x hx
        apply F4 x
        · intro h; exact hal (h ▸ List.mem_cons_of_mem _ hx)
        · intro h; rw [hprev] at h
          exact hp0 x h (List.mem_cons_of_mem _ (List.mem_cons_of_mem _ hx))
        · intro h; rw [hn] at h; cases h; exact hcl' hx
    · have hbl : b ∈ l := by
        rcases List.mem_cons.mp hmem with h | h
        · exact absurd h.symm hab
        · exact h
      have hcur' : ¬ cur = some b := by rw [hcur]; intro h; cases h; exact hab rfl
      rw [if_neg hcur', List.erase_cons_tail (by simpa using hab)]
      have hih := ih (some a) ha.next_free hrest hnd' (by intro q hq; cases hq; exact hal) hbl
      have hnext : ∀ n, hb.next_free = some n → n ≠ a := by
        intro n hn hna
        rcases Chain.next_of_mem l _ _ hrest b hb hbl hmb with h | ⟨n', hn', h⟩
        · rw [h] at hn; cases hn
        · rw [h] at hn; cases hn; exact hal (hna ▸ hn')
      rcases Chain.prev_of_mem l _ _ hrest b hb hbl hmb with ⟨h1, h2⟩ | ⟨q, hq, h1, h2⟩
      · -- `b` is the entry right after `a`
        have hnb : ha.next_free = some b := by rw [Chain.head_eq hrest]; exact h2
        rw [if_pos hnb] at hih
        refine ⟨hcur, _, F3 a ha hab h1 (fun h => hnext a h rfl) hma, hprev, hih⟩
      · have hnb : ¬ ha.next_free = some b := by rw [Chain.head_eq hrest]; exact h2
        rw [if_neg hnb] at hih
        have hqa : hb.prev_free ≠ some a := by
          rw [h1]; intro h; cases h; exact hal hq
        have : m' a = m a := F4 a hab hqa (fun h => hnext a h rfl)
        exact ⟨hcur, ha, by rw [this]; exact hma, hprev, hih⟩

/-! ## `remove_free_block` -/

theorem remove_free_block_facts (s : Heap) (b : Nat) (hb : BlockHeader) (hmb : s.mem b = some hb) :
    ∃ s', remove_free_block s b = .ok s' ∧
      s'.fib_numbers = s.fib_numbers ∧ s'.simulated_heap_size = s.simulated_heap_size ∧
      s'.allocated_memory = s.allocated_memory ∧
      s'.free_list_head = (if hb.prev_free = none then hb.next_free else s.free_list_head) ∧
      s'.mem b = some { hb with next_free := none, prev_free := none, is_free := false } ∧
      (∀ x hx, x ≠ b → hb.next_free = some x → hb.prev_free ≠ some x → s.mem x = some hx →
        s'.mem x = some { hx with prev_free := hb.prev_free }) ∧
      (∀ x hx, x ≠ b → hb.prev_free = some x → hb.next_free ≠ some x → s.mem x = some hx →
        s'.mem x = some { hx with next_free := hb.next_free }) ∧
      (∀ x, x ≠ b → hb.prev_free ≠ some x → hb.next_free ≠ some x → s'.mem x = s.mem x) := by
  unfold remove_free_block
  simp only [hmb]
  refine ⟨_, rfl, ?_, ?_, ?_, ?_, ?_, ?_, ?_, ?_⟩
  · cases hb.prev_free <;> cases hb.next_free <;> rfl
  · cases hb.prev_free <;> cases hb.next_free <;> rfl
  · cases hb.prev_free <;> cases hb.next_free <;> rfl
  · cases hb.prev_free <;> cases hb.next_free <;> rfl
  · rcases hb with ⟨sz, rq, ix, fr, nx, pv⟩
    cases pv <;> cases nx <;> simp [modify_mem, hmb] <;> split_ifs <;> simp_all
  · intro x hx hxb hn hp hmx
    simp only [hn]
    rw [modify_mem, if_neg hxb, modify_mem, if_pos rfl]
    cases hpv : hb.prev_free with
    | none => simp only [hmx, Option.getD_some]
    | some p =>
      have hpx : x ≠ p := by intro h; subst h; exact hp hpv
      simp only [modify_mem, if_neg hpx, hmx, Option.getD_some]
  · intro x hx hxb hp hn hmx
    simp only [hp]
    rw [modify_mem, if_neg hxb]
    cases hnx : hb.next_free with
    | none => simp only [modify_mem, if_pos, hmx, Option.getD_some, if_true]
    | some n =>
      have hnx' : x ≠ n := by intro h; subst h; exact hn hnx
      simp only [modify_mem, if_neg hnx', if_true, hmx, Option.getD_some]
  · intro x hxb hp hn
    rw [modify_mem, if_neg hxb]
    cases hpv : hb.prev_free with
    | none =>
      cases hnx : hb.next_free with
      | none => rfl
      | some n =>
        have hnx' : x ≠ n := by intro h; subst h; exact hn hnx
        simp only [modify_mem, if_neg hnx']
    | some p =>
      have hpx : x ≠ p := by intro h; subst h; exact hp hpv
      cases hnx : hb.next_free with
      | none => simp only [modify_mem, if_neg hpx]
      | some n =>
        have hnx' : x ≠ n := by intro h; subst h; exact hn hnx
        simp only [modify_mem, if_neg hnx', if_neg hpx]

theorem remove_free_block_core (s s' : Heap) (b : Nat) (hb : BlockHeader) (hmb : s.mem b = some hb)
    (hr : remove_free_block s b = .ok s') :
    ∀ x hx, x ≠ b → s.mem x = some hx → ∃ hx', s'.mem x = some hx' ∧ core hx' = core hx := by
  unfold remove_free_block at hr
  simp only [hmb] at hr
  cases hr
  intro x hx hxb hmx
  rw [modify_mem, if_neg hxb]
  cases hpv : hb.prev_free with
  | none =>
    cases hnx : hb.next_free with
    | none => exact ⟨hx, hmx, rfl⟩
    | some n =>
      by_cases hxn : x = n
      · subst hxn
        simp only [modify_mem, if_true, hmx, Option.getD_some]
        exact ⟨_, rfl, rfl⟩
      · simp only [modify_mem, if_neg hxn]
        exact ⟨hx, hmx, rfl⟩
  | some p =>
    cases hnx : hb.next_free with
    | none =>
      by_cases hxp : x = p
      · subst hxp
        simp only [modify_mem, if_true, hmx, Option.getD_some]
        exact ⟨_, rfl, rfl⟩
      · simp only [modify_mem, if_neg hxp]
        exact ⟨hx, hmx, rfl⟩
    | some n =>
      by_cases hxn : x = n
      · subst hxn
        by_cases hxp : x = p
        · subst hxp
          simp only [modify_mem, if_true, hmx, Option.getD_some]
          exact ⟨_, rfl, rfl⟩
        · simp only [modify_mem, if_true, if_neg hxp, hmx, Option.getD_some]
          exact ⟨_, rfl, rfl⟩
      · by_cases hxp : x = p
        · subst hxp
          simp only [modify_mem, if_true, if_neg hxn, hmx, Option.getD_some]
          exact ⟨_, rfl, rfl⟩
        · simp only [modify_mem, if_neg hxp, if_neg hxn]
          exact ⟨hx, hmx, rfl⟩

/-- Specification of `remove_free_block` on a well-linked free list. -/
theorem remove_free_block_spec (s : Heap) (b : Nat) (l : List Nat)
    (hch : Chain s.mem none s.free_list_head l) (hnd : l.Nodup) (hbl : b ∈ l) :
    ∃ s' hb, remove_free_block s b = .ok s' ∧ s.mem b = some hb ∧
      s'.fib_numbers = s.fib_numbers ∧ s'.simulated_heap_size = s.simulated_heap_size ∧
      s'.allocated_memory = s.allocated_memory ∧
      Chain s'.mem none s'.free_list_head (l.erase b) ∧
      s'.mem b = some { hb with next_free := none, prev_free := none, is_free := false } ∧
      (∀ x, x ≠ b → (s'.mem x).map core = (s.mem x).map core) := by
  obtain ⟨hb, hmb⟩ := Chain.mem_some l _ _ hch b hbl
  obtain ⟨s', hr, g1, g2, g3, hhead, hb', F2, F3, F4⟩ := remove_free_block_facts s b hb hmb
  refine ⟨s', hb, hr, hmb, g1, g2, g3, ?_, hb', ?_⟩
  · have := remove_chain_aux s.mem s'.mem b hb hmb F2 F3 F4 l none s.free_list_head hch hnd
      (by intro q hq; cases hq) hbl
    have hh : s'.free_list_head = if s.free_list_head = some b then hb.next_free
        else s.free_list_head := by
      rw [hhead]
      rcases Chain.prev_of_mem l _ _ hch b hb hbl hmb with ⟨h1, h2⟩ | ⟨q, _, h1, h2⟩
      · rw [if_pos h1, if_pos (by rw [Chain.head_eq hch]; exact h2)]
      · rw [if_neg (by rw [h1]; simp), if_neg (by rw [Chain.head_eq hch]; exact h2)]
    rw [hh]; exact this
  · intro x hxb
    cases hmx : s.mem x with
    | some hx =>
      obtain ⟨hx', h1, h2⟩ := remove_free_block_core s s' b hb hmb hr x hx hxb hmx
      rw [h1]; simp [h2]
    | none =>
      have hxl : x ∉ l := by
        intro h; obtain ⟨h0, h1⟩ := Chain.mem_some l _ _ hch x h; rw [hmx] at h1; cases h1
      have hp : hb.prev_free ≠ some x := by
        rcases Chain.prev_of_mem l _ _ hch b hb hbl hmb with ⟨h1, _⟩ | ⟨q, hq, h1, _⟩
        · rw [h1]; simp
        · rw [h1]; intro h; cases h; exact hxl hq
      have hn : hb.next_free ≠ some x := by
        rcases Chain.next_of_mem l _ _ hch b hb hbl hmb with h1 | ⟨q, hq, h1⟩
        · rw [h1]; simp
        · rw [h1]; intro h; cases h; exact hxl hq
      rw [F4 x hxb hp hn, hmx]

/-! ## `insert_free_block` -/

theorem insert_scan_eq (s : Heap) (b : Nat) :
    ∀ (l : List Nat) (fuel : Nat) (p0 cur : Option Nat), Chain s.mem p0 cur l → l.length < fuel →
      insert_scan s b fuel cur p0 = .ok (scan_result b p0 l) := by
  intro l
  induction l with
  | nil =>
    intro fuel p0 cur hch hf
    cases fuel with
    | zero => simp at hf
    | succ fuel => cases hch; rfl
  | cons a l ih =>
    intro fuel p0 cur hch hf
    obtain ⟨hcur, ha, hma, _, hrest⟩ := hch
    cases fuel with
    | zero => simp at hf
    | succ fuel =>
      subst hcur
      simp only [insert_scan, scan_result]
      by_cases hab : a < b
      · simp only [if_pos hab, hma]
        exact ih fuel (some a) _ hrest (by simpa using hf)
      · simp only [if_neg hab]

theorem scan_result_mem (b : Nat) :
    ∀ (l : List Nat) (p0 : Option Nat),
      ((scan_result b p0 l).1 = none ∨ ∃ x ∈ l, (scan_result b p0 l).1 = some x) ∧
      ((scan_result b p0 l).2 = p0 ∨ ∃ x ∈ l, (scan_result b p0 l).2 = some x) := by
  intro l
  induction l with
  | nil => intro p0; exact ⟨Or.inl rfl, Or.inl rfl⟩
  | cons a l ih =>
    intro p0
    simp only [scan_result]
    by_cases hab : a < b
    · simp only [if_pos hab]
      obtain ⟨h1, h2⟩ := ih (some a)
      constructor
      · rcases h1 with h | ⟨x, hx, h⟩
        · exact Or.inl h
        · exact Or.inr ⟨x, List.mem_cons_of_mem _ hx, h⟩
      · rcases h2 with h | ⟨x, hx, h⟩
        · exact Or.inr ⟨a, List.mem_cons_self _ _, h⟩
        · exact Or.inr ⟨x, List.mem_cons_of_mem _ hx, h⟩
    · rw [if_neg hab]
      exact ⟨Or.inr ⟨a, List.mem_cons_self _ _, rfl⟩, Or.inl rfl⟩

/-- Linking `b` into a chain, given how the stores of `insert_free_block`
changed the memory. -/
theorem insert_chain_aux (m m' : Nat → Option BlockHeader) (b : Nat) (cur' prev' : Option Nat)
    (G1 : ∃ hb', m' b = some hb' ∧ hb'.next_free = cur' ∧ hb'.prev_free = prev')
    (G2 : ∀ x hx, x ≠ b → prev' = some x → cur' ≠ some x → m x = some hx →
      m' x = some { hx with next_free := some b })
    (G3 : ∀ x hx, x ≠ b → cur' = some x → prev' ≠ some x → m x = some hx →
      m' x = some { hx with prev_free := some b })
    (G4 : ∀ x, x ≠ b → prev' ≠ some x → cur' ≠ some x → m' x = m x) :
    ∀ (l : List Nat) (p0 cur : Option Nat), Chain m p0 cur l → l.Nodup → b ∉ l →
      (∀ q, p0 = some q → q ∉ l ∧ q ≠ b) → scan_result b p0 l = (cur', prev') →
      Chain m' p0 (if prev' = p0 then some b else cur) (l.orderedInsert (· ≤ ·) b) := by
  intro l
  induction l with
  | nil =>
    intro p0 cur hch _ _ _ hscan
    simp only [scan_result, Prod.mk.injEq] at hscan
    obtain ⟨hc, hp⟩ := hscan
    obtain ⟨hb', h1, h2, h3⟩ := G1
    simp only [List.orderedInsert, ← hp, if_true]
    exact ⟨rfl, hb', h1, h3.trans hp.symm, by rw [h2, ← hc]; rfl⟩
  | cons a l ih =>
    intro p0 cur hch hnd hbl hp0 hscan
    obtain ⟨hcur, ha, hma, hprev, hrest⟩ := hch
    have hnd' : l.Nodup := (List.nodup_cons.mp hnd).2
    have hal : a ∉ l := (List.nodup_cons.mp hnd).1
    have hab : a ≠ b := fun h => hbl (h ▸ List.mem_cons_self _ _)
    have hbl' : b ∉ l := fun h => hbl (List.mem_cons_of_mem _ h)
    have hp0a : p0 ≠ some a := fun h => (hp0 a h).1 (List.mem_cons_self _ _)
    simp only [scan_result] at hscan
    by_cases hlt : a < b
    · rw [if_pos hlt] at hscan
      have hle : ¬ b ≤ a := by omega
      simp only [List.orderedInsert, if_neg hle]
      have hih := ih (some a) ha.next_free hrest hnd' hbl'
        (by intro q hq; cases hq; exact ⟨hal, hab⟩) hscan
      obtain ⟨hm1, hm2⟩ := scan_result_mem b l (some a)
      rw [hscan] at hm1 hm2
      simp only at hm1 hm2
      have hcura : cur' ≠ some a := by
        rcases hm1 with h | ⟨x, hx, h⟩
        · rw [h]; simp
        · rw [h]; intro h'; cases h'; exact hal hx
      have hprev0 : prev' ≠ p0 := by
        rcases hm2 with h | ⟨x, hx, h⟩
        · rw [h]; exact fun h' => hp0a h'.symm
        · rw [h]; intro h'; exact (hp0 x h'.symm).1 (List.mem_cons_of_mem _ hx)
      rw [if_neg hprev0]
      by_cases hpa : prev' = some a
      · rw [if_pos hpa] at hih
        exact ⟨hcur, _, G2 a ha hab hpa hcura hma, hprev, hih⟩
      · rw [if_neg hpa] at hih
        have : m' a = m a := G4 a hab hpa hcura
        exact ⟨hcur, ha, by rw [this]; exact hma, hprev, hih⟩
    · rw [if_neg hlt] at hscan
      simp only [Prod.mk.injEq] at hscan
      obtain ⟨hc, hp⟩ := hscan
      have hle : b ≤ a := by omega
      simp only [List.orderedInsert, if_pos hle, ← hp, if_true]
      obtain ⟨hb', h1, h2, h3⟩ := G1
      refine ⟨rfl, hb', h1, h3.trans hp.symm, ?_⟩
      rw [h2, ← hc]
      refine ⟨rfl, _, G3 a ha hab hc.symm (by rw [← hp]; exact hp0a) hma, rfl, ?_⟩
      refine Chain.frame l _ _ ?_ hrest
      intro x hx
      apply G4 x
      · intro h; exact hbl' (h ▸ hx)
      · rw [← hp]; intro h; exact (hp0 x h).1 (List.mem_cons_of_mem _ hx)
      · rw [← hc]; intro h; cases h; exact hal hx

@[simp] theorem modify_head (s : Heap) (a : Nat) (f : BlockHeader → BlockHeader) :
    (s.modify a f).free_list_head = s.free_list_head := rfl
@[simp] theorem modify_fib (s : Heap) (a : Nat) (f : BlockHeader → BlockHeader) :
    (s.modify a f).fib_numbers = s.fib_numbers := rfl
@[simp] theorem modify_cap (s : Heap) (a : Nat) (f : BlockHeader → BlockHeader) :
    (s.modify a f).simulated_heap_size = s.simulated_heap_size := rfl
@[simp] theorem modify_alloc (s : Heap) (a : Nat) (f : BlockHeader → BlockHeader) :
    (s.modify a f).allocated_memory = s.allocated_memory := rfl
@[simp] theorem modify_fuel (s : Heap) (a : Nat) (f : BlockHeader → BlockHeader) :
    (s.modify a f).fuel = s.fuel := rfl

theorem insert_free_block_facts (s : Heap) (b hd : Nat) (cur' prev' : Option Nat)
    (hhead : s.free_list_head = some hd)
    (hscan : insert_scan (s.modify b (fun h => { h with is_free := true })) b s.fuel (some hd) none
      = .ok (cur', prev'))
    (hpb : prev' ≠ some b) (hcb : cur' ≠ some b) :
    ∃ s', insert_free_block s b = .ok s' ∧
      s'.fib_numbers = s.fib_numbers ∧ s'.simulated_heap_size = s.simulated_heap_size ∧
      s'.allocated_memory = s.allocated_memory ∧
      s'.free_list_head = (if prev' = none then some b else s.free_list_head) ∧
      s'.mem b = some { (s.mem b).getD blank with
        is_free := true, next_free := cur', prev_free := prev' } ∧
      (∀ x hx, x ≠ b → prev' = some x → cur' ≠ some x → s.mem x = some hx →
        s'.mem x = some { hx with next_free := some b }) ∧
      (∀ x hx, x ≠ b → cur' = some x → prev' ≠ some x → s.mem x = some hx →
        s'.mem x = some { hx with prev_free := some b }) ∧
      (∀ x, x ≠ b → prev' ≠ some x → cur' ≠ some x → s'.mem x = s.mem x) ∧
      (∀ x hx, x ≠ b → s.mem x = some hx → ∃ hx', s'.mem x = some hx' ∧ core hx' = core hx) := by
  unfold insert_free_block
  simp only [modify_head, hhead, modify_fuel, hscan]
  refine ⟨_, rfl, ?_, ?_, ?_, ?_, ?_, ?_, ?_, ?_, ?_⟩
  · cases prev' <;> cases cur' <;> rfl
  · cases prev' <;> cases cur' <;> rfl
  · cases prev' <;> cases cur' <;> rfl
  · cases prev' <;> cases cur' <;> simp [hhead]
  · cases prev' with
    | none =>
      cases cur' with
      | none => simp [modify_mem]
      | some c =>
        have hbc : b ≠ c := fun h => hcb (by rw [h])
        simp [modify_mem, hbc]
    | some p =>
      have hbp : b ≠ p := fun h => hpb (by rw [h])
      cases cur' with
      | none => simp [modify_mem, hbp]
      | some c =>
        have hbc : b ≠ c := fun h => hcb (by rw [h])
        simp [modify_mem, hbc, hbp]
  · intro x hx hxb hp hc hmx
    subst hp
    cases cur' with
    | none => simp [modify_mem, hxb, hmx]
    | some c =>
      have hxc : x ≠ c := fun h => hc (by rw [h])
      simp [modify_mem, hxb, hmx, hxc]
  · intro x hx hxb hc hp hmx
    subst hc
    cases prev' with
    | none => simp [modify_mem, hxb, hmx]
    | some p =>
      have hxp : x ≠ p := fun h => hp (by rw [h])
      simp [modify_mem, hxb, hmx, hxp]
  · intro x hxb hp hc
    cases prev' with
    | none =>
      cases cur' with
      | none => simp [modify_mem, hxb]
      | some c =>
        have hxc : x ≠ c := fun h => hc (by rw [h])
        simp [modify_mem, hxb, hxc]
    | some p =>
      have hxp : x ≠ p := fun h => hp (by rw [h])
      cases cur' with
      | none => simp [modify_mem, hxb, hxp]
      | some c =>
        have hxc : x ≠ c := fun h => hc (by rw [h])
        simp [modify_mem, hxb, hxc, hxp]
  · intro x hx hxb hmx
    cases prev' with
    | none =>
      cases cur' with
      | none => exact ⟨hx, by simp [modify_mem, hxb, hmx], rfl⟩
      | some c =>
        by_cases hxc : x = c
        · subst hxc
          exact ⟨{ hx with prev_free := some b }, by simp [modify_mem, hxb, hmx], rfl⟩
        · exact ⟨hx, by simp [modify_mem, hxb, hmx, hxc], rfl⟩
    | some p =>
      cases cur' with
      | none =>
        by_cases hxp : x = p
        · subst hxp
          exact ⟨{ hx with next_free := some b }, by simp [modify_mem, hxb, hmx], rfl⟩
        · exact ⟨hx, by simp [modify_mem, hxb, hmx, hxp], rfl⟩
      | some c =>
        by_cases hxc : x = c
        · subst hxc
          by_cases hxp : x = p
          · subst hxp
            exact ⟨{ hx with next_free := some b, prev_free := some b },
              by simp [modify_mem, hxb, hmx], rfl⟩
          · exact ⟨{ hx with prev_free := some b }, by simp [modify_mem, hxb, hmx, hxp], rfl⟩
        · by_cases hxp : x = p
          · subst hxp
            exact ⟨{ hx with next_free := some b }, by simp [modify_mem, hxb, hmx, hxc], rfl⟩
          · exact ⟨hx, by simp [modify_mem, hxb, hmx, hxc, hxp], rfl⟩

/-- Specification of `insert_free_block` on a well-linked free list. -/
theorem insert_free_block_spec (s : Heap) (b : Nat) (l : List Nat)
    (hch : Chain s.mem none s.free_list_head l) (hnd : l.Nodup) (hbl : b ∉ l)
    (hfuel : l.length < s.fuel) :
    ∃ s', insert_free_block s b = .ok s' ∧
      s'.fib_numbers = s.fib_numbers ∧ s'.simulated_heap_size = s.simulated_heap_size ∧
      s'.allocated_memory = s.allocated_memory ∧
      Chain s'.mem none s'.free_list_head (l.orderedInsert (· ≤ ·) b) ∧
      (∃ hb', s'.mem b = some hb' ∧
        core hb' = core { (s.mem b).getD blank with is_free := true }) ∧
      (∀ x, x ≠ b → (s'.mem x).map core = (s.mem x).map core) := by
  cases l with
  | nil =>
    have hh : s.free_list_head = none := hch
    unfold insert_free_block
    simp only [modify_head, hh]
    refine ⟨_, rfl, rfl, rfl, rfl, ?_, ?_, ?_⟩
    · simp only [List.orderedInsert]
      refine ⟨rfl, _, by rw [modify_mem, if_pos rfl], rfl, ?_⟩
      show (none : Option Nat) = none
      rfl
    · exact ⟨_, by rw [modify_mem, if_pos rfl], by simp [modify_mem, core]⟩
    · intro x hxb
      simp only [modify_mem, if_neg hxb]
  | cons a l' =>
    have hh : s.free_list_head = some a := hch.1
    have hch1 : Chain (s.modify b (fun h => { h with is_free := true })).mem none
        s.free_list_head (a :: l') := by
      refine Chain.frame _ _ _ ?_ hch
      intro x hx
      have hxb : x ≠ b := fun h => hbl (h ▸ hx)
      rw [modify_mem, if_neg hxb]
    have hscan := insert_scan_eq (s.modify b (fun h => { h with is_free := true })) b (a :: l')
      s.fuel none s.free_list_head hch1 hfuel
    rw [hh] at hscan
    obtain ⟨hm1, hm2⟩ := scan_result_mem b (a :: l') none
    have hcb : (scan_result b none (a :: l')).1 ≠ some b := by
      rcases hm1 with h | ⟨x, hx, h⟩
      · rw [h]; simp
      · rw [h]; intro h'; cases h'; exact hbl hx
    have hpb : (scan_result b none (a :: l')).2 ≠ some b := by
      rcases hm2 with h | ⟨x, hx, h⟩
      · rw [h]; simp
      · rw [h]; intro h'; cases h'; exact hbl hx
    obtain ⟨s', hr, g1, g2, g3, hhead, hb', G2, G3, G4, hcore⟩ :=
      insert_free_block_facts s b a _ _ hh hscan hpb hcb
    refine ⟨s', hr, g1, g2, g3, ?_, ⟨_, hb', rfl⟩, ?_⟩
    · have := insert_chain_aux s.mem s'.mem b _ _ ⟨_, hb', rfl, rfl⟩ G2 G3 G4 (a :: l') none
        s.free_list_head hch hnd hbl (by intro q hq; cases hq) rfl
      rw [hhead]; exact this
    · intro x hxb
      cases hmx : s.mem x with
      | some hx =>
        obtain ⟨hx', h1, h2⟩ := hcore x hx hxb hmx
        rw [h1]; simp [h2]
      | none =>
        have hxl : x ∉ a :: l' := by
          intro h; obtain ⟨h0, h1⟩ := Chain.mem_some _ _ _ hch x h; rw [hmx] at h1; cases h1
        have hp : (scan_result b none (a :: l')).2 ≠ some x := by
          rcases hm2 with h | ⟨y, hy, h⟩
          · rw [h]; simp
          · rw [h]; intro h'; cases h'; exact hxl hy
        have hc : (scan_result b none (a :: l')).1 ≠ some x := by
          rcases hm1 with h | ⟨y, hy, h⟩
          · rw [h]; simp
          · rw [h]; intro h'; cases h'; exact hxl hy
        rw [G4 x hxb hp hc, hmx]

/-! ## Facts about the configured table -/

theorem FIB_eq : FIB = [1, 2, 3, 5, 8, 13, 21, 34, 55, 89, 144, 233, 377, 610, 987, 1597, 2584,
    4181, 6765, 10946, 17711, 28657, 46368, 75025, 121393, 196418, 317811, 514229, 832040,
    1346269, 2178309, 3524578, 5702887, 9227465, 14930352, 24157817, 39088169, 63245986,
    102334155, 165580141, 267914296, 433494437, 701408733, 1134903170, 1836311903] := by
  decide

theorem int_cases_44 (P : Int → Prop) (h : ∀ n : Nat, n ≤ 44 → P n) (i : Int) (h0 : 0 ≤ i)
    (h1 : i ≤ 44) : P i := by
  have := h i.toNat (by omega)
  rwa [Int.toNat_of_nonneg h0] at this

theorem T_pos (i : Int) (h0 : 0 ≤ i) (h1 : i ≤ 44) : 1 ≤ T i := by
  revert i
  apply int_cases_44
  intro n hn
  unfold T
  rw [FIB_eq]
  interval_cases n <;> decide

theorem T_rec (k : Int) (h0 : 2 ≤ k) (h1 : k ≤ 44) : T (k - 1) + T (k - 2) = T k := by
  have h := int_cases_44 (fun k => 2 ≤ k → T (k - 1) + T (k - 2) = T k) ?_ k (by omega) h1 h0
  · exact h
  · intro n hn h2
    have h2' : 2 ≤ n := by omega
    unfold T
    rw [FIB_eq]
    interval_cases n <;> decide

theorem fib_at_T (i : Int) (h0 : 0 ≤ i) (h1 : i ≤ 44) : fib_at FIB i = .ok (T i) := by
  revert i
  apply int_cases_44
  intro n hn
  unfold T fib_at
  rw [FIB_eq]
  interval_cases n <;> rfl

theorem fib_at_neg (i : Int) (h : i < 0) : fib_at FIB i = .error .undefined := by
  unfold fib_at
  rw [if_pos h]

theorem T_top : T 44 = HEAP_SIZE := by decide

theorem T_lt_succ (k : Int) (h0 : 1 ≤ k) (h1 : k ≤ 44) : T (k - 1) < T k := by
  by_cases h : k = 1
  · subst h; decide
  · have := T_rec k (by omega) h1
    have := T_pos (k - 2) (by omega) (by omega)
    omega

theorem HEAP_SIZE_lt : HEAP_SIZE < SIZE_T_MOD := by decide

/-! ## The invariant on the non-link fields -/

theorem sorted_lt_nodup {l : List Nat} (h : l.Sorted (· < ·)) : l.Nodup :=
  List.Sorted.nodup h

theorem sorted_lt_insert {l : List Nat} (h : l.Sorted (· < ·)) (b : Nat) (hb : b ∉ l) :
    (l.orderedInsert (· ≤ ·) b).Sorted (· < ·) := by
  apply List.Sorted.lt_of_le
  · exact List.Sorted.orderedInsert b l h.le_of_lt
  · rw [(List.perm_orderedInsert (· ≤ ·) b l).nodup_iff]
    exact List.nodup_cons.mpr ⟨hb, sorted_lt_nodup h⟩

theorem sorted_lt_erase {l : List Nat} (h : l.Sorted (· < ·)) (b : Nat) :
    (l.erase b).Sorted (· < ·) :=
  List.Pairwise.sublist (List.erase_sublist b l) h

theorem mem_insert_iff {l : List Nat} {a b : Nat} :
    a ∈ l.orderedInsert (· ≤ ·) b ↔ a = b ∨ a ∈ l := List.mem_orderedInsert _

theorem mem_erase_iff {l : List Nat} (h : l.Sorted (· < ·)) {a b : Nat} :
    a ∈ l.erase b ↔ a ≠ b ∧ a ∈ l := (sorted_lt_nodup h).mem_erase_iff

theorem insert_erase_self {l : List Nat} (h : l.Sorted (· < ·)) {b : Nat} (hb : b ∈ l) :
    (l.erase b).orderedInsert (· ≤ ·) b = l :=
  List.orderedInsert_erase b l hb h.le_of_lt

theorem Live_insert {l hs : List Nat} {a r : Nat} :
    Live (l.orderedInsert (· ≤ ·) r) hs a ↔ a = r ∨ Live l hs a := by
  unfold Live
  rw [mem_insert_iff]
  tauto

/-- A block's start is below the capacity. -/
theorem CoreInv.lt_cap {c : Nat → Option Core} {l hs : List Nat} (h : CoreInv c l hs) {a : Nat}
    (ha : Live l hs a) : a < HEAP_SIZE := by
  obtain ⟨k, _, h0, h1, h2, h3⟩ := h.blk a ha
  have := T_pos k.fib_index h0 h1
  omega

/-- Splitting the free block at `b` (index `k`) into a left block of index
`k - 1` at `b` and a right block of index `k - 2` keeps the invariant. -/
theorem CoreInv.split {c : Nat → Option Core} {l hs : List Nat} (h : CoreInv c l hs) {b : Nat}
    {k : Core} (hbl : b ∈ l) (hcb : c b = some k) (hk : 2 ≤ k.fib_index) (rq rq' : Nat) :
    CoreInv
      (Function.update
        (Function.update c b (some ⟨T (k.fib_index - 1), rq, k.fib_index - 1, true⟩))
        (b + T (k.fib_index - 1)) (some ⟨T (k.fib_index - 2), rq', k.fib_index - 2, true⟩))
      (l.orderedInsert (· ≤ ·) (b + T (k.fib_index - 1))) hs := by
  have hlb : Live l hs b := Or.inl hbl
  obtain ⟨k0, hk0, h0, h44, hT, hcap⟩ := h.blk b hlb
  rw [hcb] at hk0; cases hk0
  have hrec := T_rec k.fib_index hk h44
  have hp1 := T_pos (k.fib_index - 1) (by omega) (by omega)
  have hp2 := T_pos (k.fib_index - 2) (by omega) (by omega)
  set r := b + T (k.fib_index - 1) with hr
  have hbr : b < r := by omega
  have hrb : r ≠ b := by omega
  have hrl : ¬ Live l hs r := by
    intro hl
    have := h.disj b r k hlb hl hbr hcb
    omega
  have hrl' : r ∉ l := fun h' => hrl (Or.inl h')
  have hupd : ∀ a, a ≠ r → a ≠ b →
      Function.update (Function.update c b (some ⟨T (k.fib_index - 1), rq, k.fib_index - 1, true⟩))
        r (some ⟨T (k.fib_index - 2), rq', k.fib_index - 2, true⟩) a = c a := by
    intro a h1 h2
    rw [Function.update_noteq h1, Function.update_noteq h2]
  have hupr : Function.update
      (Function.update c b (some ⟨T (k.fib_index - 1), rq, k.fib_index - 1, true⟩))
        r (some ⟨T (k.fib_index - 2), rq', k.fib_index - 2, true⟩) r
      = some ⟨T (k.fib_index - 2), rq', k.fib_index - 2, true⟩ := Function.update_same _ _ _
  have hupb : Function.update
      (Function.update c b (some ⟨T (k.fib_index - 1), rq, k.fib_index - 1, true⟩))
        r (some ⟨T (k.fib_index - 2), rq', k.fib_index - 2, true⟩) b
      = some ⟨T (k.fib_index - 1), rq, k.fib_index - 1, true⟩ := by
    rw [Function.update_noteq hrb.symm, Function.update_same]
  refine ⟨sorted_lt_insert h.sorted r hrl', ?_, h.handles, h.nodup, ?_, ?_, ?_⟩
  · intro a k1 hk1
    by_cases har : a = r
    · subst har; rw [hupr] at hk1; cases hk1
      simp [mem_insert_iff]
    · by_cases hab : a = b
      · subst hab; rw [hupb] at hk1; cases hk1
        simp [mem_insert_iff, hbl]
      · rw [hupd a har hab] at hk1
        rw [h.flag a k1 hk1, mem_insert_iff]
        simp [har]
  · intro a ha hmem
    rcases mem_insert_iff.mp hmem with h1 | h1
    · subst h1; exact hrl (Or.inr ha)
    · exact h.alloc a ha h1
  · intro a ha
    rcases Live_insert.mp ha with har | hl
    · subst har
      exact ⟨_, hupr, by simp; omega, by simp; omega, le_refl _, by simp; omega⟩
    · by_cases hab : a = b
      · subst hab
        exact ⟨_, hupb, by simp; omega, by simp; omega, le_refl _, by simp; omega⟩
      · have har : a ≠ r := fun h' => hrl (h' ▸ hl)
        obtain ⟨k1, e1, e2, e3, e4, e5⟩ := h.blk a hl
        exact ⟨k1, by rw [hupd a har hab]; exact e1, e2, e3, e4, e5⟩
  · intro a a' k1 ha ha' hlt hk1
    have hcase : ∀ x, Live (l.orderedInsert (· ≤ ·) r) hs x → x = r ∨ x = b ∨
        (x ≠ r ∧ x ≠ b ∧ Live l hs x) := by
      intro x hx
      rcases Live_insert.mp hx with h1 | h1
      · exact Or.inl h1
      · by_cases hxb : x = b
        · exact Or.inr (Or.inl hxb)
        · exact Or.inr (Or.inr ⟨fun h' => hrl (h' ▸ h1), hxb, h1⟩)
    rcases hcase a ha with e | e | ⟨e1, e2, e3⟩
    · subst e; rw [hupr] at hk1; cases hk1
      simp only
      rcases hcase a' ha' with e' | e' | ⟨e1', e2', e3'⟩
      · omega
      · omega
      · have : b < a' := by omega
        have := h.disj b a' k hlb e3' this hcb
        omega
    · subst e; rw [hupb] at hk1; cases hk1
      simp only
      rcases hcase a' ha' with e' | e' | ⟨e1', e2', e3'⟩
      · omega
      · omega
      · have := h.disj a a' k hlb e3' hlt hcb
        omega
    · rw [hupd a e1 e2] at hk1
      rcases hcase a' ha' with e' | e' | ⟨e1', e2', e3'⟩
      · subst e'
        rcases Nat.lt_or_gt_of_ne e2 with hlt' | hgt'
        · have := h.disj a b k1 e3 hlb hlt' hk1
          omega
        · have := h.disj b a k hlb e3 hgt' hcb
          omega
      · subst e'
        exact h.disj a a' k1 e3 hlb hlt hk1
      · exact h.disj a a' k1 e3 e3' hlt hk1

/-- Handing out the free block at `b` keeps the invariant. -/
theorem CoreInv.allocate {c : Nat → Option Core} {l hs : List Nat} (h : CoreInv c l hs) {b : Nat}
    {k : Core} (hbl : b ∈ l) (hcb : c b = some k) (n : Nat) :
    CoreInv (Function.update c b (some ⟨k.size, n, k.fib_index, false⟩)) (l.erase b)
      ((b + sizeof_BlockHeader) :: hs) := by
  have hnd := sorted_lt_nodup h.sorted
  have hbhs : b + sizeof_BlockHeader ∉ hs := fun h' => h.alloc b h' hbl
  have hlive : ∀ a, Live (l.erase b) ((b + sizeof_BlockHeader) :: hs) a ↔ Live l hs a := by
    intro a
    unfold Live
    rw [mem_erase_iff h.sorted, List.mem_cons]
    constructor
    · rintro (⟨_, h1⟩ | h1 | h1)
      · exact Or.inl h1
      · have : a = b := by omega
        subst this; exact Or.inl hbl
      · exact Or.inr h1
    · rintro (h1 | h1)
      · by_cases hab : a = b
        · subst hab; exact Or.inr (Or.inl rfl)
        · exact Or.inl ⟨hab, h1⟩
      · exact Or.inr (Or.inr h1)
  refine ⟨sorted_lt_erase h.sorted b, ?_, ?_, ?_, ?_, ?_, ?_⟩
  · intro a k1 hk1
    by_cases hab : a = b
    · subst hab; rw [Function.update_same] at hk1; cases hk1
      simp [mem_erase_iff h.sorted]
    · rw [Function.update_noteq hab] at hk1
      rw [h.flag a k1 hk1, mem_erase_iff h.sorted]
      simp [hab]
  · intro p hp
    rcases List.mem_cons.mp hp with h1 | h1
    · omega
    · exact h.handles p h1
  · exact List.nodup_cons.mpr ⟨hbhs, h.nodup⟩
  · intro a ha hmem
    rw [mem_erase_iff h.sorted] at hmem
    rcases List.mem_cons.mp ha with h1 | h1
    · exact hmem.1 (by omega)
    · exact h.alloc a h1 hmem.2
  · intro a ha
    have hl := (hlive a).mp ha
    by_cases hab : a = b
    · subst hab
      obtain ⟨k1, e1, e2, e3, e4, e5⟩ := h.blk a hl
      rw [hcb] at e1; cases e1
      exact ⟨_, Function.update_same _ _ _, e2, e3, e4, e5⟩
    · obtain ⟨k1, e1, e2, e3, e4, e5⟩ := h.blk a hl
      exact ⟨k1, by rw [Function.update_noteq hab]; exact e1, e2, e3, e4, e5⟩
  · intro a a' k1 ha ha' hlt hk1
    have hl := (hlive a).mp ha
    have hl' := (hlive a').mp ha'
    by_cases hab : a = b
    · subst hab; rw [Function.update_same] at hk1; cases hk1
      exact h.disj a a' k hl hl' hlt hcb
    · rw [Function.update_noteq hab] at hk1
      exact h.disj a a' k1 hl hl' hlt hk1

/-- Putting the block of the outstanding handle `p` on the free list keeps the
invariant. -/
theorem CoreInv.release {c : Nat → Option Core} {l hs : List Nat} (h : CoreInv c l hs) {p b : Nat}
    {k : Core} (hp : p ∈ hs) (hbp : b + sizeof_BlockHeader = p) (hcb : c b = some k) :
    CoreInv (Function.update c b (some ⟨k.size, k.req_size, k.fib_index, true⟩))
      (l.orderedInsert (· ≤ ·) b) (hs.erase p) := by
  have hbl : b ∉ l := h.alloc b (by rw [hbp]; exact hp)
  have hlive : ∀ a, Live (l.orderedInsert (· ≤ ·) b) (hs.erase p) a ↔ Live l hs a := by
    intro a
    unfold Live
    rw [mem_insert_iff, h.nodup.mem_erase_iff]
    constructor
    · rintro ((h1 | h1) | ⟨_, h1⟩)
      · subst h1; exact Or.inr (by rw [hbp]; exact hp)
      · exact Or.inl h1
      · exact Or.inr h1
    · rintro (h1 | h1)
      · exact Or.inl (Or.inr h1)
      · by_cases hab : a = b
        · exact Or.inl (Or.inl hab)
        · exact Or.inr ⟨by omega, h1⟩
  refine ⟨sorted_lt_insert h.sorted b hbl, ?_, ?_, ?_, ?_, ?_, ?_⟩
  · intro a k1 hk1
    by_cases hab : a = b
    · subst hab; rw [Function.update_same] at hk1; cases hk1
      simp [mem_insert_iff]
    · rw [Function.update_noteq hab] at hk1
      rw [h.flag a k1 hk1, mem_insert_iff]
      simp [hab]
  · intro q hq
    exact h.handles q (List.mem_of_mem_erase hq)
  · exact h.nodup.erase p
  · intro a ha hmem
    rw [h.nodup.mem_erase_iff] at ha
    rcases mem_insert_iff.mp hmem with h1 | h1
    · exact ha.1 (by omega)
    · exact h.alloc a ha.2 h1
  · intro a ha
    have hl := (hlive a).mp ha
    by_cases hab : a = b
    · subst hab
      obtain ⟨k1, e1, e2, e3, e4, e5⟩ := h.blk a hl
      rw [hcb] at e1; cases e1
      exact ⟨_, Function.update_same _ _ _, e2, e3, e4, e5⟩
    · obtain ⟨k1, e1, e2, e3, e4, e5⟩ := h.blk a hl
      exact ⟨k1, by rw [Function.update_noteq hab]; exact e1, e2, e3, e4, e5⟩
  · intro a a' k1 ha ha' hlt hk1
    have hl := (hlive a).mp ha
    have hl' := (hlive a').mp ha'
    by_cases hab : a = b
    · subst hab; rw [Function.update_same] at hk1; cases hk1
      exact h.disj a a' k hl hl' hlt hcb
    · rw [Function.update_noteq hab] at hk1
      exact h.disj a a' k1 hl hl' hlt hk1

/-- Merging the free block at `x` with the free block `y` that starts where
`x` ends, into a block at `x` of index `j`, keeps the invariant. -/
theorem CoreInv.merge {c : Nat → Option Core} {l hs : List Nat} (h : CoreInv c l hs) {x y : Nat}
    {kx ky : Core} (hxl : x ∈ l) (hyl : y ∈ l) (hcx : c x = some kx) (hcy : c y = some ky)
    (hxy : x + kx.size = y) (j : Int) (hj0 : 0 ≤ j) (hj44 : j ≤ 44)
    (hT : T j ≤ kx.size + ky.size) :
    CoreInv
      (Function.update
        (Function.update c y (some ⟨ky.size, ky.req_size, ky.fib_index, false⟩))
        x (some ⟨kx.size + ky.size, 0, j, true⟩))
      (l.erase y) hs := by
  have hlx : Live l hs x := Or.inl hxl
  have hly : Live l hs y := Or.inl hyl
  obtain ⟨kx0, ex, ex0, ex44, exT, excap⟩ := h.blk x hlx
  rw [hcx] at ex; cases ex
  obtain ⟨ky0, ey, ey0, ey44, eyT, eycap⟩ := h.blk y hly
  rw [hcy] at ey; cases ey
  have hpx := T_pos kx.fib_index ex0 ex44
  have hxney : x ≠ y := by omega
  have hupx : Function.update
      (Function.update c y (some ⟨ky.size, ky.req_size, ky.fib_index, false⟩))
        x (some ⟨kx.size + ky.size, 0, j, true⟩) x = some ⟨kx.size + ky.size, 0, j, true⟩ :=
    Function.update_same _ _ _
  have hupy : Function.update
      (Function.update c y (some ⟨ky.size, ky.req_size, ky.fib_index, false⟩))
        x (some ⟨kx.size + ky.size, 0, j, true⟩) y
      = some ⟨ky.size, ky.req_size, ky.fib_index, false⟩ := by
    rw [Function.update_noteq hxney.symm, Function.update_same]
  have hupd : ∀ a, a ≠ x → a ≠ y → Function.update
      (Function.update c y (some ⟨ky.size, ky.req_size, ky.fib_index, false⟩))
        x (some ⟨kx.size + ky.size, 0, j, true⟩) a = c a := by
    intro a h1 h2
    rw [Function.update_noteq h1, Function.update_noteq h2]
  have hlive : ∀ a, Live (l.erase y) hs a → Live l hs a ∧ a ≠ y := by
    intro a ha
    rcases ha with h1 | h1
    · rw [mem_erase_iff h.sorted] at h1
      exact ⟨Or.inl h1.2, h1.1⟩
    · exact ⟨Or.inr h1, fun e => h.alloc a h1 (e ▸ hyl)⟩
  refine ⟨sorted_lt_erase h.sorted y, ?_, h.handles, h.nodup, ?_, ?_, ?_⟩
  · intro a k1 hk1
    by_cases hax : a = x
    · subst hax; rw [hupx] at hk1; cases hk1
      simp [mem_erase_iff h.sorted, hxl, hxney]
    · by_cases hay : a = y
      · subst hay; rw [hupy] at hk1; cases hk1
        simp [mem_erase_iff h.sorted]
      · rw [hupd a hax hay] at hk1
        rw [h.flag a k1 hk1, mem_erase_iff h.sorted]
        simp [hay]
  · intro a ha hmem
    rw [mem_erase_iff h.sorted] at hmem
    exact h.alloc a ha hmem.2
  · intro a ha
    obtain ⟨hl, hay⟩ := hlive a ha
    by_cases hax : a = x
    · subst hax
      exact ⟨_, hupx, hj0, hj44, hT, by simp only; omega⟩
    · obtain ⟨k1, e1, e2, e3, e4, e5⟩ := h.blk a hl
      exact ⟨k1, by rw [hupd a hax hay]; exact e1, e2, e3, e4, e5⟩
  · intro a a' k1 ha ha' hlt hk1
    obtain ⟨hl, hay⟩ := hlive a ha
    obtain ⟨hl', hay'⟩ := hlive a' ha'
    by_cases hax : a = x
    · subst hax; rw [hupx] at hk1; cases hk1
      simp only
      have h1 := h.disj a a' kx hlx hl' hlt hcx
      have h2 : y < a' := by omega
      have h3 := h.disj y a' ky hly hl' h2 hcy
      omega
    · rw [hupd a hax hay] at hk1
      exact h.disj a a' k1 hl hl' hlt hk1

/-! ## The free-list operations on the invariant -/

theorem cores_modify (s : Heap) (a : Nat) (f : BlockHeader → BlockHeader) :
    (s.modify a f).cores
      = Function.update s.cores a (some (core (f ((s.mem a).getD blank)))) := by
  funext x
  unfold Heap.cores
  rw [modify_mem]
  by_cases h : x = a
  · subst h; simp
  · simp [h]

theorem cores_some {s : Heap} {a : Nat} {h : BlockHeader} (hm : s.mem a = some h) :
    s.cores a = some (core h) := by
  unfold Heap.cores; rw [hm]; rfl

theorem cores_some_inv {s : Heap} {a : Nat} {k : Core} (hc : s.cores a = some k) :
    ∃ h, s.mem a = some h ∧ core h = k := by
  unfold Heap.cores at hc
  cases hm : s.mem a with
  | none => rw [hm] at hc; cases hc
  | some h => rw [hm] at hc; exact ⟨h, rfl, by simpa using hc⟩

/-- Stores that leave the links alone keep a chain. -/
theorem Chain.congr_links {m m' : Nat → Option BlockHeader} :
    ∀ (l : List Nat) (p c : Option Nat),
      (∀ x ∈ l, ∀ h, m x = some h →
        ∃ h', m' x = some h' ∧ h'.next_free = h.next_free ∧ h'.prev_free = h.prev_free) →
      Chain m p c l → Chain m' p c l := by
  intro l
  induction l with
  | nil => intro p c _ h; exact h
  | cons a l ih =>
    intro p c hfr h
    obtain ⟨hc, h0, hm, hp, hrest⟩ := h
    obtain ⟨h', hm', hn', hp'⟩ := hfr a (List.mem_cons_self _ _) h0 hm
    refine ⟨hc, h', hm', hp'.trans hp, ?_⟩
    rw [hn']
    exact ih _ _ (fun x hx => hfr x (List.mem_cons_of_mem _ hx)) hrest

theorem Chain.modify {s : Heap} {l : List Nat} {p c : Option Nat} (a : Nat)
    (f : BlockHeader → BlockHeader)
    (hf : ∀ h, (f h).next_free = h.next_free ∧ (f h).prev_free = h.prev_free)
    (hch : Chain s.mem p c l) : Chain (s.modify a f).mem p c l := by
  refine Chain.congr_links l p c ?_ hch
  intro x _ h hm
  rw [modify_mem]
  by_cases hxa : x = a
  · subst hxa
    rw [if_pos rfl, hm]
    exact ⟨_, rfl, (hf h).1, (hf h).2⟩
  · rw [if_neg hxa]
    exact ⟨h, hm, rfl, rfl⟩

theorem sorted_lt_length_le {l : List Nat} (h : l.Sorted (· < ·)) (n : Nat)
    (hb : ∀ a ∈ l, a < n) : l.length ≤ n := by
  have hnd := sorted_lt_nodup h
  rw [← List.toFinset_card_of_nodup hnd]
  calc l.toFinset.card ≤ (Finset.range n).card := by
        apply Finset.card_le_card
        intro x hx
        rw [List.mem_toFinset] at hx
        exact Finset.mem_range.mpr (hb x hx)
    _ = n := Finset.card_range n

/-- Specification of `remove_free_block` in terms of the non-link fields. -/
theorem remove_ok (s : Heap) (b : Nat) (l : List Nat)
    (hch : Chain s.mem none s.free_list_head l) (hs : l.Sorted (· < ·)) (hbl : b ∈ l) :
    ∃ s' k, remove_free_block s b = .ok s' ∧ s.cores b = some k ∧
      s'.fib_numbers = s.fib_numbers ∧ s'.simulated_heap_size = s.simulated_heap_size ∧
      s'.allocated_memory = s.allocated_memory ∧
      Chain s'.mem none s'.free_list_head (l.erase b) ∧
      s'.cores = Function.update s.cores b (some ⟨k.size, k.req_size, k.fib_index, false⟩) := by
  obtain ⟨s', hb, hr, hmb, g1, g2, g3, hch', hb', hcore⟩ :=
    remove_free_block_spec s b l hch (sorted_lt_nodup hs) hbl
  refine ⟨s', core hb, hr, cores_some hmb, g1, g2, g3, hch', ?_⟩
  funext x
  by_cases hxb : x = b
  · subst hxb
    rw [Function.update_same, cores_some hb']
    rfl
  · rw [Function.update_noteq hxb]
    exact hcore x hxb

/-- Specification of `insert_free_block` in terms of the non-link fields. -/
theorem insert_ok (s : Heap) (b : Nat) (l : List Nat)
    (hch : Chain s.mem none s.free_list_head l) (hs : l.Sorted (· < ·)) (hbl : b ∉ l)
    (hfuel : l.length < s.fuel) (k : Core) (hk : s.cores b = some k) :
    ∃ s', insert_free_block s b = .ok s' ∧
      s'.fib_numbers = s.fib_numbers ∧ s'.simulated_heap_size = s.simulated_heap_size ∧
      s'.allocated_memory = s.allocated_memory ∧
      Chain s'.mem none s'.free_list_head (l.orderedInsert (· ≤ ·) b) ∧
      s'.cores = Function.update s.cores b (some ⟨k.size, k.req_size, k.fib_index, true⟩) := by
  obtain ⟨s', hr, g1, g2, g3, hch', ⟨hb', hmb', hcb'⟩, hcore⟩ :=
    insert_free_block_spec s b l hch (sorted_lt_nodup hs) hbl hfuel
  refine ⟨s', hr, g1, g2, g3, hch', ?_⟩
  obtain ⟨h0, hm0, hk0⟩ := cores_some_inv hk
  funext x
  by_cases hxb : x = b
  · subst hxb
    rw [Function.update_same, cores_some hmb', hcb', hm0, ← hk0]
    rfl
  · rw [Function.update_noteq hxb]
    exact hcore x hxb

/-! ## `simulate_malloc` keeps the invariant -/

theorem rd_some {s : Heap} {a : Nat} {h : BlockHeader} (hm : s.mem a = some h) :
    s.rd a = .ok h := by
  unfold Heap.rd; rw [hm]

theorem CoreInv.right_not_live {c : Nat → Option Core} {l hs : List Nat} (h : CoreInv c l hs)
    {b : Nat} {k : Core} (hbl : b ∈ l) (hcb : c b = some k) (hk : 1 ≤ k.fib_index) :
    ¬ Live l hs (b + T (k.fib_index - 1)) := by
  intro hl
  have hlb : Live l hs b := Or.inl hbl
  obtain ⟨k0, hk0, h0, h44, hT, hcap⟩ := h.blk b hlb
  rw [hcb] at hk0; cases hk0
  have h1 := T_lt_succ k.fib_index hk h44
  have h2 := T_pos (k.fib_index - 1) (by omega) (by omega)
  have := h.disj b _ k hlb hl (by omega) hcb
  omega

theorem WF.fuel_ok {s : Heap} {l hs : List Nat} (h : WF s l hs) : l.length < s.fuel := by
  have := sorted_lt_length_le h.inv.sorted HEAP_SIZE (fun a ha => h.inv.lt_cap (Or.inl ha))
  unfold Heap.fuel
  rw [h.cap]
  omega

theorem WF.hdr_of_mem {s : Heap} {l hs : List Nat} (h : WF s l hs) {a : Nat} (ha : a ∈ l) :
    ∃ hd, s.mem a = some hd := Chain.mem_some l _ _ h.chain a ha

/-- One iteration of the splitting loop on a free block of index at least 2. -/
theorem split_step_eq (s : Heap) (l hs : List Nat) (b : Nat) (h : BlockHeader) (hwf : WF s l hs)
    (hbl : b ∈ l) (hm : s.mem b = some h) (t : Int) (fuel : Nat)
    (hgt : h.fib_index > t) (hk2 : 2 ≤ h.fib_index) :
    ∃ s5 rq', split_loop t b (fuel + 1) s = split_loop t b fuel s5 ∧
      WF s5 (l.orderedInsert (· ≤ ·) (b + T (h.fib_index - 1))) hs ∧
      s5.cores = Function.update
        (Function.update s.cores b (some ⟨T (h.fib_index - 1), h.req_size, h.fib_index - 1, true⟩))
        (b + T (h.fib_index - 1)) (some ⟨T (h.fib_index - 2), rq', h.fib_index - 2, true⟩) := by
  have hsorted := hwf.inv.sorted
  obtain ⟨s1, k, hr, hk, g1, g2, g3, hch1, hc1⟩ := remove_ok s b l hwf.chain hsorted hbl
  rw [cores_some hm] at hk
  cases hk
  have hc1b : s1.cores b = some ⟨h.size, h.req_size, h.fib_index, false⟩ := by
    rw [hc1, Function.update_same]; rfl
  obtain ⟨h1, hm1, hcore1⟩ := cores_some_inv hc1b
  have hidx1 : h1.fib_index = h.fib_index := congrArg Core.fib_index hcore1
  have hreq1 : h1.req_size = h.req_size := congrArg Core.req_size hcore1
  have hblk := hwf.inv.blk b (Or.inl hbl)
  rw [cores_some hm] at hblk
  obtain ⟨k0, e0, hi0, hi44, hT, hcap⟩ := hblk
  cases e0
  simp only [core] at hi0 hi44 hT hcap
  have hfl := fib_at_T (h.fib_index - 1) (by omega) (by omega)
  have hfr := fib_at_T (h.fib_index - 2) (by omega) (by omega)
  have hp1 := T_pos (h.fib_index - 1) (by omega) (by omega)
  have hrb : b + T (h.fib_index - 1) ≠ b := by omega
  have hrl : b + T (h.fib_index - 1) ∉ l := fun hmem =>
    CoreInv.right_not_live hwf.inv hbl (cores_some hm) (by simp only [core]; omega)
      (Or.inl hmem)
  -- the two stores into the left and right headers
  obtain ⟨s2, hs2⟩ : ∃ s2, s2 = s1.modify b (fun h0 =>
    { size := T (h.fib_index - 1), req_size := h0.req_size, fib_index := h.fib_index - 1,
      is_free := true, next_free := h0.next_free, prev_free := h0.prev_free }) := ⟨_, rfl⟩
  obtain ⟨s3, hs3⟩ : ∃ s3, s3 = s2.modify (b + T (h.fib_index - 1)) (fun h0 =>
    { size := T (h.fib_index - 2), req_size := h0.req_size, fib_index := h.fib_index - 2,
      is_free := true, next_free := h0.next_free, prev_free := h0.prev_free }) := ⟨_, rfl⟩
  have hch3 : Chain s3.mem none s3.free_list_head (l.erase b) := by
    rw [hs3, hs2]
    exact Chain.modify _ _ (fun _ => ⟨rfl, rfl⟩) (Chain.modify _ _ (fun _ => ⟨rfl, rfl⟩) hch1)
  have hc2 : s2.cores = Function.update s1.cores b
      (some ⟨T (h.fib_index - 1), h.req_size, h.fib_index - 1, true⟩) := by
    rw [hs2, cores_modify, hm1]
    simp only [Option.getD_some, core, hreq1]
  have hc3 : s3.cores = Function.update s2.cores (b + T (h.fib_index - 1))
      (some ⟨T (h.fib_index - 2), ((s2.mem (b + T (h.fib_index - 1))).getD blank).req_size,
        h.fib_index - 2, true⟩) := by
    rw [hs3, cores_modify]
    simp only [core]
  have hc3b : s3.cores b = some ⟨T (h.fib_index - 1), h.req_size, h.fib_index - 1, true⟩ := by
    rw [hc3, Function.update_noteq hrb.symm, hc2, Function.update_same]
  have hlen : (l.erase b).length < s3.fuel := by
    have := hwf.fuel_ok
    have h2 : s3.fuel = s.fuel := by
      unfold Heap.fuel
      simp only [hs3, hs2, modify_cap, g2]
    have h3 := List.length_erase_le b l
    omega
  obtain ⟨s4, hr4, f1, f2, f3, hch4, hc4⟩ := insert_ok s3 b (l.erase b) hch3
    (sorted_lt_erase hsorted b) (fun hmem => ((mem_erase_iff hsorted).mp hmem).1 rfl) hlen _ hc3b
  rw [insert_erase_self hsorted hbl] at hch4
  simp only at hc4
  have hc4r : s4.cores (b + T (h.fib_index - 1))
      = some ⟨T (h.fib_index - 2), ((s2.mem (b + T (h.fib_index - 1))).getD blank).req_size,
          h.fib_index - 2, true⟩ := by
    rw [hc4, Function.update_noteq hrb, hc3, Function.update_same]
  have hlen4 : l.length < s4.fuel := by
    have := hwf.fuel_ok
    have h2 : s4.fuel = s.fuel := by
      unfold Heap.fuel
      rw [f2]
      simp only [hs3, hs2, modify_cap, g2]
    omega
  obtain ⟨s5, hr5, e1, e2, e3, hch5, hc5⟩ := insert_ok s4 (b + T (h.fib_index - 1)) l hch4
    hsorted hrl hlen4 _ hc4r
  simp only at hc5
  have heq : split_loop t b (fuel + 1) s = split_loop t b fuel s5 := by
    rw [split_loop]
    simp only [rd_some hm, bind, Except.bind, hgt, if_true, hr, rd_some hm1, hwf.table, hidx1,
      hfl, hfr]
    rw [← hs2, ← hs3, hr4]
    simp only
    rw [hr5]
  have hc5' : s5.cores = Function.update
      (Function.update s.cores b
        (some ⟨T (h.fib_index - 1), h.req_size, h.fib_index - 1, true⟩))
      (b + T (h.fib_index - 1))
      (some ⟨T (h.fib_index - 2), ((s2.mem (b + T (h.fib_index - 1))).getD blank).req_size,
        h.fib_index - 2, true⟩) := by
    rw [hc5, hc4, hc3, hc2, hc1]
    funext x
    by_cases hxr : x = b + T (h.fib_index - 1)
    · rw [hxr]; simp only [Function.update_same]
    · by_cases hxb : x = b
      · rw [hxb]; simp only [Function.update_noteq hrb.symm, Function.update_same]
      · simp only [Function.update_noteq hxr, Function.update_noteq hxb]
  refine ⟨s5, _, heq, ?_, hc5'⟩
  refine ⟨?_, ?_, hch5, ?_⟩
  · rw [e1, f1]; simp only [hs3, hs2, modify_fib, g1]; exact hwf.table
  · rw [e2, f2]; simp only [hs3, hs2, modify_cap, g2]; exact hwf.cap
  · rw [hc5']
    have := CoreInv.split hwf.inv hbl (cores_some hm) (by simp only [core]; omega) h.req_size
      ((s2.mem (b + T (h.fib_index - 1))).getD blank).req_size
    simpa only [core] using this

/-- The splitting loop faults on a block of index below 2 that is above the
target: `fib_numbers[right_index]` would be read at a negative index. -/
theorem split_step_fault (s : Heap) (l hs : List Nat) (b : Nat) (h : BlockHeader)
    (hwf : WF s l hs) (hbl : b ∈ l) (hm : s.mem b = some h) (t : Int) (fuel : Nat)
    (hgt : h.fib_index > t) (hk2 : h.fib_index < 2) :
    split_loop t b (fuel + 1) s = .error .undefined := by
  obtain ⟨s1, k, hr, hk, g1, g2, g3, hch1, hc1⟩ := remove_ok s b l hwf.chain hwf.inv.sorted hbl
  rw [cores_some hm] at hk
  cases hk
  have hc1b : s1.cores b = some ⟨h.size, h.req_size, h.fib_index, false⟩ := by
    rw [hc1, Function.update_same]; rfl
  obtain ⟨h1, hm1, hcore1⟩ := cores_some_inv hc1b
  have hidx1 : h1.fib_index = h.fib_index := congrArg Core.fib_index hcore1
  rw [split_loop]
  simp only [rd_some hm, bind, Except.bind, hgt, if_true, hr, rd_some hm1, hwf.table, hidx1,
    fib_at_neg (h.fib_index - 2) (by omega)]
  cases hfl : fib_at FIB (h.fib_index - 1) with
  | error e =>
    have h0 : ¬ (0 ≤ h.fib_index - 1) := by
      intro h0
      rw [fib_at_T _ h0 (by omega)] at hfl
      cases hfl
    rw [fib_at_neg _ (by omega)] at hfl
    cases hfl
    rfl
  | ok v => rfl

/-- One iteration of the splitting loop, for a run that returns. -/
theorem split_step (s : Heap) (l hs : List Nat) (b : Nat) (h : BlockHeader) (hwf : WF s l hs)
    (hbl : b ∈ l) (hm : s.mem b = some h) (s' : Heap) (t : Int) (fuel : Nat)
    (hgt : h.fib_index > t) (hres : split_loop t b (fuel + 1) s = .ok s') :
    ∃ s5 rq', split_loop t b fuel s5 = .ok s' ∧ 2 ≤ h.fib_index ∧
      WF s5 (l.orderedInsert (· ≤ ·) (b + T (h.fib_index - 1))) hs ∧
      s5.cores = Function.update
        (Function.update s.cores b (some ⟨T (h.fib_index - 1), h.req_size, h.fib_index - 1, true⟩))
        (b + T (h.fib_index - 1)) (some ⟨T (h.fib_index - 2), rq', h.fib_index - 2, true⟩) := by
  have hk2 : 2 ≤ h.fib_index := by
    by_contra hcon
    rw [split_step_fault s l hs b h hwf hbl hm t fuel hgt (by omega)] at hres
    cases hres
  obtain ⟨s5, rq', heq, hwf5, hc5⟩ := split_step_eq s l hs b h hwf hbl hm t fuel hgt hk2
  exact ⟨s5, rq', by rw [← heq]; exact hres, hk2, hwf5, hc5⟩

/-- The splitting loop keeps the invariant and ends with the block at the
target index when it started at or above it. -/
theorem split_loop_spec (t : Int) (b : Nat) (hs : List Nat) :
    ∀ (fuel : Nat) (s : Heap) (l : List Nat) (s' : Heap), WF s l hs → b ∈ l →
      split_loop t b fuel s = .ok s' →
      ∃ l' k, WF s' l' hs ∧ b ∈ l' ∧ s'.cores b = some k ∧ k.fib_index ≤ t ∧
        (∀ k0, s.cores b = some k0 → t ≤ k0.fib_index → k.fib_index = t) ∧
        (∀ k0, s.cores b = some k0 → 1 ≤ k0.fib_index → 1 ≤ k.fib_index) := by
  intro fuel
  induction fuel with
  | zero => intro s l s' _ _ hres; rw [split_loop] at hres; cases hres
  | succ fuel ih =>
    intro s l s' hwf hbl hres
    obtain ⟨h, hm⟩ := hwf.hdr_of_mem hbl
    by_cases hgt : h.fib_index > t
    · obtain ⟨s5, rq', hres5, hk2, hwf5, hc5⟩ :=
        split_step s l hs b h hwf hbl hm s' t fuel hgt hres
      have hbl5 : b ∈ l.orderedInsert (· ≤ ·) (b + T (h.fib_index - 1)) :=
        mem_insert_iff.mpr (Or.inr hbl)
      obtain ⟨l', k, hwf', hbl', hk, hle, hfin, hone⟩ := ih s5 _ s' hwf5 hbl5 hres5
      have hc5b : s5.cores b = some ⟨T (h.fib_index - 1), h.req_size, h.fib_index - 1, true⟩ := by
        rw [hc5]
        have hp1 : b ≠ b + T (h.fib_index - 1) := by
          obtain ⟨k1, e1, e2, e3, _, _⟩ := hwf.inv.blk b (Or.inl hbl)
          rw [cores_some hm] at e1; cases e1
          simp only [core] at e2 e3
          have := T_pos (h.fib_index - 1) (by omega) (by omega)
          omega
        rw [Function.update_noteq hp1, Function.update_same]
      refine ⟨l', k, hwf', hbl', hk, hle, ?_, ?_⟩
      · intro k0 _ _
        exact hfin _ hc5b (by simp only; omega)
      · intro k0 _ _
        exact hone _ hc5b (by simp only; omega)
    · rw [split_loop] at hres
      simp only [rd_some hm, bind, Except.bind, hgt, if_false, pure, Except.pure] at hres
      cases hres
      refine ⟨l, core h, hwf, hbl, cores_some hm, by simp only [core]; omega, ?_, ?_⟩
      · intro k0 hk0 hle
        rw [cores_some hm] at hk0; cases hk0
        simp only [core] at hle ⊢
        omega
      · intro k0 hk0 hle
        rw [cores_some hm] at hk0; cases hk0
        exact hle

theorem find_exact_mem (s : Heap) (t : Int) (b : Nat) :
    ∀ (l : List Nat) (fuel : Nat) (p cur : Option Nat), Chain s.mem p cur l →
      find_exact s t fuel cur = .ok (some b) →
      b ∈ l ∧ ∃ h, s.mem b = some h ∧ h.fib_index = t := by
  intro l
  induction l with
  | nil =>
    intro fuel p cur hch hres
    cases hch
    cases fuel with
    | zero => rw [find_exact] at hres; cases hres
    | succ fuel => rw [find_exact] at hres; cases hres
  | cons a l ih =>
    intro fuel p cur hch hres
    obtain ⟨hcur, ha, hma, _, hrest⟩ := hch
    subst hcur
    cases fuel with
    | zero => rw [find_exact] at hres; cases hres
    | succ fuel =>
      rw [find_exact] at hres
      simp only [hma] at hres
      by_cases hidx : ha.fib_index = t
      · rw [if_pos hidx] at hres
        cases hres
        exact ⟨List.mem_cons_self _ _, ha, hma, hidx⟩
      · rw [if_neg hidx] at hres
        obtain ⟨h1, h2⟩ := ih fuel _ _ hrest hres
        exact ⟨List.mem_cons_of_mem _ h1, h2⟩

theorem find_larger_mem (s : Heap) (t : Int) (b : Nat) :
    ∀ (l : List Nat) (fuel : Nat) (p cur blk : Option Nat), Chain s.mem p cur l →
      find_larger s t fuel cur blk = .ok (some b) →
      (b ∈ l ∧ ∃ h, s.mem b = some h ∧ h.fib_index > t) ∨ blk = some b := by
  intro l
  induction l with
  | nil =>
    intro fuel p cur blk hch hres
    cases hch
    cases fuel with
    | zero => rw [find_larger] at hres; cases hres
    | succ fuel => rw [find_larger] at hres; cases hres; exact Or.inr rfl
  | cons a l ih =>
    intro fuel p cur blk hch hres
    obtain ⟨hcur, ha, hma, _, hrest⟩ := hch
    subst hcur
    cases fuel with
    | zero => rw [find_larger] at hres; cases hres
    | succ fuel =>
      have lift : ∀ blk', find_larger s t fuel ha.next_free blk' = .ok (some b) →
          (blk' = some b →
            (b ∈ a :: l ∧ ∃ h, s.mem b = some h ∧ h.fib_index > t) ∨ blk = some b) →
          (b ∈ a :: l ∧ ∃ h, s.mem b = some h ∧ h.fib_index > t) ∨ blk = some b := by
        intro blk' hr hb
        rcases ih _ _ _ blk' hrest hr with ⟨h1, h2⟩ | h1
        · exact Or.inl ⟨List.mem_cons_of_mem _ h1, h2⟩
        · exact hb h1
      rw [find_larger] at hres
      simp only [hma] at hres
      by_cases hidx : ha.fib_index > t
      · rw [if_pos hidx] at hres
        cases blk with
        | none =>
          simp only at hres
          apply lift _ hres
          intro h'; cases h'
          exact Or.inl ⟨List.mem_cons_self _ _, ha, hma, hidx⟩
        | some b0 =>
          simp only at hres
          cases hmb0 : s.mem b0 with
          | none => rw [hmb0] at hres; cases hres
          | some hb0 =>
            rw [hmb0] at hres
            simp only at hres
            by_cases hlt : ha.fib_index < hb0.fib_index
            · rw [if_pos hlt] at hres
              apply lift _ hres
              intro h'; cases h'
              exact Or.inl ⟨List.mem_cons_self _ _, ha, hma, hidx⟩
            · rw [if_neg hlt] at hres
              exact lift _ hres (fun h' => Or.inr h')
      · rw [if_neg hidx] at hres
        exact lift _ hres (fun h' => Or.inr h')

/-- The tail of `simulate_malloc` once a free block has been chosen. -/
theorem malloc_tail_wf (s : Heap) (l hs : List Nat) (n : Nat) (t : Int) (block : Nat)
    (r : Option Nat) (s' : Heap) (hwf : WF s l hs) (hbl : block ∈ l)
    (hres : (do
        let s1 ← split_loop t block s.fuel s
        let s2 ← remove_free_block s1 block
        let s3 := s2.modify block (fun h => { h with req_size := n })
        let hb ← s3.rd block
        pure (some (block + sizeof_BlockHeader),
          { s3 with allocated_memory := (s3.allocated_memory + hb.size) % SIZE_T_MOD }) :
        Except Fault (Option Nat × Heap)) = .ok (r, s')) :
    ∃ l' k, r = some (block + sizeof_BlockHeader) ∧
      WF s' l' ((block + sizeof_BlockHeader) :: hs) ∧ s'.cores block = some k ∧
      k.req_size = n ∧ k.is_free = false ∧ k.fib_index ≤ t ∧
      (∀ k0, s.cores block = some k0 → t ≤ k0.fib_index → k.fib_index = t) ∧
      (∀ k0, s.cores block = some k0 → 1 ≤ k0.fib_index → 1 ≤ k.fib_index) := by
  simp only [bind, Except.bind] at hres
  cases hsl : split_loop t block s.fuel s with
  | error e => rw [hsl] at hres; cases hres
  | ok s1 =>
    rw [hsl] at hres
    simp only at hres
    obtain ⟨l1, k1, hwf1, hbl1, hk1, hle1, hfin1, hone1⟩ :=
      split_loop_spec t block hs _ s l s1 hwf hbl hsl
    obtain ⟨s2, k, hr, hk, g1, g2, g3, hch2, hc2⟩ :=
      remove_ok s1 block l1 hwf1.chain hwf1.inv.sorted hbl1
    rw [hk1] at hk; cases hk
    rw [hr] at hres
    simp only at hres
    have hc2b : s2.cores block = some ⟨k1.size, k1.req_size, k1.fib_index, false⟩ := by
      rw [hc2, Function.update_same]
    obtain ⟨h2, hm2, hcore2⟩ := cores_some_inv hc2b
    have hm3 : (s2.modify block (fun h => { h with req_size := n })).mem block
        = some { h2 with req_size := n } := by
      rw [modify_mem, if_pos rfl, hm2]; rfl
    rw [rd_some hm3] at hres
    simp only [pure, Except.pure, Except.ok.injEq, Prod.mk.injEq] at hres
    obtain ⟨hr', hs'⟩ := hres
    have hcores : s'.cores = Function.update s1.cores block
        (some ⟨k1.size, n, k1.fib_index, false⟩) := by
      rw [← hs']
      show (s2.modify block (fun h => { h with req_size := n })).cores = _
      rw [cores_modify, hm2, hc2]
      simp only [Option.getD_some, core, Function.update_idem]
      have e1 : h2.size = k1.size := congrArg Core.size hcore2
      have e2 : h2.fib_index = k1.fib_index := congrArg Core.fib_index hcore2
      have e3 : h2.is_free = false := congrArg Core.is_free hcore2
      rw [e1, e2, e3]
    refine ⟨l1.erase block, ⟨k1.size, n, k1.fib_index, false⟩, hr'.symm, ?_, ?_, rfl, rfl, hle1,
      hfin1, hone1⟩
    · refine ⟨?_, ?_, ?_, ?_⟩
      · rw [← hs']; show s2.fib_numbers = FIB; rw [g1]; exact hwf1.table
      · rw [← hs']; show s2.simulated_heap_size = HEAP_SIZE; rw [g2]; exact hwf1.cap
      · rw [← hs']
        show Chain (s2.modify block (fun h => { h with req_size := n })).mem none
          s2.free_list_head (l1.erase block)
        exact Chain.modify block _ (fun _ => ⟨rfl, rfl⟩) hch2
      · rw [hcores]
        exact CoreInv.allocate hwf1.inv hbl1 hk1 n
    · rw [hcores, Function.update_same]

/-- A call of `simulate_malloc` that returns keeps the invariant: it either
returns `NULL` and leaves the state alone, or hands out a block that was free. -/
theorem simulate_malloc_wf (s : Heap) (l hs : List Nat) (n : Nat) (r : Option Nat) (s' : Heap)
    (hwf : WF s l hs) (hres : simulate_malloc s n = .ok (r, s')) :
    (r = none ∧ s' = s) ∨
    ∃ block l' k, r = some (block + sizeof_BlockHeader) ∧ block ∈ l ∧
      WF s' l' ((block + sizeof_BlockHeader) :: hs) ∧ s'.cores block = some k ∧
      k.req_size = n ∧ k.is_free = false := by
  unfold simulate_malloc at hres
  by_cases hn : n = 0
  · rw [if_pos hn] at hres
    cases hres; exact Or.inl ⟨rfl, rfl⟩
  · rw [if_neg hn] at hres
    simp only at hres
    by_cases ha : align_size s n = 0
    · rw [if_pos ha] at hres
      cases hres; exact Or.inl ⟨rfl, rfl⟩
    · rw [if_neg ha] at hres
      unfold malloc_from at hres
      simp only [bind, Except.bind] at hres
      cases hfe : find_exact s (target_loop (align_size s n) s.fib_numbers 0) s.fuel
          s.free_list_head with
      | error e => rw [hfe] at hres; cases hres
      | ok exact =>
        rw [hfe] at hres
        simp only at hres
        have key : ∀ block, block ∈ l →
            (do
              let s1 ← split_loop (target_loop (align_size s n) s.fib_numbers 0) block s.fuel s
              let s2 ← remove_free_block s1 block
              let s3 := s2.modify block (fun h => { h with req_size := n })
              let hb ← s3.rd block
              pure (some (block + sizeof_BlockHeader),
                { s3 with allocated_memory := (s3.allocated_memory + hb.size) % SIZE_T_MOD }) :
              Except Fault (Option Nat × Heap)) = .ok (r, s') →
            ∃ block l' k, r = some (block + sizeof_BlockHeader) ∧ block ∈ l ∧
              WF s' l' ((block + sizeof_BlockHeader) :: hs) ∧ s'.cores block = some k ∧
              k.req_size = n ∧ k.is_free = false := by
          intro block hbl h
          obtain ⟨l', k, h1, h2, h3, h4, h5, _⟩ :=
            malloc_tail_wf s l hs n _ block r s' hwf hbl h
          exact ⟨block, l', k, h1, hbl, h2, h3, h4, h5⟩
        cases exact with
        | some b0 =>
          simp only [pure, Except.pure] at hres
          obtain ⟨hb0, _⟩ := find_exact_mem s _ b0 l _ _ _ hwf.chain hfe
          exact Or.inr (key b0 hb0 (by simpa only [bind, Except.bind, pure, Except.pure] using hres))
        | none =>
          simp only at hres
          cases hfl : find_larger s (target_loop (align_size s n) s.fib_numbers 0) s.fuel
              s.free_list_head none with
          | error e => rw [hfl] at hres; cases hres
          | ok found =>
            rw [hfl] at hres
            simp only at hres
            cases found with
            | none =>
              simp only [pure, Except.pure] at hres
              cases hres; exact Or.inl ⟨rfl, rfl⟩
            | some b0 =>
              rcases find_larger_mem s _ b0 l _ _ _ none hwf.chain hfl with ⟨hb0, _⟩ | h0
              · exact Or.inr (key b0 hb0
                  (by simpa only [bind, Except.bind, pure, Except.pure] using hres))
              · cases h0

/-! ## `simulate_free` keeps the invariant -/

theorem find_left_mem (s : Heap) (block b : Nat) :
    ∀ (l : List Nat) (fuel : Nat) (p cur : Option Nat), Chain s.mem p cur l →
      find_left s block fuel cur = .ok (some b) →
      b ∈ l ∧ ∃ h, s.mem b = some h ∧ b + h.size = block := by
  intro l
  induction l with
  | nil =>
    intro fuel p cur hch hres
    cases hch
    cases fuel with
    | zero => rw [find_left] at hres; cases hres
    | succ fuel => rw [find_left] at hres; cases hres
  | cons a l ih =>
    intro fuel p cur hch hres
    obtain ⟨hcur, ha, hma, _, hrest⟩ := hch
    subst hcur
    cases fuel with
    | zero => rw [find_left] at hres; cases hres
    | succ fuel =>
      rw [find_left] at hres
      simp only [hma] at hres
      by_cases hadj : a + ha.size = block
      · rw [if_pos hadj] at hres
        cases hres
        exact ⟨List.mem_cons_self _ _, ha, hma, hadj⟩
      · rw [if_neg hadj] at hres
        obtain ⟨h1, h2⟩ := ih fuel _ _ hrest hres
        exact ⟨List.mem_cons_of_mem _ h1, h2⟩

/-- The merge sequence of `try_merge` — unlink `x`, unlink `y`, grow `x` by the
size of `y`, link `x` again — for a free block `y` that starts where the free
block `x` ends. -/
theorem merge_seq_wf (s : Heap) (l hs : List Nat) (x y : Nat) (kx ky : Core) (hwf : WF s l hs)
    (hxl : x ∈ l) (hyl : y ∈ l) (hcx : s.cores x = some kx) (hcy : s.cores y = some ky)
    (hxy : x + kx.size = y) (hj : kx.fib_index + 1 ≤ 44)
    (hT : T (kx.fib_index + 1) ≤ kx.size + ky.size) :
    ∃ s1 s2 hy s4, remove_free_block s x = .ok s1 ∧ remove_free_block s1 y = .ok s2 ∧
      s2.mem y = some hy ∧
      insert_free_block (s2.modify x (fun h =>
        { h with size := (h.size + hy.size) % SIZE_T_MOD, fib_index := h.fib_index + 1,
                 req_size := 0 })) x = .ok s4 ∧
      WF s4 (l.erase y) hs ∧ x ∈ l.erase y ∧
      s4.cores = Function.update
        (Function.update s.cores y (some ⟨ky.size, ky.req_size, ky.fib_index, false⟩))
        x (some ⟨kx.size + ky.size, 0, kx.fib_index + 1, true⟩) := by
  have hsorted := hwf.inv.sorted
  obtain ⟨kx0, ex, ex0, ex44, exT, excap⟩ := hwf.inv.blk x (Or.inl hxl)
  rw [hcx] at ex; cases ex
  obtain ⟨ky0, ey, ey0, ey44, eyT, eycap⟩ := hwf.inv.blk y (Or.inl hyl)
  rw [hcy] at ey; cases ey
  have hpx := T_pos kx.fib_index ex0 ex44
  have hxney : x ≠ y := by omega
  obtain ⟨s1, k, hr1, hk, g1, g2, g3, hch1, hc1⟩ := remove_ok s x l hwf.chain hsorted hxl
  rw [hcx] at hk; cases hk
  have hyl1 : y ∈ l.erase x := (mem_erase_iff hsorted).mpr ⟨hxney.symm, hyl⟩
  obtain ⟨s2, k', hr2, hk', f1, f2, f3, hch2, hc2⟩ :=
    remove_ok s1 y (l.erase x) hch1 (sorted_lt_erase hsorted x) hyl1
  have hc1y : s1.cores y = some ky := by rw [hc1, Function.update_noteq hxney.symm]; exact hcy
  rw [hc1y] at hk'; cases hk'
  have hc2y : s2.cores y = some ⟨ky.size, ky.req_size, ky.fib_index, false⟩ := by
    rw [hc2, Function.update_same]
  have hc2x : s2.cores x = some ⟨kx.size, kx.req_size, kx.fib_index, false⟩ := by
    rw [hc2, Function.update_noteq hxney, hc1, Function.update_same]
  obtain ⟨hy, hmy, hcorey⟩ := cores_some_inv hc2y
  obtain ⟨hx, hmx, hcorex⟩ := cores_some_inv hc2x
  have hysz : hy.size = ky.size := congrArg Core.size hcorey
  have hxsz : hx.size = kx.size := congrArg Core.size hcorex
  have hxidx : hx.fib_index = kx.fib_index := congrArg Core.fib_index hcorex
  have hxfree : hx.is_free = false := congrArg Core.is_free hcorex
  have hsum : (kx.size + ky.size) % SIZE_T_MOD = kx.size + ky.size := by
    apply Nat.mod_eq_of_lt
    have := HEAP_SIZE_lt
    omega
  obtain ⟨s3, hs3⟩ : ∃ s3, s3 = s2.modify x (fun h =>
        { h with size := (h.size + hy.size) % SIZE_T_MOD, fib_index := h.fib_index + 1,
                 req_size := 0 }) := ⟨_, rfl⟩
  have hc3 : s3.cores = Function.update s2.cores x
      (some ⟨kx.size + ky.size, 0, kx.fib_index + 1, false⟩) := by
    rw [hs3, cores_modify, hmx]
    simp only [Option.getD_some, core, hxsz, hysz, hsum, hxidx, hxfree]
  have hch3 : Chain s3.mem none s3.free_list_head ((l.erase x).erase y) := by
    rw [hs3]
    exact Chain.modify _ _ (fun _ => ⟨rfl, rfl⟩) hch2
  have hlist : ((l.erase x).erase y) = (l.erase y).erase x := List.erase_comm x y l
  have hxl' : x ∈ l.erase y := (mem_erase_iff hsorted).mpr ⟨hxney, hxl⟩
  have hlen : ((l.erase x).erase y).length < s3.fuel := by
    have := hwf.fuel_ok
    have h2 : s3.fuel = s.fuel := by
      unfold Heap.fuel
      rw [hs3, modify_cap, f2, g2]
    have h3 := List.length_erase_le x l
    have h4 := List.length_erase_le y (l.erase x)
    omega
  have hxn : x ∉ (l.erase x).erase y := by
    rw [hlist]
    exact fun hmem => ((mem_erase_iff (sorted_lt_erase hsorted y)).mp hmem).1 rfl
  obtain ⟨s4, hr4, e1, e2, e3, hch4, hc4⟩ := insert_ok s3 x _ hch3
    (sorted_lt_erase (sorted_lt_erase hsorted x) y) hxn hlen _
    (by rw [hc3, Function.update_same])
  rw [hlist, insert_erase_self (sorted_lt_erase hsorted y) hxl'] at hch4
  simp only at hc4
  have hc4' : s4.cores = Function.update
      (Function.update s.cores y (some ⟨ky.size, ky.req_size, ky.fib_index, false⟩))
      x (some ⟨kx.size + ky.size, 0, kx.fib_index + 1, true⟩) := by
    rw [hc4, hc3, hc2, hc1]
    funext a
    by_cases hax : a = x
    · rw [hax]; simp only [Function.update_same]
    · by_cases hay : a = y
      · rw [hay]
        simp only [Function.update_noteq hxney.symm, Function.update_same]
      · simp only [Function.update_noteq hax, Function.update_noteq hay]
  refine ⟨s1, s2, hy, s4, hr1, hr2, hmy, by rw [← hs3]; exact hr4, ?_, hxl', hc4'⟩
  refine ⟨?_, ?_, hch4, ?_⟩
  · rw [e1, hs3, modify_fib, f1, g1]; exact hwf.table
  · rw [e2, hs3, modify_cap, f2, g2]; exact hwf.cap
  · rw [hc4']
    exact CoreInv.merge hwf.inv hxl hyl hcx hcy hxy (kx.fib_index + 1) (by omega) hj hT

theorem T_succ_le (i : Int) (h0 : 1 ≤ i) (h43 : i ≤ 43) : T (i + 1) = T i + T (i - 1) := by
  have := T_rec (i + 1) (by omega) (by omega)
  rw [show i + 1 - 1 = i by ring, show i + 1 - 2 = i - 1 by ring] at this
  exact this.symm

/-- The loop of `try_merge` keeps the invariant. -/
theorem try_merge_spec (hs : List Nat) :
    ∀ (fuel : Nat) (s : Heap) (l : List Nat) (block : Nat) (s' : Heap), WF s l hs → block ∈ l →
      try_merge fuel s block = .ok s' → ∃ l', WF s' l' hs := by
  intro fuel
  induction fuel with
  | zero => intro s l block s' _ _ hres; rw [try_merge] at hres; cases hres
  | succ fuel ih =>
    intro s l block s' hwf hbl hres
    obtain ⟨hb, hmb⟩ := hwf.hdr_of_mem hbl
    obtain ⟨kb0, eb, eb0, eb44, ebT, ebcap⟩ := hwf.inv.blk block (Or.inl hbl)
    rw [cores_some hmb] at eb; cases eb
    simp only [core] at eb0 eb44 ebT ebcap
    rw [try_merge] at hres
    simp only [rd_some hmb, bind, Except.bind, pure, Except.pure] at hres
    cases hro : right_buddy_check s hb (block + hb.size) with
    | error e => rw [hro] at hres; cases hres
    | ok right_ok =>
      rw [hro] at hres
      simp only at hres
      cases right_ok with
      | true =>
        -- the right neighbour is a free block of index `fib_index - 1`
        simp only [if_true] at hres
        have hinfo : ∃ hr, s.mem (block + hb.size) = some hr ∧ hr.is_free = true ∧
            hr.fib_index = hb.fib_index - 1 := by
          unfold right_buddy_check at hro
          by_cases hlt : block + hb.size < s.simulated_heap_size
          · rw [if_pos hlt] at hro
            cases hmr : s.mem (block + hb.size) with
            | none => simp only [Heap.rd, hmr, bind, Except.bind] at hro; cases hro
            | some hr =>
              simp only [rd_some hmr, bind, Except.bind, pure, Except.pure, Except.ok.injEq,
                Bool.and_eq_true, decide_eq_true_eq] at hro
              exact ⟨hr, rfl, hro.1, hro.2⟩
          · rw [if_neg hlt] at hro
            cases hro
        obtain ⟨hr, hmr, hfree, hidx⟩ := hinfo
        have hrl : block + hb.size ∈ l := (hwf.inv.flag _ _ (cores_some hmr)).mp hfree
        obtain ⟨kr0, er, er0, er44, erT, ercap⟩ := hwf.inv.blk _ (Or.inl hrl)
        rw [cores_some hmr] at er; cases er
        simp only [core] at er0 er44 erT ercap
        have h43 : hb.fib_index ≤ 43 := by
          by_contra hcon
          have h44 : hb.fib_index = 44 := by omega
          rw [h44, T_top] at ebT
          have := T_pos hr.fib_index er0 er44
          omega
        have hTj : T (hb.fib_index + 1) ≤ hb.size + hr.size := by
          rw [T_succ_le hb.fib_index (by omega) h43, ← hidx]
          omega
        obtain ⟨s1, s2, hy, s4, e1, e2, e3, e4, hwf4, hx4, _⟩ := merge_seq_wf s l hs block
          (block + hb.size) (core hb) (core hr) hwf hbl hrl (cores_some hmb) (cores_some hmr) rfl
          (by simp only [core]; omega) (by simpa only [core] using hTj)
        rw [e1] at hres
        simp only at hres
        rw [e2] at hres
        simp only [rd_some e3] at hres
        rw [e4] at hres
        exact ih s4 _ block s' hwf4 hx4 hres
      | false =>
        simp only [Bool.false_eq_true, if_false] at hres
        by_cases hb0 : block ≠ 0
        · rw [if_pos hb0] at hres
          cases hfl : find_left s block s.fuel s.free_list_head with
          | error e => rw [hfl] at hres; cases hres
          | ok left =>
            rw [hfl] at hres
            simp only at hres
            cases left with
            | none => cases hres; exact ⟨l, hwf⟩
            | some lf =>
              simp only at hres
              obtain ⟨hlfl, hl, hml, hadj⟩ := find_left_mem s block lf l _ _ _ hwf.chain hfl
              rw [rd_some hml] at hres
              simp only at hres
              by_cases hcond : (hl.is_free && decide (hl.fib_index = hb.fib_index - 1)) = true
              · rw [if_pos hcond] at hres
                simp only [Bool.and_eq_true, decide_eq_true_eq] at hcond
                obtain ⟨_, hidx⟩ := hcond
                obtain ⟨s1, s2, hy, s4, e1, e2, e3, e4, hwf4, hx4, _⟩ := merge_seq_wf s l hs lf
                  block (core hl) (core hb) hwf hlfl hbl (cores_some hml) (cores_some hmb) hadj
                  (by simp only [core]; omega)
                  (by simp only [core]
                      rw [hidx, show hb.fib_index - 1 + 1 = hb.fib_index by ring]
                      omega)
                rw [e1] at hres
                simp only at hres
                rw [e2] at hres
                simp only [rd_some e3] at hres
                rw [e4] at hres
                exact ih s4 _ lf s' hwf4 hx4 hres
              · rw [if_neg hcond] at hres
                cases hres; exact ⟨l, hwf⟩
        · rw [if_neg hb0] at hres
          cases hres; exact ⟨l, hwf⟩

/-- A call of `simulate_free` on an outstanding handle that returns keeps the
invariant. -/
theorem simulate_free_wf (s : Heap) (l hs : List Nat) (p : Nat) (s' : Heap) (hwf : WF s l hs)
    (hp : p ∈ hs) (hres : simulate_free s (some p) = .ok s') : ∃ l', WF s' l' (hs.erase p) := by
  have hp40 := hwf.inv.handles p hp
  have hbp : p - sizeof_BlockHeader + sizeof_BlockHeader = p := by omega
  have hlive : Live l hs (p - sizeof_BlockHeader) := Or.inr (by rw [hbp]; exact hp)
  obtain ⟨k, hk, _⟩ := hwf.inv.blk _ hlive
  obtain ⟨h, hm, hcore⟩ := cores_some_inv hk
  have hnl : p - sizeof_BlockHeader ∉ l := hwf.inv.alloc _ (by rw [hbp]; exact hp)
  have hfree : h.is_free = false := by
    cases hf : h.is_free with
    | false => rfl
    | true => exact absurd ((hwf.inv.flag _ _ (cores_some hm)).mp hf) hnl
  unfold simulate_free at hres
  simp only [if_neg (by omega : ¬ p < sizeof_BlockHeader), bind, Except.bind, rd_some hm, hfree,
    Bool.false_eq_true, if_false] at hres
  obtain ⟨s1, hs1⟩ : ∃ s1 : Heap, s1 = { s with allocated_memory :=
      (s.allocated_memory + (SIZE_T_MOD - h.size % SIZE_T_MOD)) % SIZE_T_MOD } := ⟨_, rfl⟩
  rw [← hs1] at hres
  have hch1 : Chain s1.mem none s1.free_list_head l := by rw [hs1]; exact hwf.chain
  have hfuel1 : l.length < s1.fuel := by
    have := hwf.fuel_ok
    rw [hs1]; exact this
  have hk1 : s1.cores (p - sizeof_BlockHeader) = some k := by rw [hs1]; exact hk
  obtain ⟨s2, hr2, e1, e2, e3, hch2, hc2⟩ := insert_ok s1 _ l hch1 hwf.inv.sorted hnl hfuel1 k hk1
  rw [hr2] at hres
  simp only at hres
  have hwf2 : WF s2 (l.orderedInsert (· ≤ ·) (p - sizeof_BlockHeader)) (hs.erase p) := by
    refine ⟨?_, ?_, hch2, ?_⟩
    · rw [e1, hs1]; exact hwf.table
    · rw [e2, hs1]; exact hwf.cap
    · rw [hc2]
      have : s1.cores = s.cores := by rw [hs1]; rfl
      rw [this]
      exact CoreInv.release hwf.inv hp hbp hk
  exact try_merge_spec _ _ s2 _ _ s' hwf2 (mem_insert_iff.mpr (Or.inl rfl)) hres

theorem init_eq : init = .ok init_state := by rfl

theorem WF_init : WF init_state [0] [] := by
  refine ⟨rfl, rfl, ⟨rfl, _, rfl, rfl, rfl⟩, ?_⟩
  have hc : ∀ a k, init_state.cores a = some k → a = 0 ∧ k = ⟨1836311903, 0, 44, true⟩ := by
    intro a k hk
    unfold Heap.cores init_state at hk
    simp only [Function.update_apply] at hk
    by_cases ha : a = 0
    · rw [if_pos ha] at hk
      simp only [Option.map_some', core, Option.some.injEq] at hk
      exact ⟨ha, hk.symm⟩
    · rw [if_neg ha] at hk
      cases hk
  have hlive : ∀ a, Live [0] [] a → a = 0 := by
    intro a ha
    rcases ha with h | h
    · simpa using h
    · cases h
  refine ⟨List.sorted_singleton 0, ?_, ?_, List.nodup_nil, ?_, ?_, ?_⟩
  · intro a k hk
    obtain ⟨h1, h2⟩ := hc a k hk
    subst h1; subst h2
    simp
  · intro p hp; cases hp
  · intro a ha; cases ha
  · intro a ha
    rw [hlive a ha]
    refine ⟨⟨1836311903, 0, 44, true⟩, rfl, by decide, by decide, ?_, by decide⟩
    rw [T_top]; decide
  · intro a b k ha hb hlt
    rw [hlive a ha, hlive b hb] at hlt
    omega

/-- Every legal run keeps the invariant. -/
theorem run_ops_wf : ∀ (ops : List Op) (s : Heap) (l hs : List Nat) (s' : Heap) (hs' : List Nat),
    WF s l hs → run_ops ops s hs = some (s', hs') → ∃ l', WF s' l' hs' := by
  intro ops
  induction ops with
  | nil =>
    intro s l hs s' hs' hwf hrun
    simp only [run_ops, Option.some.injEq, Prod.mk.injEq] at hrun
    obtain ⟨h1, h2⟩ := hrun
    subst h1; subst h2
    exact ⟨l, hwf⟩
  | cons op ops ih =>
    intro s l hs s' hs' hwf hrun
    cases op with
    | malloc n =>
      simp only [run_ops] at hrun
      cases hm : simulate_malloc s n with
      | error e => rw [hm] at hrun; cases hrun
      | ok res =>
        obtain ⟨r, s1⟩ := res
        rw [hm] at hrun
        rcases simulate_malloc_wf s l hs n r s1 hwf hm with ⟨h1, h2⟩ | ⟨b, l1, k, h1, _, h2, _⟩
        · rw [h1, h2] at hrun
          exact ih s l hs s' hs' hwf hrun
        · subst h1
          exact ih s1 l1 _ s' hs' h2 hrun
    | free p =>
      simp only [run_ops] at hrun
      by_cases hp : p ∈ hs
      · rw [if_pos hp] at hrun
        cases hf : simulate_free s (some p) with
        | error e => rw [hf] at hrun; cases hrun
        | ok s1 =>
          rw [hf] at hrun
          obtain ⟨l1, hwf1⟩ := simulate_free_wf s l hs p s1 hwf hp hf
          exact ih s1 l1 _ s' hs' hwf1 hrun
      · rw [if_neg hp] at hrun
        cases hrun

/-- Every reachable state satisfies the invariant. -/
theorem reachable_wf (s : Heap) (hs : List Nat) (h : Reachable s hs) : ∃ l, WF s l hs := by
  obtain ⟨ops, hrun⟩ := h
  unfold run at hrun
  rw [init_eq] at hrun
  exact run_ops_wf ops init_state [0] [] s hs WF_init hrun

/-! ## Evaluations of concrete runs -/

set_option maxRecDepth 100000 in
theorem ev1 : (run [.malloc 500000000, .malloc 500000000, .free 1134903210,
      .malloc 300000000]).map
      (fun p => (p.2, p.1.tiled p.2, p.1.block_offsets p.2,
        (p.1.block_offsets p.2).map p.1.size_at))
    = some ([701408773, 40], false, [0, 701408733, 1134903170],
        [701408733, 433494437, 267914296]) := by decide

set_option maxRecDepth 100000 in
theorem ev2 : (run [.malloc 500000000, .malloc 500000000, .free 1134903210]).map
      (fun p => (p.2, p.1.free_list,
        (p.1.mem 701408733).map (fun h => (h.size, h.fib_index, h.is_free))))
    = some ([40], [701408733], some (1134903170, 42, true)) := by decide

set_option maxRecDepth 100000 in
theorem ev2b : (run [.malloc 500000000, .malloc 500000000, .free 1134903210]).map
      (fun p => (p.1.fib_numbers.get? 42, p.1.sizes_consistent p.2))
    = some (some 701408733, false) := by decide

set_option maxRecDepth 100000 in
theorem ev4n : ((run [.malloc 16]).bind
      (fun p => (simulate_malloc p.1 (2 ^ 64 - 1)).toOption)).map
      (fun r => (r.1, (r.2.mem 89).map (fun h => (h.size, h.fib_index, h.req_size, h.is_free))))
    = some (some 129, some (55, 8, 2 ^ 64 - 1, false)) := by decide

set_option maxRecDepth 100000 in
theorem ev4m : (run [.malloc 16]).map
      (fun p => (p.2, p.1.free_list_head, p.1.allocated_memory, p.1.fib_numbers.get? 7,
        p.1.fib_numbers.get? 8))
    = some ([40], some 89, 89, some 34, some 55) := by decide

set_option maxRecDepth 100000 in
theorem ev4k : (run [.malloc 16]).map
      (fun p => decide (∀ v ∈ p.1.fib_numbers, v < 2 ^ 64 - 2 + sizeof_BlockHeader))
    = some true := by decide

set_option maxRecDepth 100000 in
theorem ev7n : ((run [.malloc 16]).bind
      (fun p => (simulate_malloc p.1 (2 ^ 64 - 2)).toOption)).map
      (fun r => (r.1, r.2.free_list_head, r.2.allocated_memory))
    = some (some 129, some 144, 144) := by decide

set_option maxRecDepth 100000 in
theorem ev5 : (run [.malloc 500000000, .malloc 300000000, .free 701408773, .free 40]).map
      (fun p => (p.2, p.1.free_list, p.1.allocated_memory,
        (p.1.mem 701408733).map (fun h => h.is_free)))
    = some ([], [0], 0, some false) := by decide

set_option maxRecDepth 100000 in
theorem ev5c : ((run [.malloc 500000000, .malloc 300000000, .free 701408773, .free 40]).bind
      (fun p => (simulate_free p.1 (some 701408773)).toOption)).map
      (fun s => (s.free_list, s.allocated_memory))
    = some ([0, 701408733], 2 ^ 64 - 433494437) := by decide

set_option maxRecDepth 100000 in
theorem ev5b : (run [.malloc 500000000, .malloc 300000000]).map (fun p => p.2)
    = some [701408773, 40] := by decide

/-- Witness for C10: the term at index 5 of the configured table. -/
theorem init_fib_table_recurrence_witness :
    (2 ≤ 5 ∧ 5 < (init_fib_table HEAP_SIZE).length) ∧
    (init_fib_table HEAP_SIZE).getD 5 0
      = (init_fib_table HEAP_SIZE).getD (5 - 1) 0 + (init_fib_table HEAP_SIZE).getD (5 - 2) 0 ∧
    (init_fib_table HEAP_SIZE).getD (5 - 1) 0 + (init_fib_table HEAP_SIZE).getD (5 - 2) 0
      < SIZE_T_MOD :=
  ⟨by decide, (init_fib_table_recurrence HEAP_SIZE).2.2.1 5 (by decide) (by decide)⟩

set_option maxRecDepth 100000 in

theorem exists_of_map_eq {α β : Type} {f : α → β} {x : Option α} {v : β}
    (h : x.map f = some v) : ∃ a, x = some a ∧ f a = v := by
  cases x with
  | none => cases h
  | some a => exact ⟨a, rfl, by simpa using h⟩

theorem exists_of_toOption_map_eq {α β : Type} {f : α → β} {x : Except Fault α} {v : β}
    (h : x.toOption.map f = some v) : ∃ a, x = .ok a ∧ f a = v := by
  cases x with
  | error e => cases h
  | ok a => exact ⟨a, rfl, by simpa [Except.toOption] using h⟩

/-- C1 (tiling invariant), at a failing run.  After the legal calls
`a = malloc(500000000)`, `b = malloc(500000000)`, `free(b)`,
`c = malloc(300000000)` the blocks no longer tile the arena: they start at 0,
701408733 and 1134903170 with sizes 701408733, 433494437 and 267914296, so the
last block ends at 1402817466 and `[1402817466, 1836311903)` belongs to no
block. -/
theorem tiling_fails_after_left_merge :
    ∃ s hs, Reachable s hs ∧ hs = [701408773, 40] ∧ s.simulated_heap_size = 1836311903 ∧
      s.tiled hs = false ∧ s.block_offsets hs = [0, 701408733, 1134903170] ∧
      (s.block_offsets hs).map s.size_at = [701408733, 433494437, 267914296] := by
  obtain ⟨⟨s, hs⟩, hrun, hv⟩ := exists_of_map_eq ev1
  simp only [Prod.mk.injEq] at hv
  obtain ⟨l, hwf⟩ := reachable_wf s hs ⟨_, hrun⟩
  exact ⟨s, hs, ⟨_, hrun⟩, hv.1, hwf.cap, hv.2.1, hv.2.2.1, hv.2.2.2⟩

/-- C2 (size/index consistency), at a failing run.  After the legal calls
`a = malloc(500000000)`, `b = malloc(500000000)`, `free(b)` the left-buddy
merge of `try_merge` has left, as the only free-list entry, a block at offset
701408733 with size 1134903170 and `fib_index` 42, while `fib_numbers[42]` is
701408733. -/
theorem size_index_mismatch_after_left_merge :
    ∃ s hs, Reachable s hs ∧ hs = [40] ∧ s.free_list = [701408733] ∧
      (∃ h, s.mem 701408733 = some h ∧ h.size = 1134903170 ∧ h.fib_index = 42 ∧
        h.is_free = true) ∧
      s.fib_numbers.get? 42 = some 701408733 ∧ s.sizes_consistent hs = false := by
  obtain ⟨⟨s, hs⟩, hrun, hv⟩ := exists_of_map_eq ev2
  obtain ⟨⟨s', hs'⟩, hrun', hv'⟩ := exists_of_map_eq ev2b
  rw [hrun] at hrun'
  cases hrun'
  simp only [Prod.mk.injEq] at hv hv'
  obtain ⟨h, hm, hh⟩ := exists_of_map_eq hv.2.2
  simp only [Prod.mk.injEq] at hh
  exact ⟨s, hs, ⟨_, hrun⟩, hv.1, hv.2.1, ⟨h, hm, hh.1, hh.2.1, hh.2.2⟩, hv'.1, hv'.2⟩

/-- C4 (sizing law), at a failing input.  In the state after `malloc(16)`,
`simulate_malloc(SIZE_MAX)` returns the handle 129: `size + sizeof(BlockHeader)`
wraps to 39, whose smallest covering term is `fib_numbers[8] = 55`
(`fib_numbers[7] = 34 < 39`), so the free block of index 8 at offset 89 is
handed out, with a usable length of `55 - 40 = 15` bytes, less than the
`2 ^ 64 - 1` requested. -/
theorem sizing_law_fails_on_wrap :
    2 ^ 64 - 1 < SIZE_T_MOD ∧ (2 ^ 64 - 1 + sizeof_BlockHeader) % SIZE_T_MOD = 39 ∧
    ∃ s hs, Reachable s hs ∧ hs = [40] ∧
      s.fib_numbers.get? 7 = some 34 ∧ s.fib_numbers.get? 8 = some 55 ∧
      ∃ s1 h, simulate_malloc s (2 ^ 64 - 1) = .ok (some 129, s1) ∧
        s1.mem (129 - sizeof_BlockHeader) = some h ∧ h.fib_index = 8 ∧ h.size = 55 ∧
        h.req_size = 2 ^ 64 - 1 ∧ h.size - sizeof_BlockHeader < 2 ^ 64 - 1 := by
  refine ⟨by decide, by decide, ?_⟩
  obtain ⟨⟨s, hs⟩, hrun, hv⟩ := exists_of_map_eq ev4m
  simp only [Prod.mk.injEq] at hv
  have h4 := ev4n
  rw [hrun] at h4
  simp only [Option.some_bind] at h4
  obtain ⟨⟨r, s1⟩, hm, hv1⟩ := exists_of_toOption_map_eq h4
  simp only [Prod.mk.injEq] at hv1
  obtain ⟨h, hmem, hh⟩ := exists_of_map_eq hv1.2
  simp only [Prod.mk.injEq] at hh
  have hr : r = some 129 := hv1.1
  subst hr
  refine ⟨s, hs, ⟨_, hrun⟩, hv.1, hv.2.2.2.1, hv.2.2.2.2, s1, h, hm, hmem, hh.2.1, hh.1,
    hh.2.2.1, ?_⟩
  rw [hh.1]; decide

/-- C5 (double-free detection), at a failing run.  After
`a = malloc(500000000)` (handle 40), `b = malloc(300000000)` (handle
701408773), `free(b)`, `free(a)` the block of `b` has been absorbed by the
merge of `a` with its right neighbour, which cleared its `is_free`; a second
`free(b)` passes the assertion, puts offset 701408733 back on the free list
next to the block at 0 that spans the arena, and wraps `allocated_memory`
below zero. -/
theorem double_free_undetected_after_merge :
    (∃ s hs, run [.malloc 500000000, .malloc 300000000] = some (s, hs) ∧
      hs = [701408773, 40]) ∧
    ∃ s, run [.malloc 500000000, .malloc 300000000, .free 701408773, .free 40] = some (s, []) ∧
      s.free_list = [0] ∧ s.allocated_memory = 0 ∧
      ∃ s', simulate_free s (some 701408773) = .ok s' ∧ s'.free_list = [0, 701408733] ∧
        s'.allocated_memory = 2 ^ 64 - 433494437 := by
  constructor
  · obtain ⟨⟨s, hs⟩, hrun, hv⟩ := exists_of_map_eq ev5b
    exact ⟨s, hs, hrun, hv⟩
  · obtain ⟨⟨s, hs⟩, hrun, hv⟩ := exists_of_map_eq ev5
    simp only [Prod.mk.injEq] at hv
    have hhs : hs = [] := hv.1
    subst hhs
    have h5 := ev5c
    rw [hrun] at h5
    simp only [Option.some_bind] at h5
    obtain ⟨s', hf, hv'⟩ := exists_of_toOption_map_eq h5
    simp only [Prod.mk.injEq] at hv'
    exact ⟨s, hrun, hv.2.1, hv.2.2.1, s', hf, hv'.1, hv'.2⟩

/-- C7 (exhaustion), at a failing input.  For `size = SIZE_MAX - 1` the sum
`size + sizeof(BlockHeader)` exceeds every table term, yet in the state after
`malloc(16)` the call `simulate_malloc(size)` returns the handle 129 and
changes the free list (head 89 becomes 144) and `allocated_memory` (89 becomes
144): the sum wraps to 38 in `align_size`. -/
theorem too_large_request_succeeds_on_wrap :
    2 ^ 64 - 2 < SIZE_T_MOD ∧
    ∃ s hs, Reachable s hs ∧ hs = [40] ∧
      (∀ v ∈ s.fib_numbers, v < 2 ^ 64 - 2 + sizeof_BlockHeader) ∧
      s.free_list_head = some 89 ∧ s.allocated_memory = 89 ∧
      ∃ s1, simulate_malloc s (2 ^ 64 - 2) = .ok (some 129, s1) ∧
        s1.free_list_head = some 144 ∧ s1.allocated_memory = 144 := by
  refine ⟨by decide, ?_⟩
  obtain ⟨⟨s, hs⟩, hrun, hv⟩ := exists_of_map_eq ev4m
  simp only [Prod.mk.injEq] at hv
  obtain ⟨⟨s', hs'⟩, hrun', hv'⟩ := exists_of_map_eq ev4k
  rw [hrun] at hrun'
  cases hrun'
  simp only [decide_eq_true_eq] at hv'
  have h7 := ev7n
  rw [hrun] at h7
  simp only [Option.some_bind] at h7
  obtain ⟨⟨r, s1⟩, hm, hv1⟩ := exists_of_toOption_map_eq h7
  simp only [Prod.mk.injEq] at hv1
  have hr : r = some 129 := hv1.1
  subst hr
  exact ⟨s, hs, ⟨_, hrun⟩, hv.1, hv', hv.2.1, hv.2.2.1, s1, hm, hv1.2.1, hv1.2.2⟩

theorem fibT_sum (k : Nat) (h2 : 2 ≤ k) : fibT (k - 1) + fibT (k - 2) = fibT k := by
  unfold fibT
  obtain ⟨j, rfl⟩ : ∃ j, k = j + 2 := ⟨k - 2, by omega⟩
  simp only [Nat.add_sub_cancel]
  rw [show j + 2 - 1 + 2 = j + 2 + 1 by omega, @Nat.fib_add_two (j + 2)]
  ring

theorem fibT_getD (k i : Nat) (hi : i < k) : ((List.range k).map fibT).getD i 0 = fibT i := by
  rw [List.getD_eq_getElem _ _ (by simp; omega)]; simp

/-- The loop of `init_fib_table` appends exactly the terms that do not exceed
the capacity, and stops early only at a term that does. -/
theorem fib_loop_bound (cap : Nat) : ∀ (fuel k : Nat), 2 ≤ k → k ≤ 50 → 50 ≤ fuel + k →
    ∃ k', 2 ≤ k' ∧ k' ≤ 50 ∧ k ≤ k' ∧
      fib_loop cap fuel ((List.range k).map fibT) = (List.range k').map fibT ∧
      (∀ i, k ≤ i → i < k' → fibT i ≤ cap) ∧ (k' < 50 → cap < fibT k') := by
  intro fuel
  induction fuel with
  | zero =>
    intro k h2 h50 hf
    exact ⟨k, h2, h50, le_refl _, rfl, fun i h1 h2 => by omega, fun h => by omega⟩
  | succ fuel ih =>
    intro k h2 h50 hf
    unfold fib_loop
    have hl : ((List.range k).map fibT).length = k := by simp
    by_cases hlen : k < 50
    · have hmod : (fibT (k - 1) + fibT (k - 2)) % SIZE_T_MOD = fibT k := by
        rw [fibT_sum k h2]; exact Nat.mod_eq_of_lt (fibT_lt_mod k (by omega))
      simp only [hl, MAX_FIB_COUNT, hlen, if_true, fibT_getD k (k - 1) (by omega),
        fibT_getD k (k - 2) (by omega), hmod]
      by_cases hc : fibT k > cap
      · simp only [hc, if_true]
        exact ⟨k, h2, h50, le_refl _, rfl, fun i h1 h2 => by omega, fun _ => hc⟩
      · simp only [hc, if_false]
        have : (List.range k).map fibT ++ [fibT k] = (List.range (k + 1)).map fibT := by
          simp [List.range_succ]
        rw [this]
        obtain ⟨k', h1, h2', h3, h4, h5, h6⟩ := ih (k + 1) (by omega) (by omega) (by omega)
        refine ⟨k', h1, h2', by omega, h4, ?_, h6⟩
        intro i hki hik
        by_cases hik' : i = k
        · rw [hik']; omega
        · exact h5 i (by omega) hik
    · simp only [hl, MAX_FIB_COUNT, hlen, if_false]
      exact ⟨k, h2, h50, le_refl _, rfl, fun i h1 h2 => by omega, fun h => by omega⟩

/-- C11 (table bound), amended to capacities of at least 2.  For every
capacity `cap >= 2` every term of the table `init_fib_table` builds is at most
`cap`, the table has at most `MAX_FIB_COUNT` terms, and when it has fewer the
sum of its last two terms exceeds `cap`. -/
theorem init_fib_table_bound (cap : Nat) (hcap : 2 ≤ cap) :
    (∀ v ∈ init_fib_table cap, v ≤ cap) ∧
    (init_fib_table cap).length ≤ MAX_FIB_COUNT ∧
    ((init_fib_table cap).length < MAX_FIB_COUNT →
      cap < (init_fib_table cap).getD ((init_fib_table cap).length - 1) 0
        + (init_fib_table cap).getD ((init_fib_table cap).length - 2) 0) := by
  obtain ⟨k, h2, h50, _, hk, hle, hmax⟩ :=
    fib_loop_bound cap MAX_FIB_COUNT 2 (le_refl _) (by omega) (by unfold MAX_FIB_COUNT; omega)
  have htab : init_fib_table cap = (List.range k).map fibT := by
    unfold init_fib_table
    have : ([1, 2] : List Nat) = (List.range 2).map fibT := by decide
    rw [this]; exact hk
  rw [htab]
  have hl : ((List.range k).map fibT).length = k := by simp
  refine ⟨?_, ?_, ?_⟩
  · intro v hv
    simp only [List.mem_map, List.mem_range] at hv
    obtain ⟨i, hi, rfl⟩ := hv
    by_cases h0 : i = 0
    · rw [h0]; show 1 ≤ cap; omega
    · by_cases h1 : i = 1
      · rw [h1]; exact hcap
      · exact hle i (by omega) hi
  · rw [hl]; exact h50
  · rw [hl]
    intro hlt
    rw [fibT_getD k (k - 1) (by omega), fibT_getD k (k - 2) (by omega), fibT_sum k h2]
    exact hmax hlt

/-- Witness for C11: the configured capacity, whose table has 45 terms. -/
theorem init_fib_table_bound_witness :
    2 ≤ HEAP_SIZE ∧ (init_fib_table HEAP_SIZE).length < MAX_FIB_COUNT ∧
    HEAP_SIZE < (init_fib_table HEAP_SIZE).getD ((init_fib_table HEAP_SIZE).length - 1) 0
        + (init_fib_table HEAP_SIZE).getD ((init_fib_table HEAP_SIZE).length - 2) 0 :=
  ⟨by decide, by decide, (init_fib_table_bound HEAP_SIZE (by decide)).2.2 (by decide)⟩

/-- C11 as stated fails at capacity 1: the table is `[1, 2]`, the two terms
`init_fib_table` stores before its loop, and the term 2 exceeds the capacity. -/
theorem init_fib_table_exceeds_capacity_one :
    1 ≤ 1 ∧ init_fib_table 1 = [1, 2] ∧ ¬ ∀ v ∈ init_fib_table 1, v ≤ 1 := by decide

theorem init_fib_table_sorted (cap : Nat) : (init_fib_table cap).Pairwise (· < ·) := by
  obtain ⟨k, _, _, hk⟩ := init_fib_table_shape cap
  rw [hk, List.pairwise_map]
  have := List.pairwise_lt_range k
  refine this.imp ?_
  intro a b hab
  exact Nat.fib_add_two_strictMono hab

theorem init_fib_table_pos (cap : Nat) : ∀ v ∈ init_fib_table cap, 1 ≤ v := by
  obtain ⟨k, _, _, hk⟩ := init_fib_table_shape cap
  rw [hk]
  intro v hv
  simp only [List.mem_map, List.mem_range] at hv
  obtain ⟨i, _, rfl⟩ := hv
  unfold fibT
  exact Nat.fib_pos.mpr (by omega)

/-- The first entry of a strictly increasing list that is at least `x` is the
smallest such entry. -/
theorem find_ge_spec (x : Nat) : ∀ (l : List Nat), l.Pairwise (· < ·) →
    (∀ v, l.find? (fun v => decide (v ≥ x)) = some v →
      v ∈ l ∧ x ≤ v ∧ ∀ w ∈ l, x ≤ w → v ≤ w) ∧
    (l.find? (fun v => decide (v ≥ x)) = none ↔ ∀ w ∈ l, w < x) := by
  intro l
  induction l with
  | nil =>
    intro _
    exact ⟨fun v h => by simp at h, by simp⟩
  | cons a l ih =>
    intro hp
    obtain ⟨hal, hl⟩ := List.pairwise_cons.mp hp
    obtain ⟨ih1, ih2⟩ := ih hl
    by_cases hax : a ≥ x
    · refine ⟨?_, ?_⟩
      · intro v hv
        rw [List.find?_cons_of_pos _ (by simpa using hax)] at hv
        cases hv
        refine ⟨List.mem_cons_self _ _, hax, ?_⟩
        intro w hw _
        rcases List.mem_cons.mp hw with h | h
        · omega
        · exact le_of_lt (hal w h)
      · rw [List.find?_cons_of_pos _ (by simpa using hax)]
        constructor
        · intro h; cases h
        · intro h
          have := h a (List.mem_cons_self _ _)
          omega
    · have hneg : ¬ (decide (a ≥ x) = true) := by simpa using hax
      refine ⟨?_, ?_⟩
      · intro v hv
        rw [List.find?_cons_of_neg l hneg] at hv
        obtain ⟨h1, h2, h3⟩ := ih1 v hv
        refine ⟨List.mem_cons_of_mem _ h1, h2, ?_⟩
        intro w hw hxw
        rcases List.mem_cons.mp hw with h | h
        · omega
        · exact h3 w h hxw
      · rw [List.find?_cons_of_neg l hneg, ih2]
        constructor
        · intro h w hw
          rcases List.mem_cons.mp hw with h' | h'
          · omega
          · exact h w h'
        · intro h w hw
          exact h w (List.mem_cons_of_mem _ hw)

/-- The loop computing `target_index` returns the first position of the
aligned size, counted from `i0`. -/
theorem target_loop_spec (v : Nat) : ∀ (l : List Nat) (i0 : Int), v ∈ l →
    ∃ n : Nat, target_loop v l i0 = i0 + n ∧ l.get? n = some v ∧
      ∀ m, m < n → l.get? m ≠ some v := by
  intro l
  induction l with
  | nil => intro i0 h; cases h
  | cons a l ih =>
    intro i0 h
    by_cases hav : a = v
    · refine ⟨0, ?_, ?_, ?_⟩
      · rw [target_loop, if_pos hav]; simp
      · rw [hav]; rfl
      · intro m hm; omega
    · have hvl : v ∈ l := by
        rcases List.mem_cons.mp h with h' | h'
        · exact absurd h'.symm hav
        · exact h'
      obtain ⟨n, h1, h2, h3⟩ := ih (i0 + 1) hvl
      refine ⟨n + 1, ?_, ?_, ?_⟩
      · rw [target_loop, if_neg hav, h1]; push_cast; ring
      · simpa using h2
      · intro m hm
        cases m with
        | zero => simp; exact hav
        | succ m => simpa using h3 m (by omega)

theorem get_inj_of_pairwise_lt {l : List Nat} (hp : l.Pairwise (· < ·)) {i j : Nat} {v : Nat}
    (hi : l.get? i = some v) (hj : l.get? j = some v) : i = j := by
  have hnd : l.Nodup := hp.imp (fun h => ne_of_lt h)
  rw [List.get?_eq_getElem?] at hi hj
  obtain ⟨hi', hiv⟩ := List.getElem?_eq_some_iff.mp hi
  obtain ⟨hj', hjv⟩ := List.getElem?_eq_some_iff.mp hj
  exact (List.Nodup.getElem_inj_iff hnd).mp (hiv.trans hjv.symm)

/-- C12 (round-up).  For a table built by `init_fib_table` and every `size`
whose sum with `sizeof(BlockHeader)` does not wrap: when some table term is at
least `size + sizeof(BlockHeader)`, `align_size(size)` is the smallest such
term; `align_size(size)` is 0 exactly when every table term (so the largest)
is below that sum; and for a non-zero result the loop of `simulate_malloc`
sets `target_index` to the one table index that holds the result. -/
theorem align_size_round_up (cap : Nat) (s : Heap) (size : Nat)
    (htab : s.fib_numbers = init_fib_table cap)
    (hnw : size + sizeof_BlockHeader < SIZE_T_MOD) :
    ((∃ w ∈ s.fib_numbers, size + sizeof_BlockHeader ≤ w) →
      align_size s size ∈ s.fib_numbers ∧ size + sizeof_BlockHeader ≤ align_size s size ∧
      ∀ w ∈ s.fib_numbers, size + sizeof_BlockHeader ≤ w → align_size s size ≤ w) ∧
    (align_size s size = 0 ↔ ∀ w ∈ s.fib_numbers, w < size + sizeof_BlockHeader) ∧
    (align_size s size ≠ 0 →
      ∃ i : Nat, target_loop (align_size s size) s.fib_numbers 0 = (i : Int) ∧
        s.fib_numbers.get? i = some (align_size s size) ∧
        ∀ j, s.fib_numbers.get? j = some (align_size s size) → j = i) := by
  have hsorted : s.fib_numbers.Pairwise (· < ·) := by rw [htab]; exact init_fib_table_sorted cap
  have hpos : ∀ v ∈ s.fib_numbers, 1 ≤ v := by rw [htab]; exact init_fib_table_pos cap
  obtain ⟨hf1, hf2⟩ := find_ge_spec (size + sizeof_BlockHeader) s.fib_numbers hsorted
  have hmod : (size + sizeof_BlockHeader) % SIZE_T_MOD = size + sizeof_BlockHeader :=
    Nat.mod_eq_of_lt hnw
  have hzero : align_size s size = 0 ↔ ∀ w ∈ s.fib_numbers, w < size + sizeof_BlockHeader := by
    unfold align_size
    simp only [hmod]
    cases hfind : s.fib_numbers.find? (fun v => decide (v ≥ size + sizeof_BlockHeader)) with
    | none => simp only [true_iff]; exact hf2.mp hfind
    | some v =>
      simp only
      obtain ⟨h1, h2, _⟩ := hf1 v hfind
      constructor
      · intro h0
        have := hpos v h1
        omega
      · intro h
        have := h v h1
        omega
  have hsome : align_size s size ≠ 0 →
      align_size s size ∈ s.fib_numbers ∧ size + sizeof_BlockHeader ≤ align_size s size ∧
      ∀ w ∈ s.fib_numbers, size + sizeof_BlockHeader ≤ w → align_size s size ≤ w := by
    intro hne
    unfold align_size at hne ⊢
    simp only [hmod] at hne ⊢
    cases hfind : s.fib_numbers.find? (fun v => decide (v ≥ size + sizeof_BlockHeader)) with
    | none => rw [hfind] at hne; exact absurd rfl hne
    | some v => exact hf1 v hfind
  refine ⟨?_, hzero, ?_⟩
  · rintro ⟨w, hw, hle⟩
    apply hsome
    intro h0
    have := hzero.mp h0 w hw
    omega
  · intro hne
    obtain ⟨hmem, _, _⟩ := hsome hne
    obtain ⟨n, h1, h2, _⟩ := target_loop_spec _ s.fib_numbers 0 hmem
    refine ⟨n, by rw [h1]; simp, h2, ?_⟩
    intro j hj
    exact get_inj_of_pairwise_lt hsorted hj h2

/-- Witness for C12: the request of 16 bytes on the configured table rounds
up to `fib_numbers[9] = 89`. -/
theorem align_size_round_up_witness :
    init_state.fib_numbers = init_fib_table HEAP_SIZE ∧ 16 + sizeof_BlockHeader < SIZE_T_MOD ∧
    align_size init_state 16 ≠ 0 ∧
    ∃ i : Nat, target_loop (align_size init_state 16) init_state.fib_numbers 0 = (i : Int) ∧
      init_state.fib_numbers.get? i = some (align_size init_state 16) ∧
      ∀ j, init_state.fib_numbers.get? j = some (align_size init_state 16) → j = i :=
  ⟨rfl, by decide, by decide,
    (align_size_round_up HEAP_SIZE init_state 16 rfl (by decide)).2.2 (by decide)⟩

/-! ## Coalescing and the smallest blocks -/

set_option maxRecDepth 100000 in
theorem ev14 : (run [.malloc 500000000, .malloc 500000000, .free 40, .free 1134903210]).map
      (fun p => (p.2, p.1.free_blocks))
    = some ([], [(0, 1134903170, 43), (1134903170, 701408733, 42)]) := by decide

set_option maxRecDepth 100000 in
theorem ev14b : (run [.malloc 500000000, .malloc 500000000]).map (fun p => (p.2, p.1.free_blocks))
    = some ([1134903210, 40], [(701408733, 433494437, 41)]) := by decide

set_option maxRecDepth 100000 in
theorem ev14c : (run [.malloc 500000000, .malloc 500000000, .free 1134903210, .free 40]).map
      (fun p => (p.2, p.1.free_blocks))
    = some ([], [(0, 701408733, 42), (701408733, 1134903170, 42)]) := by decide

set_option maxRecDepth 100000 in
theorem ev15 : (run [.malloc 300000000, .malloc 200000000, .free 40]).map
      (fun p => (p.2, p.1.free_blocks))
    = some ([433494477], [(0, 433494437, 41), (701408733, 433494437, 41),
        (1134903170, 701408733, 42)]) := by decide

set_option maxRecDepth 100000 in
theorem ev15b : ((run [.malloc 300000000, .malloc 200000000, .free 40]).bind
      (fun p => (simulate_free p.1 (some 433494477)).toOption)).map
      (fun s => s.free_blocks)
    = some [(0, 433494437, 41), (433494437, 267914296, 40), (701408733, 433494437, 41),
        (1134903170, 701408733, 42)] := by decide

set_option maxRecDepth 100000 in

/-- C14 (full re-merge), at a failing run.  After `a = malloc(500000000)`
(handle 40) and `b = malloc(500000000)` (handle 1134903210), freeing `a` and
then `b`, the order of `main`, leaves two free blocks, at 0 (size 1134903170,
index 43) and at 1134903170 (size 701408733, index 42): the two buddies of the
initial block are both free and are not merged.  Freeing `b` and then `a`
leaves two free blocks as well. -/
theorem no_full_remerge_in_allocation_order :
    (∃ s, run [.malloc 500000000, .malloc 500000000] = some (s, [1134903210, 40]) ∧
      s.free_blocks = [(701408733, 433494437, 41)]) ∧
    (∃ s, run [.malloc 500000000, .malloc 500000000, .free 40, .free 1134903210]
        = some (s, []) ∧
      s.free_blocks = [(0, 1134903170, 43), (1134903170, 701408733, 42)]) ∧
    (∃ s, run [.malloc 500000000, .malloc 500000000, .free 1134903210, .free 40]
        = some (s, []) ∧
      s.free_blocks = [(0, 701408733, 42), (701408733, 1134903170, 42)]) := by
  refine ⟨?_, ?_, ?_⟩
  · obtain ⟨⟨s, hs⟩, hrun, hv⟩ := exists_of_map_eq ev14b
    simp only [Prod.mk.injEq] at hv
    obtain ⟨h1, h2⟩ := hv
    subst h1
    exact ⟨s, hrun, h2⟩
  · obtain ⟨⟨s, hs⟩, hrun, hv⟩ := exists_of_map_eq ev14
    simp only [Prod.mk.injEq] at hv
    obtain ⟨h1, h2⟩ := hv
    subst h1
    exact ⟨s, hrun, h2⟩
  · obtain ⟨⟨s, hs⟩, hrun, hv⟩ := exists_of_map_eq ev14c
    simp only [Prod.mk.injEq] at hv
    obtain ⟨h1, h2⟩ := hv
    subst h1
    exact ⟨s, hrun, h2⟩

/-- C15 (maximal coalescing), at a failing run.  After `a = malloc(300000000)`
(handle 40), `b = malloc(200000000)` (handle 433494477) and `free(a)`, the
legal `free(b)` returns with the block of `b` on the free list at 433494437,
with size 267914296 and index 40, unmerged: the free block before it, at 0
with size 433494437 and index 41, ends where it starts, and the free block
after it, at 701408733 with index 41, starts where it ends. -/
theorem eligible_buddy_left_unmerged :
    ∃ s hs, Reachable s hs ∧ hs = [433494477] ∧
      s.free_blocks = [(0, 433494437, 41), (701408733, 433494437, 41),
        (1134903170, 701408733, 42)] ∧
      ∃ s', simulate_free s (some 433494477) = .ok s' ∧
        s'.free_blocks = [(0, 433494437, 41), (433494437, 267914296, 40),
          (701408733, 433494437, 41), (1134903170, 701408733, 42)] ∧
        0 + 433494437 = 433494477 - sizeof_BlockHeader ∧
        433494477 - sizeof_BlockHeader + 267914296 = 701408733 := by
  obtain ⟨⟨s, hs⟩, hrun, hv⟩ := exists_of_map_eq ev15
  simp only [Prod.mk.injEq] at hv
  have h15 := ev15b
  rw [hrun] at h15
  simp only [Option.some_bind] at h15
  obtain ⟨s', hf, hv'⟩ := exists_of_toOption_map_eq h15
  exact ⟨s, hs, ⟨_, hrun⟩, hv.1, hv.2, s', hf, hv', by decide, by decide⟩

set_option maxRecDepth 100000 in

set_option maxRecDepth 100000 in

set_option maxRecDepth 100000 in

set_option maxRecDepth 100000 in
theorem ev20c : (run [.malloc 1]).map
      (fun p => (p.2, p.1.free_list.head?,
        (p.1.mem 55).map (fun h => (h.size, h.fib_index, h.is_free))))
    = some ([40], some 55, some (34, 7, true)) := by decide

/-- C20 (metadata fits its block), at a failing run.  On the fresh arena
`simulate_malloc(1)` returns the handle 40; the last split, of the block of
index 9 into buddies of indices 8 and 7, leaves at the head of the free list a
block at offset 55 of index 7 whose size, `fib_numbers[7] = 34`, is less than
`sizeof(BlockHeader)`. -/
theorem block_smaller_than_header :
    ∃ s, Reachable s [40] ∧ s.free_list.head? = some 55 ∧
      ∃ h, s.mem 55 = some h ∧ h.size = 34 ∧ h.fib_index = 7 ∧ h.is_free = true ∧
        h.size < sizeof_BlockHeader := by
  obtain ⟨⟨s, hs⟩, hrun, hv⟩ := exists_of_map_eq ev20c
  simp only [Prod.mk.injEq] at hv
  obtain ⟨h1, h2, h3⟩ := hv
  subst h1
  obtain ⟨h, hm, hh⟩ := exists_of_map_eq h3
  simp only [Prod.mk.injEq] at hh
  exact ⟨s, ⟨_, hrun⟩, h2, h, hm, hh.1, hh.2.1, hh.2.2, by rw [hh.1]; decide⟩

/-! ## The memory of the arena -/

theorem page_set_page (m : Bytes.Mem) (i v j : Nat) :
    Bytes.Mem.page (Bytes.Mem.set_page m i v) j = if j = i then v else Bytes.Mem.page m j := by
  induction m with
  | nil =>
    unfold Bytes.Mem.set_page
    by_cases h : j = i
    · simp [Bytes.Mem.page, h]
    · have h' : ¬ i = j := fun e => h e.symm
      simp [Bytes.Mem.page, h, h']
  | cons p m ih =>
    obtain ⟨k, w⟩ := p
    unfold Bytes.Mem.set_page
    by_cases hk : k = i
    · subst hk
      by_cases h : j = k
      · subst h; simp [Bytes.Mem.page]
      · have h' : ¬ k = j := fun e => h e.symm
        simp [Bytes.Mem.page, h, h']
    · simp only [hk, if_false]
      by_cases hkj : k = j
      · subst hkj
        simp [Bytes.Mem.page, hk]
      · simp only [Bytes.Mem.page, hkj, if_false, ih]

theorem digit_mod (x : Nat) {j k : Nat} (h : j < k) :
    x % 256 ^ k / 256 ^ j % 256 = x / 256 ^ j % 256 := by
  have e : 256 ^ k = 256 ^ j * 256 ^ (k - j) := by rw [← pow_add]; congr 1; omega
  rw [e, Nat.mod_mul_right_div_self]
  exact Nat.mod_mod_of_dvd _ (dvd_pow_self 256 (by omega))

theorem digit_div (x k j : Nat) : x / 256 ^ k / 256 ^ j % 256 = x / 256 ^ (k + j) % 256 := by
  rw [Nat.div_div_eq_div_mul, ← pow_add]

theorem put_bytes_eq (w k n v : Nat) :
    Bytes.put_bytes w k n v
      = w % 256 ^ k + 256 ^ k * (256 ^ n * (w / 256 ^ k / 256 ^ n) + v % 256 ^ n) := by
  unfold Bytes.put_bytes
  have h1 : w = 256 ^ k * (w / 256 ^ k) + w % 256 ^ k := (Nat.div_add_mod w (256 ^ k)).symm
  have h2 : w / 256 ^ k = 256 ^ n * (w / 256 ^ k / 256 ^ n) + w / 256 ^ k % 256 ^ n :=
    (Nat.div_add_mod (w / 256 ^ k) (256 ^ n)).symm
  generalize w / 256 ^ k = q at h1 h2 ⊢
  generalize w % 256 ^ k = lo at h1 ⊢
  generalize q % 256 ^ n = mid at h2 ⊢
  generalize q / 256 ^ n = hi at h2 ⊢
  subst h2
  subst h1
  have hsub : 256 ^ k * (256 ^ n * hi + mid) + lo - mid * 256 ^ k
      = 256 ^ k * (256 ^ n * hi) + lo := by
    have : 256 ^ k * (256 ^ n * hi + mid) + lo = 256 ^ k * (256 ^ n * hi) + lo + mid * 256 ^ k := by
      ring
    rw [this, Nat.add_sub_cancel]
  rw [hsub]; ring

/-- The bytes below those that `put_bytes` writes are unchanged. -/
theorem put_bytes_low (w k n v : Nat) : Bytes.put_bytes w k n v % 256 ^ k = w % 256 ^ k := by
  rw [put_bytes_eq, Nat.add_mul_mod_self_left, Nat.mod_mod]

/-- The bytes that `put_bytes` writes are the low `n` bytes of `v`. -/
theorem put_bytes_read (w k n v : Nat) :
    Bytes.put_bytes w k n v / 256 ^ k % 256 ^ n = v % 256 ^ n := by
  have hk : 0 < 256 ^ k := by positivity
  rw [put_bytes_eq, Nat.add_mul_div_left _ _ hk,
    Nat.div_eq_of_lt (Nat.mod_lt _ hk), Nat.zero_add, Nat.mul_add_mod, Nat.mod_mod]

/-- The bytes above those that `put_bytes` writes are unchanged. -/
theorem put_bytes_high (w k n v : Nat) :
    Bytes.put_bytes w k n v / 256 ^ (k + n) = w / 256 ^ (k + n) := by
  have hk : 0 < 256 ^ k := by positivity
  have hn : 0 < 256 ^ n := by positivity
  rw [pow_add, ← Nat.div_div_eq_div_mul, ← Nat.div_div_eq_div_mul, put_bytes_eq,
    Nat.add_mul_div_left _ _ hk, Nat.div_eq_of_lt (Nat.mod_lt _ hk), Nat.zero_add,
    Nat.mul_add_div hn, Nat.div_eq_of_lt (Nat.mod_lt _ hn), Nat.add_zero]

/-- The byte at position `j` of `put_bytes w k n v`: a byte of `v` inside the
window of `n` bytes from `k` on, the byte of `w` outside. -/
theorem put_bytes_digit (w k n v j : Nat) :
    Bytes.put_bytes w k n v / 256 ^ j % 256
      = if k ≤ j ∧ j < k + n then v / 256 ^ (j - k) % 256 else w / 256 ^ j % 256 := by
  by_cases h1 : j < k
  · rw [if_neg (by omega), ← digit_mod _ h1, put_bytes_low, digit_mod _ h1]
  · by_cases h2 : j < k + n
    · rw [if_pos ⟨by omega, h2⟩]
      have e : j = k + (j - k) := by omega
      conv_lhs => rw [e]
      rw [← digit_div, ← digit_mod _ (show j - k < n by omega), put_bytes_read,
        digit_mod _ (show j - k < n by omega)]
    · rw [if_neg (by omega)]
      have e : j = (k + n) + (j - (k + n)) := by omega
      rw [e, ← digit_div, ← digit_div, put_bytes_high]

theorem byte_set_page (m : Bytes.Mem) (i w b : Nat) :
    Bytes.Mem.byte (Bytes.Mem.set_page m i w) b
      = if b / Bytes.PAGE = i then w / 256 ^ (b % Bytes.PAGE) % 256 else Bytes.Mem.byte m b := by
  unfold Bytes.Mem.byte
  rw [page_set_page]
  by_cases h : b / Bytes.PAGE = i <;> simp [h]

/-- What a store does to the bytes of the arena: the `n` bytes from offset `a`
on become the low `n` bytes of `v`, lowest first, and every other byte keeps
its value. -/
theorem byte_store (m : Bytes.Mem) (a n v b : Nat) (hn : n ≤ Bytes.PAGE) :
    Bytes.Mem.byte (Bytes.Mem.store m a n v) b
      = if a ≤ b ∧ b < a + n then v / 256 ^ (b - a) % 256 else Bytes.Mem.byte m b := by
  have ha := Nat.div_add_mod a Bytes.PAGE
  have hb := Nat.div_add_mod b Bytes.PAGE
  have hka : a % Bytes.PAGE < Bytes.PAGE := Nat.mod_lt _ (by decide)
  have hkb : b % Bytes.PAGE < Bytes.PAGE := Nat.mod_lt _ (by decide)
  unfold Bytes.Mem.store
  by_cases hc : a % Bytes.PAGE + n ≤ Bytes.PAGE
  · simp only [hc, if_true, byte_set_page, put_bytes_digit]
    by_cases hp : b / Bytes.PAGE = a / Bytes.PAGE
    · rw [if_pos hp]
      have hba : b - a = b % Bytes.PAGE - a % Bytes.PAGE := by
        unfold Bytes.PAGE at *; omega
      by_cases hw : a % Bytes.PAGE ≤ b % Bytes.PAGE ∧ b % Bytes.PAGE < a % Bytes.PAGE + n
      · rw [if_pos hw, if_pos (by unfold Bytes.PAGE at *; omega), hba]
      · rw [if_neg hw, if_neg (by unfold Bytes.PAGE at *; omega)]
        unfold Bytes.Mem.byte; rw [hp]
    · rw [if_neg hp, if_neg]
      intro hr
      apply hp
      unfold Bytes.PAGE at *; omega
  · simp only [hc, if_false, byte_set_page, put_bytes_digit, page_set_page]
    rw [if_neg (show ¬ a / Bytes.PAGE + 1 = a / Bytes.PAGE by omega)]
    by_cases hp1 : b / Bytes.PAGE = a / Bytes.PAGE + 1
    · rw [if_pos hp1]
      by_cases hw : b % Bytes.PAGE < a % Bytes.PAGE + n - Bytes.PAGE
      · rw [if_pos ⟨Nat.zero_le _, by omega⟩, if_pos (by unfold Bytes.PAGE at *; omega),
          Nat.sub_zero, digit_div]
        congr 3
        unfold Bytes.PAGE at *; omega
      · rw [if_neg (by omega), if_neg (by unfold Bytes.PAGE at *; omega)]
        unfold Bytes.Mem.byte; rw [hp1]
    · rw [if_neg hp1]
      by_cases hp : b / Bytes.PAGE = a / Bytes.PAGE
      · rw [if_pos hp]
        by_cases hw : a % Bytes.PAGE ≤ b % Bytes.PAGE
        · rw [if_pos ⟨hw, by omega⟩, if_pos (by unfold Bytes.PAGE at *; omega)]
          congr 3
          unfold Bytes.PAGE at *; omega
        · rw [if_neg (by omega), if_neg (by unfold Bytes.PAGE at *; omega)]
          unfold Bytes.Mem.byte; rw [hp]
      · rw [if_neg hp, if_neg]
        intro hr
        unfold Bytes.PAGE at *; omega

theorem mod_pow_digits (x : Nat) : ∀ n : Nat,
    x % 256 ^ n = Finset.sum (Finset.range n) (fun t => x / 256 ^ t % 256 * 256 ^ t)
  | 0 => by simp [Nat.mod_one]
  | n + 1 => by
    rw [Finset.sum_range_succ, ← mod_pow_digits x n, Nat.mod_pow_succ]
    ring

/-- What a load reads: the `n` bytes from offset `a` on, lowest first. -/
theorem load_bytes (m : Bytes.Mem) (a n : Nat) (hn : n ≤ Bytes.PAGE) :
    Bytes.Mem.load m a n
      = Finset.sum (Finset.range n) (fun t => Bytes.Mem.byte m (a + t) * 256 ^ t) := by
  have ha := Nat.div_add_mod a Bytes.PAGE
  have hka : a % Bytes.PAGE < Bytes.PAGE := Nat.mod_lt _ (by decide)
  unfold Bytes.Mem.load
  by_cases hc : a % Bytes.PAGE + n ≤ Bytes.PAGE
  · simp only [hc, if_true]
    rw [mod_pow_digits]
    apply Finset.sum_congr rfl
    intro t ht
    rw [Finset.mem_range] at ht
    have h1 : (a + t) / Bytes.PAGE = a / Bytes.PAGE := by
      have := Nat.div_add_mod (a + t) Bytes.PAGE
      have := Nat.mod_lt (a + t) (show 0 < Bytes.PAGE by decide)
      unfold Bytes.PAGE at *; omega
    have h2 : (a + t) % Bytes.PAGE = a % Bytes.PAGE + t := by
      have := Nat.div_add_mod (a + t) Bytes.PAGE
      have := Nat.mod_lt (a + t) (show 0 < Bytes.PAGE by decide)
      unfold Bytes.PAGE at *; omega
    unfold Bytes.Mem.byte
    rw [h1, h2, digit_div]
  · simp only [hc, if_false]
    obtain ⟨n1, hn1⟩ : ∃ n1, n1 = Bytes.PAGE - a % Bytes.PAGE := ⟨_, rfl⟩
    obtain ⟨n2, hn2⟩ : ∃ n2, n2 = a % Bytes.PAGE + n - Bytes.PAGE := ⟨_, rfl⟩
    rw [← hn1, ← hn2]
    have hsum : n = n1 + n2 := by omega
    rw [hsum, Finset.sum_range_add, mod_pow_digits _ n1, mod_pow_digits _ n2, Finset.mul_sum]
    congr 1
    · apply Finset.sum_congr rfl
      intro t ht
      rw [Finset.mem_range] at ht
      have h1 : (a + t) / Bytes.PAGE = a / Bytes.PAGE := by
        have := Nat.div_add_mod (a + t) Bytes.PAGE
        have := Nat.mod_lt (a + t) (show 0 < Bytes.PAGE by decide)
        unfold Bytes.PAGE at *; omega
      have h2 : (a + t) % Bytes.PAGE = a % Bytes.PAGE + t := by
        have := Nat.div_add_mod (a + t) Bytes.PAGE
        have := Nat.mod_lt (a + t) (show 0 < Bytes.PAGE by decide)
        unfold Bytes.PAGE at *; omega
      unfold Bytes.Mem.byte
      rw [h1, h2, digit_div]
    · apply Finset.sum_congr rfl
      intro t ht
      rw [Finset.mem_range] at ht
      have h1 : (a + (n1 + t)) / Bytes.PAGE = a / Bytes.PAGE + 1 := by
        have := Nat.div_add_mod (a + (n1 + t)) Bytes.PAGE
        have := Nat.mod_lt (a + (n1 + t)) (show 0 < Bytes.PAGE by decide)
        unfold Bytes.PAGE at *; omega
      have h2 : (a + (n1 + t)) % Bytes.PAGE = t := by
        have := Nat.div_add_mod (a + (n1 + t)) Bytes.PAGE
        have := Nat.mod_lt (a + (n1 + t)) (show 0 < Bytes.PAGE by decide)
        unfold Bytes.PAGE at *; omega
      unfold Bytes.Mem.byte
      rw [h1, h2, pow_add]
      ring

/-- A field that was stored reads back as its low `n` bytes. -/
theorem load_store_same (m : Bytes.Mem) (a n v : Nat) (hn : n ≤ Bytes.PAGE) :
    Bytes.Mem.load (Bytes.Mem.store m a n v) a n = v % 256 ^ n := by
  rw [load_bytes _ _ _ hn, mod_pow_digits]
  apply Finset.sum_congr rfl
  intro t ht
  rw [Finset.mem_range] at ht
  rw [byte_store _ _ _ _ _ hn, if_pos ⟨by omega, by omega⟩, Nat.add_sub_cancel_left]

/-- A store leaves a field that it does not overlap as it was. -/
theorem load_store_other (m : Bytes.Mem) (a n v a' n' : Nat) (hn : n ≤ Bytes.PAGE)
    (hn' : n' ≤ Bytes.PAGE) (h : a' + n' ≤ a ∨ a + n ≤ a') :
    Bytes.Mem.load (Bytes.Mem.store m a n v) a' n' = Bytes.Mem.load m a' n' := by
  rw [load_bytes _ _ _ hn', load_bytes _ _ _ hn']
  apply Finset.sum_congr rfl
  intro t ht
  rw [Finset.mem_range] at ht
  rw [byte_store _ _ _ _ _ hn, if_neg (by omega)]

/-! ## Arena initialisation for every capacity -/

theorem fault_of_eq {α : Type} {x : Except Fault α} {e : Fault}
    (h : Bytes.fault_of x = some e) : x = .error e := by
  cases x with
  | ok a => cases h
  | error e' => simp only [Bytes.fault_of, Option.some.injEq] at h; rw [h]

set_option maxRecDepth 100000 in
theorem bytes_ev_init : (Bytes.init Bytes.ARENA).toOption.map
      (fun s => (s.free_list, s.header 0, s.links 0, s.allocated_memory, s.simulated_heap_size))
    = some ([0], (1836311903, 44, true), (0, 0), 0, 1836311903) := by decide!

set_option maxRecDepth 100000 in
theorem bytes_ev_init_table : (Bytes.init Bytes.ARENA).toOption.map
      (fun s => ([8, 9, 44].map s.fib_numbers.get?,
        target_loop (Bytes.align_size s 1) s.fib_numbers 0))
    = some ([some 55, some 89, some 1836311903], 8) := by decide!

set_option maxRecDepth 100000 in
theorem bytes_ev_one : (Bytes.run Bytes.ARENA [.malloc 1]).map
      (fun p => (p.2, p.1.free_list.take 3, [0, 55, 89].map p.1.header))
    = some ([40], [55, 89, 144], [(55, 8, false), (34, 7, true), (0, 8, true)]) := by decide!

set_option maxRecDepth 100000 in
theorem bytes_ev_round_trip : (Bytes.run Bytes.ARENA [.malloc 1, .free 40]).map
      (fun p => (p.2, p.1.free_list.length :: p.1.free_list.take 2, [0, 144].map p.1.header))
    = some ([], [35, 0, 144], [(89, 10, true), (89, 9, true)]) := by decide!

set_option maxRecDepth 100000 in
theorem bytes_ev_valid : (Bytes.run Bytes.ARENA [.malloc 100, .malloc 1]).map
      (fun p => (p.2, (Bytes.validate_free_list p.1).toOption))
    = some ([184, 40], some 34) := by decide!

set_option maxRecDepth 100000 in
theorem bytes_ev_invalid : (Bytes.run Bytes.ARENA [.malloc 100, .malloc 1, .malloc 15]).map
      (fun p => (p.2, [p.1.free_list_head, (p.1.links 199).2], p.1.header 199))
    = some ([273, 184, 40], [Bytes.ARENA + 199, 3604480], (34, 7, true)) := by decide!

set_option maxRecDepth 100000 in
theorem bytes_ev_invalid_fault :
    (Bytes.run Bytes.ARENA [.malloc 100, .malloc 1, .malloc 15]).map
      (fun p => Bytes.fault_of (Bytes.validate_free_list p.1))
    = some (some .assertion) := by decide!

set_option maxRecDepth 100000 in
theorem bytes_ev_four : (Bytes.run Bytes.ARENA [.malloc 1, .malloc 1, .malloc 1, .malloc 100]).map
      (fun p => (p.2, p.1.simulated_heap_size :: p.1.free_list.take 3,
        [0, 89, 144, 233].map p.1.header))
    = some ([273, 184, 129, 40], [1836311903, 55, 199, 377],
        [(55, 8, false), (0, 8, false), (55, 8, false), (2130706432, 10, false)]) := by decide!

set_option maxRecDepth 100000 in
theorem bytes_ev_two : (Bytes.run Bytes.ARENA [.malloc 100, .malloc 100]).map
      (fun p => (p.2, [0, 233].map p.1.header, p.1.allocated_memory))
    = some ([273, 40], [(144, 10, false), (144, 10, false)], 288) := by decide!

set_option maxRecDepth 100000 in
theorem bytes_ev_three : (Bytes.run Bytes.ARENA [.malloc 100, .malloc 100, .malloc 1]).map
      (fun p => (p.2, [144, 233, 0].map p.1.header, p.1.allocated_memory))
    = some ([184, 273, 40], [(55, 8, false), (0, 10, false), (144, 10, false)], 343) := by decide!

/-- C3 (round trip), at a failing input.  With the arena at `ARENA`, the fresh
arena holds one free block at offset 0 with size 1836311903 and index 44;
`h = simulate_malloc(1)` returns the handle 40 and `simulate_free(h)` returns,
but the free list then has 35 entries, the first two at offsets 0 and 144 with
sizes 89 and 89 and indices 10 and 9, instead of the one block of index 44. -/
theorem round_trip_fails_after_short_split :
    (∃ s0, Bytes.init Bytes.ARENA = .ok s0 ∧ s0.free_list = [0] ∧
      s0.header 0 = (1836311903, 44, true)) ∧
    (∃ s1, Bytes.run Bytes.ARENA [.malloc 1] = some (s1, [40])) ∧
    ∃ s2, Bytes.run Bytes.ARENA [.malloc 1, .free 40] = some (s2, []) ∧
      s2.free_list.length = 35 ∧ s2.free_list.take 2 = [0, 144] ∧
      s2.header 0 = (89, 10, true) ∧ s2.header 144 = (89, 9, true) := by
  refine ⟨?_, ?_, ?_⟩
  · obtain ⟨s0, h0, hv⟩ := exists_of_toOption_map_eq bytes_ev_init
    simp only [Prod.mk.injEq] at hv
    exact ⟨s0, h0, hv.1, hv.2.1⟩
  · obtain ⟨⟨s, hs⟩, hrun, hv⟩ := exists_of_map_eq bytes_ev_one
    simp only [Prod.mk.injEq] at hv
    obtain ⟨h1, _⟩ := hv
    subst h1
    exact ⟨s, hrun⟩
  · obtain ⟨⟨s, hs⟩, hrun, hv⟩ := exists_of_map_eq bytes_ev_round_trip
    simp only [Prod.mk.injEq, List.cons.injEq, List.map, and_true] at hv
    obtain ⟨h1, ⟨h2, h3⟩, h4, h5⟩ := hv
    subst h1
    exact ⟨s, hrun, h2, h3, h4, h5⟩

/-- C6 (free-list order invariant), at a failing run.  With the arena at
`ARENA`, after `malloc(100)` and `malloc(1)` the function `validate_free_list`
still returns (34 entries); after the further `malloc(15)` (handles 40, 184 and
273 outstanding) the head of the free list is the block at offset 199, of size
34 and index 7, its `prev_free` holds 3604480 instead of `NULL`, and
`validate_free_list` ends in a failed assertion. -/
theorem free_list_invalid_after_short_split :
    (∃ s, Bytes.run Bytes.ARENA [.malloc 100, .malloc 1] = some (s, [184, 40]) ∧
      Bytes.validate_free_list s = .ok 34) ∧
    ∃ s, Bytes.run Bytes.ARENA [.malloc 100, .malloc 1, .malloc 15] = some (s, [273, 184, 40]) ∧
      s.free_list_head = Bytes.ARENA + 199 ∧ s.header 199 = (34, 7, true) ∧
      (s.links 199).2 = 3604480 ∧
      Bytes.validate_free_list s = .error .assertion := by
  constructor
  · obtain ⟨⟨s, hs⟩, hrun, hv⟩ := exists_of_map_eq bytes_ev_valid
    simp only [Prod.mk.injEq] at hv
    obtain ⟨h1, h2⟩ := hv
    subst h1
    refine ⟨s, hrun, ?_⟩
    cases hval : Bytes.validate_free_list s with
    | error e => rw [hval] at h2; cases h2
    | ok n =>
      rw [hval] at h2
      simp only [Except.toOption, Option.some.injEq] at h2
      rw [h2]
  · obtain ⟨⟨s, hs⟩, hrun, hv⟩ := exists_of_map_eq bytes_ev_invalid
    simp only [Prod.mk.injEq, List.cons.injEq, and_true] at hv
    obtain ⟨h1, ⟨h2, h3⟩, h4⟩ := hv
    subst h1
    have hf := bytes_ev_invalid_fault
    rw [hrun] at hf
    simp only [Option.map_some', Option.some.injEq] at hf
    exact ⟨s, hrun, h2, h4, h3, fault_of_eq hf⟩

/-- C17 (split layout), at a failing input.  With the arena at `ARENA`, the
fresh arena holds one block, at offset 0 with index 44 and size
`fib_numbers[44]`; `simulate_malloc(1)` has target index 8 and returns the
handle 40 for the block at 0 (now of index 8, size 55).  For `j = 10` the
layout asks for a free block at `0 + fib_numbers[9] = 89` with index 8 and
size `fib_numbers[8] = 55`: the free list does hold the block at 89 with index
8, but its `size` field is 0. -/
theorem split_layout_fails_at_short_block :
    (∃ s0, Bytes.init Bytes.ARENA = .ok s0 ∧ s0.free_list = [0] ∧
      s0.header 0 = (1836311903, 44, true) ∧ s0.fib_numbers.get? 44 = some 1836311903 ∧
      s0.fib_numbers.get? 9 = some 89 ∧ s0.fib_numbers.get? 8 = some 55 ∧
      target_loop (Bytes.align_size s0 1) s0.fib_numbers 0 = 8) ∧
    ∃ s1, Bytes.run Bytes.ARENA [.malloc 1] = some (s1, [40]) ∧
      s1.header 0 = (55, 8, false) ∧ s1.free_list.take 3 = [55, 89, 144] ∧
      s1.header 89 = (0, 8, true) := by
  constructor
  · obtain ⟨s0, h0, hv⟩ := exists_of_toOption_map_eq bytes_ev_init
    obtain ⟨s0', h0', hv'⟩ := exists_of_toOption_map_eq bytes_ev_init_table
    rw [h0] at h0'
    cases h0'
    simp only [Prod.mk.injEq, List.cons.injEq, List.map, and_true] at hv hv'
    exact ⟨s0, h0, hv.1, hv.2.1, hv'.1.2.2, hv'.1.2.1, hv'.1.1, hv'.2⟩
  · obtain ⟨⟨s, hs⟩, hrun, hv⟩ := exists_of_map_eq bytes_ev_one
    simp only [Prod.mk.injEq, List.cons.injEq, List.map, and_true] at hv
    obtain ⟨h1, h2, h3, _, h5⟩ := hv
    subst h1
    exact ⟨s, hrun, h3, h2, h5⟩

/-- C18 (no overlapping allocations), at a failing run.  With the arena at
`ARENA`, after `malloc(1)` three times and `malloc(100)` the handles 40, 129,
184 and 273 are outstanding; the block of the handle 273, at offset 233, has
the `size` field 2130706432, so its extent ends beyond
`simulated_heap_size = 1836311903` and contains the free-list block at offset
377.  (The block of the handle 129, at offset 89, has the `size` field 0.) -/
theorem allocated_block_leaves_arena :
    ∃ s, Bytes.run Bytes.ARENA [.malloc 1, .malloc 1, .malloc 1, .malloc 100]
        = some (s, [273, 184, 129, 40]) ∧
      s.simulated_heap_size = 1836311903 ∧
      s.header (273 - sizeof_BlockHeader) = (2130706432, 10, false) ∧
      s.simulated_heap_size < 273 - sizeof_BlockHeader + 2130706432 ∧
      s.free_list.take 3 = [55, 199, 377] ∧
      273 - sizeof_BlockHeader ≤ 377 ∧ 377 < 273 - sizeof_BlockHeader + 2130706432 ∧
      s.header (129 - sizeof_BlockHeader) = (0, 8, false) := by
  obtain ⟨⟨s, hs⟩, hrun, hv⟩ := exists_of_map_eq bytes_ev_four
  simp only [Prod.mk.injEq, List.cons.injEq, List.map, and_true] at hv
  obtain ⟨h1, ⟨h2, h3⟩, _, h5, _, h7⟩ := hv
  subst h1
  refine ⟨s, hrun, h2, h7, ?_, h3, by decide, by decide, h5⟩
  rw [h2]; decide

/-- C19 (allocated-byte counter), at a failing run.  With the arena at `ARENA`,
after `malloc(100)` twice (handles 40 and 273) `allocated_memory` is 288 and
the block at offset 233 has size 144; after the further `malloc(1)` (handle
184) `allocated_memory` is 343, while the `size` fields of the three
outstanding blocks, at offsets 144, 233 and 0, are 55, 0 and 144, with sum
199: the call has zeroed the size of the block at 233. -/
theorem counter_differs_from_block_sizes :
    (∃ s, Bytes.run Bytes.ARENA [.malloc 100, .malloc 100] = some (s, [273, 40]) ∧
      s.allocated_memory = 288 ∧ s.header (273 - sizeof_BlockHeader) = (144, 10, false)) ∧
    ∃ s, Bytes.run Bytes.ARENA [.malloc 100, .malloc 100, .malloc 1] = some (s, [184, 273, 40]) ∧
      s.allocated_memory = 343 ∧
      [184, 273, 40].map (fun h => (s.header (h - sizeof_BlockHeader)).1) = [55, 0, 144] ∧
      ([184, 273, 40].map (fun h => (s.header (h - sizeof_BlockHeader)).1)).sum = 199 := by
  constructor
  · obtain ⟨⟨s, hs⟩, hrun, hv⟩ := exists_of_map_eq bytes_ev_two
    simp only [Prod.mk.injEq, List.cons.injEq, List.map, and_true] at hv
    obtain ⟨h1, ⟨_, h3⟩, h4⟩ := hv
    subst h1
    exact ⟨s, hrun, h4, h3⟩
  · obtain ⟨⟨s, hs⟩, hrun, hv⟩ := exists_of_map_eq bytes_ev_three
    simp only [Prod.mk.injEq, List.cons.injEq, List.map, and_true] at hv
    obtain ⟨h1, ⟨h2, h3, h4⟩, h5⟩ := hv
    subst h1
    have e1 : s.header (184 - sizeof_BlockHeader) = (55, 8, false) := h2
    have e2 : s.header (273 - sizeof_BlockHeader) = (0, 10, false) := h3
    have e3 : s.header (40 - sizeof_BlockHeader) = (144, 10, false) := h4
    refine ⟨s, hrun, h5, ?_, ?_⟩
    · simp only [List.map, e1, e2, e3]
    · simp only [List.map, e1, e2, e3]; decide

/-! ## The end of `try_merge`, on the arena as bytes -/

/-- When `try_merge` returns, a second run of `try_merge` on the block at which
the first one ended returns at once and changes nothing: the iteration that
ended the first run finds no buddy to merge, and the second run repeats it in
the same state. -/
theorem try_merge_again_at_end : ∀ (fuel : Nat) (s : Bytes.Heap) (b : Nat) (s' : Bytes.Heap)
    (b' : Nat), Bytes.try_merge fuel s b = .ok (s', b') →
    ∀ n, Bytes.try_merge (n + 1) s' b' = .ok (s', b') := by
  intro fuel
  induction fuel with
  | zero => intro s b s' b' h; cases h
  | succ fuel ih =>
    intro s b s' b' h n
    unfold Bytes.try_merge at h
    cases hm : Bytes.merge_step s b with
    | error e => rw [hm] at h; cases h
    | ok r =>
      rw [hm] at h
      cases r with
      | none =>
        have h1 : (s, b) = (s', b') := by
          simpa [bind, Except.bind, pure, Except.pure] using h
        cases h1
        unfold Bytes.try_merge
        rw [hm]
        rfl
      | some p =>
        obtain ⟨s1, b1⟩ := p
        exact ih s1 b1 s' b' h n

/-! ## The runs evaluated on the record model, on the arena as bytes

The scripts evaluated above on the model that keeps headers as records, run
with the headers as bytes of the arena at `ARENA`: the blocks, the free lists
and the counter are the same. -/

/-- The script `malloc(500000000)`, `malloc(500000000)`, `free` of the second
handle: one free-list entry, at 701408733, with size 1134903170 and index 42. -/
theorem bytes_agree_left_merge :
    (Bytes.run Bytes.ARENA [.malloc 500000000, .malloc 500000000, .free 1134903210]).map
      (fun p => (p.2, p.1.free_list, p.1.free_list.map p.1.header))
    = some ([40], [701408733], [(1134903170, 42, true)]) := by decide!

/-- The same script followed by `malloc(300000000)`: the blocks at 0, 701408733
and 1134903170 have sizes 701408733, 433494437 and 267914296, which end at
1402817466, below `simulated_heap_size`. -/
theorem bytes_agree_tiling :
    (Bytes.run Bytes.ARENA [.malloc 500000000, .malloc 500000000, .free 1134903210,
      .malloc 300000000]).map
      (fun p => (p.2, p.1.simulated_heap_size :: p.1.free_list,
        [0, 701408733, 1134903170].map p.1.header))
    = some ([701408773, 40], [1836311903, 1134903170],
        [(701408733, 42, false), (433494437, 41, false), (267914296, 40, true)]) := by decide!

/-- The script `malloc(16)`: the handle 40, the head of the free list at 89,
a block of size 55 and index 8, and `allocated_memory` at 89. -/
theorem bytes_agree_sixteen :
    (Bytes.run Bytes.ARENA [.malloc 16]).map
      (fun p => (p.2, [p.1.free_list_head, p.1.allocated_memory], [0, 89].map p.1.header))
    = some ([40], [Bytes.ARENA + 89, 89], [(89, 9, false), (55, 8, true)]) := by decide!

/-- After `malloc(16)`, the requests of `SIZE_MAX` and of `SIZE_MAX - 1` bytes
both return the handle 129 for the block of size 55 and index 8 at offset 89,
and leave the head of the free list at 144 and `allocated_memory` at 144. -/
theorem bytes_agree_wrap :
    [2 ^ 64 - 1, 2 ^ 64 - 2].map (fun n => ((Bytes.run Bytes.ARENA [.malloc 16]).bind
      (fun p => (Bytes.simulate_malloc p.1 n).toOption)).map
      (fun r => ([r.1, r.2.free_list_head, r.2.allocated_memory], r.2.header 89)))
    = [some ([Bytes.ARENA + 129, Bytes.ARENA + 144, 144], (55, 8, false)),
       some ([Bytes.ARENA + 129, Bytes.ARENA + 144, 144], (55, 8, false))] := by decide!

/-- On the fresh arena the request of `2 ^ 64 - 39` bytes does not return.  The
splits go below the blocks that can hold a header; the split of the block of
index 6 stores the size of the right buddy over the `fib_index` of the block
at 0, which ends the splitting loop, and `remove_free_block` then stores
through a `prev_free` that the overlapping headers have overwritten with an
address outside the arena. -/
theorem bytes_agree_fault :
    (Bytes.init Bytes.ARENA).toOption.map
      (fun s => Bytes.fault_of (Bytes.simulate_malloc s (2 ^ 64 - 39)))
    = some (some .undefined) := by decide!

/-- The script `malloc(500000000)`, `malloc(300000000)`, `free` of the second
handle, `free` of the first, and `free` of the second handle once more: the
second `free` returns, with the free list 0, 701408733 and the counter wrapped
to `2 ^ 64 - 433494437`. -/
theorem bytes_agree_double_free :
    ((Bytes.run Bytes.ARENA [.malloc 500000000, .malloc 300000000, .free 701408773,
      .free 40]).bind
      (fun p => (Bytes.simulate_free p.1 (Bytes.ARENA + 701408773)).toOption)).map
      (fun s => (s.free_list, s.allocated_memory))
    = some ([0, 701408733], 2 ^ 64 - 433494437) := by decide!

/-- The script `malloc(500000000)`, `malloc(500000000)` followed by the two
frees in the order of allocation: two free blocks are left. -/
theorem bytes_agree_remerge :
    (Bytes.run Bytes.ARENA [.malloc 500000000, .malloc 500000000, .free 40,
      .free 1134903210]).map
      (fun p => (p.2, p.1.free_list, p.1.free_list.map p.1.header))
    = some ([], [0, 1134903170], [(1134903170, 43, true), (701408733, 42, true)]) := by
  decide!

/-- The same two requests followed by the two frees in the other order: two
free blocks are left as well. -/
theorem bytes_agree_remerge_reverse :
    (Bytes.run Bytes.ARENA [.malloc 500000000, .malloc 500000000, .free 1134903210,
      .free 40]).map
      (fun p => (p.2, p.1.free_list, p.1.free_list.map p.1.header))
    = some ([], [0, 701408733], [(701408733, 42, true), (1134903170, 42, true)]) := by
  decide!

/-- The script `malloc(300000000)`, `malloc(200000000)`, `free` of the first
handle, `free` of the second: the block at 433494437, of index 40, stays on the
free list between the blocks at 0 and 701408733, both of index 41. -/
theorem bytes_agree_unmerged :
    (Bytes.run Bytes.ARENA [.malloc 300000000, .malloc 200000000, .free 40,
      .free 433494477]).map
      (fun p => (p.2, p.1.free_list, p.1.free_list.map p.1.header))
    = some ([], [0, 433494437, 701408733, 1134903170],
        [(433494437, 41, true), (267914296, 40, true), (433494437, 41, true),
          (701408733, 42, true)]) := by decide!

end FiboHeap
